import Mathlib

/-!
Verification of the hyperlocal creative-generation pipeline.

Strings from the Python code are modelled as `List Char`.  Python's `str.lower`
is modelled on its ASCII fragment (every string manipulated by the pipeline is
ASCII); `str.strip`/`split` whitespace is the ASCII whitespace set that Python's
`\s` matches on such strings.
-/

/-- ASCII whitespace characters, the characters Python's regex `\s` and
`str.strip`/`str.split` treat as whitespace on ASCII text:
space, tab, newline, carriage return, vertical tab, form feed. -/
def isPySpace (c : Char) : Bool :=
  c == ' ' || c == '\t' || c == '\n' || c == '\r' || c == Char.ofNat 11 || c == Char.ofNat 12

/-- ASCII model of Python `str.lower` applied character-wise. -/
def pyLowerChar (c : Char) : Char :=
  if 'A' ≤ c && c ≤ 'Z' then Char.ofNat (c.toNat + 32) else c

/-- ASCII model of Python `str.lower`. -/
def pyLower (s : List Char) : List Char := s.map pyLowerChar

/-- Python `str.lstrip()`. -/
def pyLStrip (s : List Char) : List Char := s.dropWhile isPySpace

/-- Python `str.rstrip()`. -/
def pyRStrip (s : List Char) : List Char := (s.reverse.dropWhile isPySpace).reverse

/-- Python `str.strip()`. -/
def pyStrip (s : List Char) : List Char := pyRStrip (pyLStrip s)

/-- Whether `pat` is a prefix of `s` (Boolean, own definition so that the
development is self-contained). -/
def startsWithTok : List Char → List Char → Bool
  | _, [] => true
  | [], _ :: _ => false
  | c :: cs, p :: ps => c == p && startsWithTok cs ps

/-- Python's `needle in haystack` substring test: some suffix of `hay`
starts with `tok`. -/
def containsTok (hay tok : List Char) : Bool :=
  (List.range (hay.length + 1)).any (fun i => startsWithTok (hay.drop i) tok)

/-- Split a list at every occurrence of the separator character, Python
`str.split(sep)` with a one-character separator: `"".split(".") = [""]`,
separators at the ends produce empty pieces. -/
def pySplitChar (sep : Char) : List Char → List (List Char)
  | [] => [[]]
  | c :: cs =>
    let rest := pySplitChar sep cs
    if c == sep then [] :: rest
    else
      match rest with
      | [] => [[c]]
      | piece :: pieces => (c :: piece) :: pieces

/-- Runs of non-whitespace characters, Python `str.split()` with no
argument (which drops empty pieces). -/
def pyWords : List Char → List (List Char)
  | [] => []
  | c :: cs =>
    let rest := pyWords cs
    if isPySpace c then rest
    else
      match cs with
      | [] => [[c]]
      | c' :: _ =>
        if isPySpace c' then [c] :: rest
        else
          match rest with
          | [] => [[c]]
          | w :: ws => (c :: w) :: ws

/-- Python `"sep".join(pieces)`. -/
def pyJoin (sep : List Char) : List (List Char) → List Char
  | [] => []
  | [p] => p
  | p :: ps => p ++ sep ++ pyJoin sep ps

/-- Greedy left-to-right replacement of a non-empty pattern `p :: ps` by
`repl`, Python `str.replace`. -/
def pyReplace (p : Char) (ps repl : List Char) : List Char → List Char
  | [] => []
  | c :: cs =>
    if startsWithTok (c :: cs) (p :: ps) then
      repl ++ pyReplace p ps repl ((c :: cs).drop (ps.length + 1))
    else
      c :: pyReplace p ps repl cs
termination_by s => s.length
decreasing_by
  · simp only [List.length_drop, List.length_cons]
    omega
  · simp

/-! ## Data model (src/hyperlocal/schemas.py) -/

/-- BrandStyle from schemas.py: palette, style keywords, layout and
typography guidance. -/
structure BrandStyle where
  palette : List (List Char)
  style_keywords : List (List Char)
  layout_guidance : List Char
  typography_guidance : List Char
deriving DecidableEq, Repr

/-- CopyVariant from schemas.py: five plain-text fields, the disclaimer
optional. -/
structure CopyVariant where
  headline : List Char
  subhead : List Char
  body : List Char
  cta : List Char
  disclaimer : Option (List Char)
deriving DecidableEq, Repr

/-! ## QC phrase matching (src/backend/hyperlocal/qc.py) -/

/-- Characters kept by the regex `[^a-z0-9\s]` substitution in
`qc._normalize`: lower-case letters, digits and whitespace. -/
def qcKeepChar (c : Char) : Bool :=
  ('a' ≤ c && c ≤ 'z') || ('0' ≤ c && c ≤ '9') || isPySpace c

/-- Replace every run of whitespace by a single space, the
`re.sub(r"\s+", " ", text)` step of `qc._normalize`.  The flag records
whether the previous character was whitespace. -/
def collapseWs : Bool → List Char → List Char
  | _, [] => []
  | prevSp, c :: cs =>
    if isPySpace c then
      if prevSp then collapseWs true cs else ' ' :: collapseWs true cs
    else c :: collapseWs false cs

/-- Normalization from qc.py `_normalize`: lower-case, replace every
non-alphanumeric character by a space, collapse whitespace runs, strip. -/
def qcNormalize (s : List Char) : List Char :=
  pyStrip (collapseWs false ((pyLower s).map (fun c => if qcKeepChar c then c else ' ')))

/-! ## difflib.SequenceMatcher, as used by `qc._phrase_match`

The matcher is instantiated as `SequenceMatcher(None, needle, haystack)`:
no junk predicate, `autojunk` left at its default.  With no junk predicate
the junk set is empty, so only the autojunk "popular element" rule can
remove positions from the index of the second sequence. -/

/-- Best matching block state: start in `a`, start in `b`, length. -/
structure SmBest where
  besti : Nat
  bestj : Nat
  bestsize : Nat
deriving DecidableEq, Repr

/-- Ascending list of the positions of `c` in `b`. -/
def smPositions (b : List Char) (c : Char) : List Nat :=
  (List.range b.length).filter (fun j => b.getD j ' ' == c)

/-- The `b2j` index of `SequenceMatcher.__chain_b`: positions of each
character of `b`, with "popular" characters dropped when autojunk applies
(second sequence of length at least 200, character occurring more than
`len(b) // 100 + 1` times). -/
def smB2j (b : List Char) (c : Char) : List Nat :=
  let idxs := smPositions b c
  if 200 ≤ b.length ∧ b.length / 100 + 1 < idxs.length then [] else idxs

/-- One row of the `find_longest_match` dynamic program: scan the positions
of `a[i]` in `b` (restricted to `[blo, bhi)`), building the new run-length
map from the previous row's map `old` and updating the best block on a
strictly longer run, exactly as the Python loop does. -/
def smRow (old : Nat → Nat) (i : Nat) (js : List Nat)
    (acc : (Nat → Nat) × SmBest) : (Nat → Nat) × SmBest :=
  js.foldl
    (fun acc2 j =>
      let k := (if j = 0 then 0 else old (j - 1)) + 1
      let nmap := fun x => if x = j then k else acc2.1 x
      if acc2.2.bestsize < k then (nmap, ⟨i + 1 - k, j + 1 - k, k⟩) else (nmap, acc2.2))
    acc

/-- The row-by-row dynamic program of `find_longest_match` over the rows
listed in `is`.  Each row starts from an empty run-length map; the best
block carries across rows. -/
def smDP (a b : List Char) (blo bhi : Nat) : List Nat → (Nat → Nat) × SmBest → (Nat → Nat) × SmBest
  | [], acc => acc
  | i :: is, (old, best) =>
    let js := (smB2j b (a.getD i ' ')).filter (fun j => decide (blo ≤ j) && decide (j < bhi))
    smDP a b blo bhi is (smRow old i js ((fun _ => 0), best))

/-- Leftward extension loop of `find_longest_match` (the junk set is empty,
so the guard is plain character equality).  `fuel` only bounds the loop;
`besti` of the state strictly decreases, so initial fuel `besti` is exact. -/
def smExtLow (a b : List Char) (alo blo : Nat) : Nat → SmBest → SmBest
  | 0, st => st
  | fuel + 1, st =>
    if alo < st.besti ∧ blo < st.bestj ∧
        a.getD (st.besti - 1) ' ' = b.getD (st.bestj - 1) ' ' then
      smExtLow a b alo blo fuel ⟨st.besti - 1, st.bestj - 1, st.bestsize + 1⟩
    else st

/-- Rightward extension loop of `find_longest_match`.  `bestsize` strictly
increases and is bounded by `ahi`, so initial fuel `ahi` is exact. -/
def smExtHigh (a b : List Char) (ahi bhi : Nat) : Nat → SmBest → SmBest
  | 0, st => st
  | fuel + 1, st =>
    if st.besti + st.bestsize < ahi ∧ st.bestj + st.bestsize < bhi ∧
        a.getD (st.besti + st.bestsize) ' ' = b.getD (st.bestj + st.bestsize) ' ' then
      smExtHigh a b ahi bhi fuel ⟨st.besti, st.bestj, st.bestsize + 1⟩
    else st

/-- `SequenceMatcher.find_longest_match` on `[alo, ahi) × [blo, bhi)`:
dynamic program, then the two extension loops. -/
def smFindLongestMatch (a b : List Char) (alo ahi blo bhi : Nat) : SmBest :=
  let st0 := (smDP a b blo bhi (List.range' alo (ahi - alo)) ((fun _ => 0), ⟨alo, blo, 0⟩)).2
  let st1 := smExtLow a b alo blo st0.besti st0
  smExtHigh a b ahi bhi ahi st1

/-- Total size of the matching blocks of `get_matching_blocks` on a
sub-range: the longest match plus the sums on the sub-ranges to its left
and right, recursing only into non-empty sides, as the queue loop does.
Each level shrinks the combined range size by at least one, so fuel
`len(a) + len(b) + 1` never runs out from the top-level call. -/
def smMatchSum (a b : List Char) : Nat → Nat → Nat → Nat → Nat → Nat
  | 0, _, _, _, _ => 0
  | fuel + 1, alo, ahi, blo, bhi =>
    let st := smFindLongestMatch a b alo ahi blo bhi
    if st.bestsize = 0 then 0
    else
      (if alo < st.besti ∧ blo < st.bestj then smMatchSum a b fuel alo st.besti blo st.bestj
       else 0)
      + st.bestsize
      + (if st.besti + st.bestsize < ahi ∧ st.bestj + st.bestsize < bhi then
           smMatchSum a b fuel (st.besti + st.bestsize) ahi (st.bestj + st.bestsize) bhi
         else 0)

/-- Sum of the matching-block sizes of `SequenceMatcher(None, a, b)`, the
`sum(triple[-1] for triple in self.get_matching_blocks())` of `ratio`. -/
def smTotalMatches (a b : List Char) : Nat :=
  smMatchSum a b (a.length + b.length + 1) 0 a.length 0 b.length

/-- `SequenceMatcher.ratio`: `2.0 * M / T` with `T = len(a) + len(b)`, and
`0.0` when `T = 0`, as an exact rational. -/
def smRatio (a b : List Char) : ℚ :=
  if a.length + b.length = 0 then 0
  else (2 * smTotalMatches a b : ℚ) / (a.length + b.length : ℚ)

/-- Decidable form of `ratio >= 0.75`. -/
def smRatioGe34 (a b : List Char) : Bool :=
  decide (a.length + b.length ≠ 0) ∧ decide (3 * (a.length + b.length) ≤ 8 * smTotalMatches a b)

/-- `qc._phrase_match`: empty needle matches; otherwise literal substring,
otherwise similarity ratio at least 0.75. -/
def phraseMatchB (needle hay : List Char) : Bool :=
  if needle.isEmpty then true
  else if containsTok hay needle then true
  else smRatioGe34 needle hay

/-- Loop of `qc.validate_text` over the expected phrases, with the OCR text
already normalized. -/
def validateTextAux (nocr : List Char) : List (List Char) → Bool
  | [] => true
  | p :: ps =>
    let np := qcNormalize p
    if np.isEmpty then validateTextAux nocr ps
    else if containsTok nocr np then validateTextAux nocr ps
    else if phraseMatchB np nocr then validateTextAux nocr ps
    else false

/-- `qc.validate_text`: every expected phrase whose normalized form is
non-empty must be found (literally or by similarity) in the normalized OCR
text. -/
def validate_text (phrases : List (List Char)) (ocr : List Char) : Bool :=
  validateTextAux (qcNormalize ocr) phrases

/-! ## Copy constraint enforcement and copy generation
(src/backend/hyperlocal/pipeline.py)

External model calls (`chat_json` composed with pydantic construction of
the reply) are modelled as oracle values supplied through an environment:
the oracle for a call yields either the constructed value or the raised
exception, covering every possible behaviour of the model and parser. -/

/-- A raised Python exception, identified by its message (`str(exc)`). -/
structure PyExn where
  msg : List Char
deriving DecidableEq, Repr

/-- The `word_count` helper of `FlyerPipeline._within_constraints`:
`len([w for w in text.strip().split() if w])`. -/
def wordCount (text : List Char) : Nat :=
  ((pyWords (pyStrip text)).filter (fun w => !w.isEmpty)).length

/-- `FlyerPipeline._within_constraints`: word-count budgets on the five
fields (the disclaimer may be absent, `variant.disclaimer or ""`). -/
def withinConstraints (v : CopyVariant) : Bool :=
  (1 ≤ wordCount v.headline && wordCount v.headline ≤ 6) &&
  (1 ≤ wordCount v.subhead && wordCount v.subhead ≤ 10) &&
  (1 ≤ wordCount v.body && wordCount v.body ≤ 28) &&
  (1 ≤ wordCount v.cta && wordCount v.cta ≤ 4) &&
  (wordCount (v.disclaimer.getD []) ≤ 12)

/-- `FlyerPipeline._ensure_constraints`: a variant within the budgets is
returned unchanged with no model call; otherwise one rewrite request is
issued and its outcome (`CopyVariant(**chat_json(...))`, which may itself
raise) is returned as-is.  The second component counts rewrite requests. -/
def ensureConstraints (rewrite : Except PyExn CopyVariant) (v : CopyVariant) :
    Except PyExn CopyVariant × Nat :=
  if withinConstraints v then (.ok v, 0) else (rewrite, 1)

/-- The list comprehension `[self._ensure_constraints(v, ...) for v in vs]`:
enforcement applied in order, the first raised exception propagating. -/
def enforceAll (rw : CopyVariant → Except PyExn CopyVariant) :
    List CopyVariant → Except PyExn (List CopyVariant)
  | [] => .ok []
  | v :: vs =>
    match (ensureConstraints (rw v) v).1 with
    | .error e => .error e
    | .ok v' =>
      match enforceAll rw vs with
      | .error e => .error e
      | .ok vs' => .ok (v' :: vs')

/-- Oracle environment for `generate_copy_variants`: coerced outcome of the
main generation call of each outer attempt, coerced outcome of the padding
call of each outer attempt, and the rewrite oracle of the constraint
enforcer. -/
structure CopyGenEnv where
  attempts : Nat → Except PyExn (List CopyVariant)
  pads : Nat → Except PyExn (List CopyVariant)
  rewrites : CopyVariant → Except PyExn CopyVariant

/-- Message of the `ValueError` raised when copy generation is exhausted. -/
def copyExhaustedMsg : List Char :=
  "Copy generation did not return expected variants after retries".data

/-- `FlyerPipeline._pad_variants`: nothing to do when already at or above
the target, otherwise one padding request whose coerced result is appended
and the whole truncated to the target. -/
def padVariants (padResp : Except PyExn (List CopyVariant))
    (variants : List CopyVariant) (target : Nat) : Except PyExn (List CopyVariant) :=
  if target ≤ variants.length then .ok variants
  else
    match padResp with
    | .error e => .error e
    | .ok extra => .ok ((variants ++ extra).take target)

/-- The `for _ in range(3)` loop of `FlyerPipeline.generate_copy_variants`:
`n` outer attempts remain and `i` is the index of the current attempt. -/
def generateCopyLoop (env : CopyGenEnv) (target : Nat) : Nat → Nat → Except PyExn (List CopyVariant)
  | 0, _ => .error ⟨copyExhaustedMsg⟩
  | n + 1, i =>
    match env.attempts i with
    | .error e => .error e
    | .ok vs =>
      if vs.length = target then enforceAll env.rewrites vs
      else if target < vs.length then enforceAll env.rewrites (vs.take target)
      else
        match padVariants (env.pads i) vs target with
        | .error e => .error e
        | .ok vs2 =>
          if vs2.length = target then enforceAll env.rewrites vs2
          else generateCopyLoop env target n (i + 1)

/-- `FlyerPipeline.generate_copy_variants`: the target is
`max(1, RUNTIME_CONFIG.variants)` and the outer loop runs three times. -/
def generateCopyVariants (env : CopyGenEnv) (variants : Int) : Except PyExn (List CopyVariant) :=
  generateCopyLoop env (max 1 variants).toNat 3 0

/-! ## Brand style sanitization (src/backend/hyperlocal/pipeline.py) -/

/-- The banned human-reference tokens of `_sanitize_brand_style`. -/
def bannedTokens : List (List Char) :=
  ["people".data, "person".data, "faces".data, "face".data,
   "hands".data, "human".data, "portrait".data]

/-- `FlyerPipeline._sanitize_brand_style`: drop style keywords whose
lower-cased form is a banned token; split the layout guidance on periods,
strip each piece, drop empty pieces and pieces containing a banned token,
rejoin with a period and space, and append a final period when non-empty. -/
def sanitizeBrandStyle (style : BrandStyle) : BrandStyle :=
  let filtered := style.style_keywords.filter (fun kw => !(bannedTokens.contains (pyLower kw)))
  let sentences :=
    ((pySplitChar '.' style.layout_guidance).map pyStrip).filter (fun s => !s.isEmpty)
  let clean :=
    sentences.filter (fun s => !(bannedTokens.any (fun t => containsTok (pyLower s) t)))
  let joined := pyJoin ['.', ' '] clean
  { palette := style.palette
    style_keywords := filtered
    layout_guidance := if joined.isEmpty then joined else joined ++ ['.']
    typography_guidance := style.typography_guidance }

/-- Sentences of a layout-guidance text, as the specification reads: the
pieces between periods, trimmed of surrounding whitespace, empty pieces not
counting as sentences.  Written from the specification's words for the
refinement comparison with the source-level definition. -/
def specSentences (layout : List Char) : List (List Char) :=
  ((pySplitChar '.' layout).map pyStrip).filter (fun s => !s.isEmpty)

/-- Brand-style sanitization as described by the specification: remove
exactly the keywords whose lower-cased form is banned; drop every sentence
containing a banned token; rejoin the surviving sentences with a period and
space plus a trailing period when any survive, the empty layout staying
empty. -/
def sanitizeBrandStyleSpec (style : BrandStyle) : BrandStyle :=
  let kept :=
    (specSentences style.layout_guidance).filter
      (fun s => !(bannedTokens.any (fun t => containsTok (pyLower s) t)))
  { palette := style.palette
    style_keywords :=
      style.style_keywords.filter (fun kw => decide (pyLower kw ∉ bannedTokens))
    layout_guidance := if kept.isEmpty then [] else pyJoin ['.', ' '] kept ++ ['.']
    typography_guidance := style.typography_guidance }

/-! ## Brief data model (src/hyperlocal/schemas.py) -/

/-- BusinessDayHours from schemas.py.  The `open`/`close` fields are named
`open_time`/`close_time` here because `open` is reserved in Lean. -/
structure BusinessDayHours where
  day : List Char
  open_time : Option (List Char)
  close_time : Option (List Char)
  closed : Bool
deriving DecidableEq, Repr

/-- BusinessHours from schemas.py. -/
structure BusinessHours where
  timezone : Option (List Char)
  weekly : List BusinessDayHours
  notes : Option (List Char)
  display : Option (List Char)
deriving DecidableEq, Repr

/-- BusinessDetails from schemas.py. -/
structure BusinessDetails where
  name : List Char
  website : Option (List Char)
  address : Option (List Char)
  city : Option (List Char)
  state : Option (List Char)
  postal_code : Option (List Char)
  phone : Option (List Char)
  hours : Option BusinessHours
  service_area : Option (List Char)
deriving DecidableEq, Repr

/-- CreativeBrief from schemas.py. -/
structure CreativeBrief where
  campaign_id : Option Int
  business_details : BusinessDetails
  product : List Char
  offer : List Char
  tone : List Char
  cta : List Char
  size : List Char
  audience : Option (List Char)
  constraints : List (List Char)
  brand_colors : List (List Char)
  style_keywords : List (List Char)
  reference_images : List (List Char)
deriving DecidableEq, Repr

/-- PromptPackage from schemas.py. -/
structure PromptPackage where
  image_prompt : List Char
  negative_prompt : List Char
  copy_variant : CopyVariant
deriving DecidableEq, Repr

/-- ImageVariant from schemas.py. -/
structure ImageVariant where
  index : Nat
  prompt : PromptPackage
  image_path : List Char
  qc_passed : Bool
  qc_text : Option (List Char)
deriving DecidableEq, Repr

/-- RunResult from schemas.py. -/
structure RunResult where
  brief : CreativeBrief
  brand_style : BrandStyle
  variants : List ImageVariant
  output_dir : List Char
deriving DecidableEq, Repr

/-- Python truthiness of an optional string: present and non-empty. -/
def optTruthy (o : Option (List Char)) : Bool :=
  match o with
  | none => false
  | some s => !s.isEmpty

/-- Python `a or b` for strings: `a` when non-empty, else `b`. -/
def strOr (a b : List Char) : List Char := if a.isEmpty then b else a

/-- Python `a or b` for lists: `a` when non-empty, else `b`. -/
def listOr {α : Type} (a b : List α) : List α := if a.isEmpty then b else a

/-- Python `opt or b` for an optional string. -/
def optOr (a : Option (List Char)) (b : List Char) : List Char :=
  match a with
  | none => b
  | some s => strOr s b

/-- Split at the first occurrence of a separator, Python `s.split(sep, 1)`
restricted to the case where the separator occurs. -/
def splitFirst (sep : Char) : List Char → Option (List Char × List Char)
  | [] => none
  | c :: cs =>
    if c == sep then some ([], cs)
    else (splitFirst sep cs).map (fun p => (c :: p.1, p.2))

/-! ## Required details (FlyerPipeline._required_details and
_extract_required_from_constraints, src/backend/hyperlocal/pipeline.py) -/

/-- Apostrophe character, written by code point. -/
def aposChar : Char := Char.ofNat 39

/-- `FlyerPipeline._extract_required_from_constraints`: keep constraint
items mentioning "include"; quote-delimited phrases (the odd-indexed pieces
of a split on the quote character) or the text after the first colon. -/
def extractRequiredFromConstraints (constraints : List (List Char)) : List (List Char) :=
  constraints.flatMap (fun item =>
    let text := pyStrip item
    if text.isEmpty then []
    else
      let lower := pyLower text
      if !containsTok lower "include".data then []
      else if containsTok text [aposChar] then
        let parts := pySplitChar aposChar text
        (((List.range parts.length).filter (fun i => i % 2 = 1)).map
            (fun i => pyStrip (parts.getD i []))).filter (fun p => !p.isEmpty)
      else
        match splitFirst ':' text with
        | some p =>
          let v := pyStrip p.2
          if v.isEmpty then [] else [v]
        | none => [])

/-- The hours text assembled by `FlyerPipeline._required_details`: the
display string when present and non-empty, otherwise per-day lines joined
with semicolons, with the notes appended. -/
def hoursTextOf (hours : BusinessHours) : List Char :=
  if optTruthy hours.display then hours.display.getD []
  else
    let dayParts := hours.weekly.flatMap (fun day =>
      if day.closed then [day.day ++ " closed".data]
      else if optTruthy day.open_time ∧ optTruthy day.close_time then
        [day.day ++ ' ' :: day.open_time.getD [] ++ '-' :: day.close_time.getD []]
      else if optTruthy day.open_time then [day.day ++ ' ' :: day.open_time.getD []]
      else [])
    let parts := if optTruthy hours.notes then dayParts ++ [hours.notes.getD []] else dayParts
    pyJoin "; ".data parts

/-- `FlyerPipeline._required_details`: phrases from the constraints, then
the truthy business-identity fields (name, address, city, state, postal
code, phone, website, hours text, service area).  The pipeline stores the
active brief in `_active_brief`; absent brief gives no requirements. -/
def requiredDetails (brief : Option CreativeBrief) : List (List Char) :=
  match brief with
  | none => []
  | some b =>
    let fromConstraints :=
      if !b.constraints.isEmpty then extractRequiredFromConstraints b.constraints else []
    let details := b.business_details
    let hoursText :=
      match details.hours with
      | none => []
      | some hours => hoursTextOf hours
    let values := [details.name, details.address.getD [], details.city.getD [],
      details.state.getD [], details.postal_code.getD [], details.phone.getD [],
      details.website.getD [], hoursText, details.service_area.getD []]
    fromConstraints ++ values.filter (fun v => !v.isEmpty)

/-! ## Prompt templates (src/backend/hyperlocal/prompt_templates.py) -/

/-- `prompt_templates.background_prompt`, which `image_prompt` returns. -/
def backgroundPrompt (brief : CreativeBrief) (style : BrandStyle) : List Char :=
  let palette := pyJoin ", ".data (listOr style.palette brief.brand_colors)
  let styleKeywords := pyJoin ", ".data (listOr style.style_keywords brief.style_keywords)
  let layoutGuidance := strOr style.layout_guidance
    "Large clean focal area with soft gradients, a clear visual anchor, and ample negative space.".data
  let constraintsTxt := pyJoin "; ".data brief.constraints
  let businessName := brief.business_details.name
  "Create a background-only image for a 6x9 inch direct-mail flyer. ".data ++
  "Do NOT include any text, letters, words, logos, signage, or typography. ".data ++
  "Leave ample clean space for a text overlay. ".data ++
  "Visual style: ".data ++ strOr styleKeywords "bright, fresh, modern".data ++ ". ".data ++
  "Color palette: ".data ++
    strOr palette "vibrant fruit colors, fresh greens, clean whites".data ++ ". ".data ++
  "Layout guidance: ".data ++ layoutGuidance ++ ". ".data ++
  "Business: ".data ++ strOr businessName "not specified".data ++
    ". Product: ".data ++ brief.product ++ ". Offer: ".data ++ brief.offer ++ ". ".data ++
  "Constraints: ".data ++
    strOr constraintsTxt "No people; no faces; no extra slogans".data ++ ". ".data ++
  "Use high-quality lighting and depth. Make the background visually rich but not busy.".data

/-- `prompt_templates.negative_prompt`. -/
def negativePromptText : List Char :=
  ("Avoid any text, letters, words, or signage. Avoid illegible or distorted text, " ++
   "cluttered layouts, and low contrast. Avoid extra text not provided. " ++
   "Avoid faces, hands, or people.").data

/-- `FlyerPipeline.build_prompt_packages`: one package per variant, the
image prompt from the template and the fixed negative prompt. -/
def buildPromptPackages (brief : CreativeBrief) (style : BrandStyle)
    (variants : List CopyVariant) : List PromptPackage :=
  variants.map (fun v =>
    { image_prompt := backgroundPrompt brief style
      negative_prompt := negativePromptText
      copy_variant := v })

/-! ## Image generation and QC loop, run orchestration
(src/backend/hyperlocal/pipeline.py)

External collaborators are oracles in an environment: the image backend's
outcome and the OCR reply for each (variant, attempt) pair, the optional
storage upload, and the model-call oracles already introduced.  The
persistence gateway is modelled as an event trace (its own writes are
taken to succeed); file-system writes of the run manifest are not
modelled as failing. -/

/-- Status values of a persisted run record. -/
inductive RunStatus where
  | RUNNING
  | COMPLETE
  | FAILED
deriving DecidableEq, Repr

/-- One persistence-gateway call, in order of issue. -/
inductive PersistEvent where
  | createRun (status : RunStatus)
  | updateRunStyle (style : BrandStyle)
  | createVariant (idx : Nat) (copy : CopyVariant)
  | updateVariantImage (idx : Nat) (url : List Char)
  | updateVariantQC (idx : Nat) (passed : Bool) (text : List Char)
  | updateRunStatus (status : RunStatus) (error : Option (List Char))
deriving DecidableEq, Repr

/-- Environment of a full pipeline run: configuration values and the
oracles for every external call. -/
structure PipelineEnv where
  styleResult : Except PyExn BrandStyle
  copyEnv : CopyGenEnv
  variantsCfg : Int
  maxImageAttempts : Nat
  qcEnabled : Bool
  genImage : Nat → Nat → Except PyExn Unit
  ocr : Nat → Nat → List Char
  storage : Option (Nat → List Char)
  persistEnabled : Bool
  runDir : List Char

/-- File name `variant_{idx:02d}.png`. -/
def variantFileName (idx : Nat) : List Char :=
  "variant_".data ++
    (if idx < 10 then '0' :: Nat.toDigits 10 idx else Nat.toDigits 10 idx) ++ ".png".data

/-- Expected phrases checked by the QC step of `generate_images`: the five
copy fields followed by the required business details of the active brief. -/
def expectedPhrases (brief : CreativeBrief) (c : CopyVariant) : List (List Char) :=
  [c.headline, c.subhead, c.body, c.cta, c.disclaimer.getD []] ++ requiredDetails (some brief)

/-- The attempt loop of `generate_images` for one variant: generate the
image (a raised backend error propagates), then either QC is disabled
(immediate pass with the sentinel text) or the OCR text is validated; exit
on pass, retry while attempts remain, and report the last attempt's
failure otherwise.  `attempt` is the 1-based attempt number and `rem` the
number of attempts still allowed including this one. -/
def qcLoop (env : PipelineEnv) (brief : CreativeBrief) (c : CopyVariant) (idx : Nat) :
    Nat → Nat → Except PyExn (Bool × List Char)
  | _, 0 => .ok (false, [])
  | attempt, rem + 1 =>
    match env.genImage idx attempt with
    | .error e => .error e
    | .ok _ =>
      let step : Bool × List Char :=
        if !env.qcEnabled then (true, "qc disabled".data)
        else
          let text := pyStrip (env.ocr idx attempt)
          (validate_text (expectedPhrases brief c) text, text)
      if step.1 then .ok step
      else if rem = 0 then .ok (false, step.2)
      else qcLoop env brief c idx (attempt + 1) rem

/-- Body of `generate_images` over the remaining packages, `idx` the
1-based index of the next package: create the variant record, run the QC
loop, resolve the stored image URL, record image and QC updates, and
collect the image variant; a backend error stops the walk and propagates. -/
def genImagesLoop (env : PipelineEnv) (brief : CreativeBrief) :
    List PromptPackage → Nat → Except PyExn (List ImageVariant) × List PersistEvent
  | [], _ => (.ok [], [])
  | pkg :: rest, idx =>
    let evs1 := if env.persistEnabled then [PersistEvent.createVariant idx pkg.copy_variant] else []
    match qcLoop env brief pkg.copy_variant idx 1 env.maxImageAttempts with
    | .error e => (.error e, evs1)
    | .ok qc =>
      let imagePath := env.runDir ++ '/' :: variantFileName idx
      let imageUrl :=
        match env.storage with
        | some upload => if env.persistEnabled then upload idx else imagePath
        | none => imagePath
      let evs2 :=
        if env.persistEnabled then
          [PersistEvent.updateVariantImage idx imageUrl,
           PersistEvent.updateVariantQC idx qc.1 qc.2]
        else []
      let variant : ImageVariant :=
        { index := idx, prompt := pkg, image_path := imageUrl,
          qc_passed := qc.1, qc_text := some qc.2 }
      match genImagesLoop env brief rest (idx + 1) with
      | (.error e, evs) => (.error e, evs1 ++ evs2 ++ evs)
      | (.ok vs, evs) => (.ok (variant :: vs), evs1 ++ evs2 ++ evs)

/-- `FlyerPipeline.generate_images` over a package list. -/
def generateImages (env : PipelineEnv) (brief : CreativeBrief)
    (pkgs : List PromptPackage) : Except PyExn (List ImageVariant) × List PersistEvent :=
  genImagesLoop env brief pkgs 1

/-- Terminal persistence events of `FlyerPipeline.run` on an error: record
FAILED with the exception's message when persistence is on, then re-raise. -/
def failEvents (env : PipelineEnv) (e : PyExn) : List PersistEvent :=
  if env.persistEnabled then [PersistEvent.updateRunStatus .FAILED (some e.msg)] else []

/-- `FlyerPipeline.run`: create the run record, then inside the guarded
block resolve and sanitize the brand style, generate the copy variants,
build the prompt packages, run the image/QC loop, assemble the result and
mark COMPLETE; any raised step marks FAILED with the error message and
re-raises. -/
def runPipeline (env : PipelineEnv) (brief : CreativeBrief) :
    Except PyExn RunResult × List PersistEvent :=
  let evs0 : List PersistEvent :=
    if env.persistEnabled then [PersistEvent.createRun .RUNNING] else []
  match env.styleResult with
  | .error e => (.error e, evs0 ++ failEvents env e)
  | .ok rawStyle =>
    let style := sanitizeBrandStyle rawStyle
    let evs1 := evs0 ++ (if env.persistEnabled then [PersistEvent.updateRunStyle style] else [])
    match generateCopyVariants env.copyEnv env.variantsCfg with
    | .error e => (.error e, evs1 ++ failEvents env e)
    | .ok variants =>
      let pkgs := buildPromptPackages brief style variants
      match generateImages env brief pkgs with
      | (.error e, evsImg) => (.error e, evs1 ++ evsImg ++ failEvents env e)
      | (.ok images, evsImg) =>
        let result : RunResult :=
          { brief := brief, brand_style := style, variants := images, output_dir := env.runDir }
        (.ok result,
         evs1 ++ evsImg ++
           (if env.persistEnabled then [PersistEvent.updateRunStatus .COMPLETE none] else []))

/-! ## Overlay-fit enforcement
(ComfyFlyerPipeline._ensure_overlay_fit, src/backend/hyperlocal/comfyui_flyer_pipeline.py) -/

/-- The horizontal-ellipsis character appended by the truncation helper. -/
def ellipsisChar : Char := Char.ofNat 0x2026

/-- The `trunc` helper of `_ensure_overlay_fit`: strip, and when still over
the limit cut to `limit - 1` characters, strip trailing whitespace and
append the ellipsis. -/
def truncField (t : List Char) (limit : Nat) : List Char :=
  let s := pyStrip t
  if s.length ≤ limit then s else pyRStrip (s.take (limit - 1)) ++ [ellipsisChar]

/-- The `ok` test of `_ensure_overlay_fit`: word budgets (body up to 32
words here) and per-field character limits. -/
def overlayOk (c : CopyVariant) : Bool :=
  (1 ≤ wordCount c.headline && wordCount c.headline ≤ 6) &&
  (1 ≤ wordCount c.subhead && wordCount c.subhead ≤ 10) &&
  (1 ≤ wordCount c.body && wordCount c.body ≤ 32) &&
  (1 ≤ wordCount c.cta && wordCount c.cta ≤ 4) &&
  (wordCount (c.disclaimer.getD []) ≤ 12) &&
  (c.headline.length ≤ 22) && (c.subhead.length ≤ 34) && (c.body.length ≤ 160) &&
  (c.cta.length ≤ 16) && ((c.disclaimer.getD []).length ≤ 34)

/-- `ComfyFlyerPipeline._ensure_overlay_fit`: a fitting copy is returned
unchanged with no model call; otherwise one rewrite request is issued
(`chat_json` raising propagates; a reply that does not construct a
`CopyVariant` falls back to the original copy), then the hard truncation
pass runs per field.  The oracle carries `none` for a reply on which
`CopyVariant(**data)` raises.  The second component counts rewrite
requests. -/
def ensureOverlayFit (rewriteResp : Except PyExn (Option CopyVariant)) (c : CopyVariant) :
    Except PyExn (CopyVariant × Nat) :=
  if overlayOk c then .ok (c, 0)
  else
    match rewriteResp with
    | .error e => .error e
    | .ok data =>
      let rewritten := data.getD c
      let disc := truncField (rewritten.disclaimer.getD []) 34
      .ok ({ headline := truncField rewritten.headline 22
             subhead := truncField rewritten.subhead 34
             body := truncField rewritten.body 160
             cta := truncField rewritten.cta 16
             disclaimer := if disc.isEmpty then none else some disc }, 1)

/-! ## JSON parsing (json.loads / JSONDecoder.raw_decode, as used by
openai_helpers._parse_json_like)

Python objects produced by the parser are modelled by `Json`, with
`Json.null` standing for Python `None` — which is also the sentinel
`_parse_json_like` returns on failure.  A JSON number is kept as its
validated source token (the parser's int/float distinction and float
rounding are not needed by any claim; keeping the spelling makes
re-serialization exact).  Python's `json.loads` keeps strings with lone
surrogate escapes; `Char` cannot carry a surrogate, so this model rejects
such escapes — the claims quantify over strings the model accepts.
Objects follow dict semantics: first occurrence fixes the position of a
key, the last value wins. -/

/-- A parsed Python/JSON value.  `num` keeps the number token; `nan` and
`inf` are the non-standard constants Python's parser accepts. -/
inductive Json where
  | null
  | bool (b : Bool)
  | num (tok : List Char)
  | str (s : List Char)
  | arr (items : List Json)
  | obj (fields : List (List Char × Json))
  | nan
  | inf (neg : Bool)
deriving BEq

/-- Python dict insertion `d[k] = v`: an existing key keeps its place and
takes the new value, a new key is appended. -/
def dictInsert (fields : List (List Char × Json)) (k : List Char) (v : Json) :
    List (List Char × Json) :=
  if fields.any (fun f => f.1 == k) then
    fields.map (fun f => if f.1 == k then (k, v) else f)
  else fields ++ [(k, v)]

/-- Fold a written pair list into dict semantics. -/
def foldInsert (acc : List (List Char × Json)) (pairs : List (List Char × Json)) :
    List (List Char × Json) :=
  pairs.foldl (fun a p => dictInsert a p.1 p.2) acc

/-- JSON whitespace: the four characters Python's scanner skips. -/
def isJsonWs (c : Char) : Bool :=
  c == ' ' || c == '\t' || c == '\n' || c == '\r'

/-- Skip JSON whitespace. -/
def skipJsonWs (s : List Char) : List Char := s.dropWhile isJsonWs

/-- Decimal digit test. -/
def isDigitChar (c : Char) : Bool := '0' ≤ c && c ≤ '9'

/-- Hexadecimal digit test. -/
def isHexDigitChar (c : Char) : Bool :=
  ('0' ≤ c && c ≤ '9') || ('a' ≤ c && c ≤ 'f') || ('A' ≤ c && c ≤ 'F')

/-- Value of a hexadecimal digit. -/
def hexVal (c : Char) : Nat :=
  if '0' ≤ c && c ≤ '9' then c.toNat - 48
  else if 'a' ≤ c && c ≤ 'f' then c.toNat - 87
  else c.toNat - 55

/-- Combined value of four hexadecimal digits. -/
def hex4Val (c1 c2 c3 c4 : Char) : Nat :=
  hexVal c1 * 4096 + hexVal c2 * 256 + hexVal c3 * 16 + hexVal c4

/-- Scan a JSON string body after the opening quote (Python `scanstring`
in strict mode): plain characters from 0x20 up, the short escapes, and
`\uXXXX` escapes with surrogate pairs combined.  Returns the decoded
content and the text after the closing quote. -/
def scanStringBody : List Char → Option (List Char × List Char)
  | [] => none
  | '"' :: rest => some ([], rest)
  | '\\' :: esc =>
    match esc with
    | '"' :: rest => (scanStringBody rest).map (fun p => ('"' :: p.1, p.2))
    | '\\' :: rest => (scanStringBody rest).map (fun p => ('\\' :: p.1, p.2))
    | '/' :: rest => (scanStringBody rest).map (fun p => ('/' :: p.1, p.2))
    | 'b' :: rest => (scanStringBody rest).map (fun p => ('\x08' :: p.1, p.2))
    | 'f' :: rest => (scanStringBody rest).map (fun p => ('\x0c' :: p.1, p.2))
    | 'n' :: rest => (scanStringBody rest).map (fun p => ('\n' :: p.1, p.2))
    | 'r' :: rest => (scanStringBody rest).map (fun p => ('\x0d' :: p.1, p.2))
    | 't' :: rest => (scanStringBody rest).map (fun p => ('\t' :: p.1, p.2))
    | 'u' :: c1 :: c2 :: c3 :: c4 :: rest =>
      if isHexDigitChar c1 && isHexDigitChar c2 && isHexDigitChar c3 && isHexDigitChar c4 then
        let v := hex4Val c1 c2 c3 c4
        if 0xD800 ≤ v ∧ v ≤ 0xDBFF then
          match rest with
          | '\\' :: 'u' :: d1 :: d2 :: d3 :: d4 :: rest2 =>
            if isHexDigitChar d1 && isHexDigitChar d2 && isHexDigitChar d3 &&
                isHexDigitChar d4 then
              let lo := hex4Val d1 d2 d3 d4
              if 0xDC00 ≤ lo ∧ lo ≤ 0xDFFF then
                (scanStringBody rest2).map (fun p =>
                  (Char.ofNat (0x10000 + (v - 0xD800) * 0x400 + (lo - 0xDC00)) :: p.1, p.2))
              else none
            else none
          | _ => none
        else if 0xDC00 ≤ v ∧ v ≤ 0xDFFF then none
        else (scanStringBody rest).map (fun p => (Char.ofNat v :: p.1, p.2))
      else none
    | _ => none
  | c :: rest =>
    if c.toNat < 0x20 then none
    else (scanStringBody rest).map (fun p => (c :: p.1, p.2))

/-- Maximal run of decimal digits. -/
def scanDigits : List Char → List Char × List Char
  | [] => ([], [])
  | c :: rest =>
    if isDigitChar c then
      let p := scanDigits rest
      (c :: p.1, p.2)
    else ([], c :: rest)

/-- The optional fraction part `(\.\d+)?` of the number regex. -/
def scanFrac : List Char → List Char × List Char
  | '.' :: rest =>
    match scanDigits rest with
    | ([], _) => ([], '.' :: rest)
    | (ds, r) => ('.' :: ds, r)
  | s => ([], s)

/-- The optional exponent part `([eE][-+]?\d+)?` of the number regex. -/
def scanExp (s : List Char) : List Char × List Char :=
  match s with
  | e :: rest =>
    if e == 'e' || e == 'E' then
      match rest with
      | '+' :: rest2 =>
        match scanDigits rest2 with
        | ([], _) => ([], s)
        | (ds, r) => ([e, '+'] ++ ds, r)
      | '-' :: rest2 =>
        match scanDigits rest2 with
        | ([], _) => ([], s)
        | (ds, r) => ([e, '-'] ++ ds, r)
      | _ =>
        match scanDigits rest with
        | ([], _) => ([], s)
        | (ds, r) => (e :: ds, r)
    else ([], s)
  | [] => ([], [])

/-- The unsigned number `(0|[1-9]\d*)(\.\d+)?([eE][-+]?\d+)?`. -/
def scanUNum : List Char → Option (List Char × List Char)
  | '0' :: rest =>
    let f := scanFrac rest
    let e := scanExp f.2
    some ('0' :: f.1 ++ e.1, e.2)
  | c :: rest =>
    if '1' ≤ c && c ≤ '9' then
      let d := scanDigits rest
      let f := scanFrac d.2
      let e := scanExp f.2
      some (c :: d.1 ++ f.1 ++ e.1, e.2)
    else none
  | [] => none

/-- A number token at the head of the input, Python's `NUMBER_RE` match:
optional minus then the unsigned number. -/
def scanNumTok : List Char → Option (List Char × List Char)
  | '-' :: rest => (scanUNum rest).map (fun p => ('-' :: p.1, p.2))
  | s => scanUNum s

mutual

/-- One JSON value at the head of the input (Python `scan_once`): no
leading whitespace allowed; strings, objects, arrays, the keywords, the
non-standard constants, and number tokens.  `fuel` bounds the nesting
walk; every recursive call consumes at least one character first, so fuel
`length + 1` never runs out. -/
def scanValue : Nat → List Char → Option (Json × List Char)
  | 0, _ => none
  | fuel + 1, s =>
    match s with
    | [] => none
    | c :: rest =>
      if c = '"' then (scanStringBody rest).map (fun p => (Json.str p.1, p.2))
      else if c = '{' then
        match skipJsonWs rest with
        | '}' :: r => some (.obj [], r)
        | s1 => scanMembers fuel s1 []
      else if c = '[' then
        match skipJsonWs rest with
        | ']' :: r => some (.arr [], r)
        | s1 => scanElems fuel s1 []
      else if c = 'n' ∧ rest.take 3 = ['u', 'l', 'l'] then some (.null, rest.drop 3)
      else if c = 't' ∧ rest.take 3 = ['r', 'u', 'e'] then some (.bool true, rest.drop 3)
      else if c = 'f' ∧ rest.take 4 = ['a', 'l', 's', 'e'] then some (.bool false, rest.drop 4)
      else if c = 'N' ∧ rest.take 2 = ['a', 'N'] then some (.nan, rest.drop 2)
      else if c = 'I' ∧ rest.take 7 = ['n', 'f', 'i', 'n', 'i', 't', 'y'] then
        some (.inf false, rest.drop 7)
      else if c = '-' ∧ rest.take 8 = ['I', 'n', 'f', 'i', 'n', 'i', 't', 'y'] then
        some (.inf true, rest.drop 8)
      else (scanNumTok (c :: rest)).map (fun p => (Json.num p.1, p.2))

/-- Members of an object after `{` and whitespace, at least one expected:
quoted key, colon, value, then comma and more members or the closing
brace.  The accumulator applies dict semantics as the Python loop's
`dict(pairs)` does. -/
def scanMembers : Nat → List Char → List (List Char × Json) → Option (Json × List Char)
  | 0, _, _ => none
  | fuel + 1, s, acc =>
    match s with
    | '"' :: rest =>
      match scanStringBody rest with
      | none => none
      | some (key, r1) =>
        match skipJsonWs r1 with
        | ':' :: r2 =>
          match scanValue fuel (skipJsonWs r2) with
          | none => none
          | some (v, r3) =>
            let acc2 := dictInsert acc key v
            match skipJsonWs r3 with
            | '}' :: r4 => some (.obj acc2, r4)
            | ',' :: r4 => scanMembers fuel (skipJsonWs r4) acc2
            | _ => none
        | _ => none
    | _ => none

/-- Elements of an array after `[` and whitespace, at least one expected:
value, then comma and more elements or the closing bracket. -/
def scanElems : Nat → List Char → List Json → Option (Json × List Char)
  | 0, _, _ => none
  | fuel + 1, s, acc =>
    match scanValue fuel s with
    | none => none
    | some (v, r1) =>
      match skipJsonWs r1 with
      | ']' :: r2 => some (.arr (acc ++ [v]), r2)
      | ',' :: r2 => scanElems fuel (skipJsonWs r2) (acc ++ [v])
      | _ => none

end

/-- `json.loads`: skip surrounding whitespace, scan one value, require
nothing but whitespace after it.  `none` models a raised
`JSONDecodeError`; a successful parse of the text `null` is `some .null`. -/
def jsonLoads (s : List Char) : Option Json :=
  match scanValue (s.length + 1) (skipJsonWs s) with
  | some (v, rest) => if (skipJsonWs rest).isEmpty then some v else none
  | none => none

/-- `JSONDecoder.raw_decode` at the start of the text: one value plus the
remaining text; leading whitespace is an error. -/
def jsonRawDecode (s : List Char) : Option (Json × List Char) :=
  scanValue (s.length + 1) s

/-! ## JSON serialization (json.dumps with default settings) -/

/-- Lower-case hexadecimal digit. -/
def hexDigitChar (n : Nat) : Char :=
  if n < 10 then Char.ofNat (48 + n) else Char.ofNat (97 + (n - 10))

/-- Four-digit lower-case hexadecimal rendering, `%04x`. -/
def hex4Out (n : Nat) : List Char :=
  [hexDigitChar (n / 4096 % 16), hexDigitChar (n / 256 % 16),
   hexDigitChar (n / 16 % 16), hexDigitChar (n % 16)]

/-- Escape one character as `json.dumps` does with `ensure_ascii` (the
default): the two mandatory escapes, the short control escapes, `\uXXXX`
for other control or non-ASCII characters (a surrogate pair beyond the
BMP), and printable ASCII kept as-is. -/
def escapeChar (c : Char) : List Char :=
  if c = '"' then ['\\', '"']
  else if c = '\\' then ['\\', '\\']
  else if c = Char.ofNat 8 then ['\\', 'b']
  else if c = Char.ofNat 12 then ['\\', 'f']
  else if c = '\n' then ['\\', 'n']
  else if c = Char.ofNat 13 then ['\\', 'r']
  else if c = '\t' then ['\\', 't']
  else if c.toNat < 0x20 || 0x7e < c.toNat then
    if c.toNat < 0x10000 then '\\' :: 'u' :: hex4Out c.toNat
    else
      let n := c.toNat - 0x10000
      ('\\' :: 'u' :: hex4Out (0xD800 + n / 0x400)) ++ ('\\' :: 'u' :: hex4Out (0xDC00 + n % 0x400))
  else [c]

mutual

/-- `json.dumps` with the default separators `", "` and `": "`. -/
def jsonDumps : Json → List Char
  | .null => "null".data
  | .bool true => "true".data
  | .bool false => "false".data
  | .num t => t
  | .nan => "NaN".data
  | .inf false => "Infinity".data
  | .inf true => "-Infinity".data
  | .str s => '"' :: s.flatMap escapeChar ++ ['"']
  | .arr items => '[' :: dumpsElems items ++ [']']
  | .obj fields => '{' :: dumpsFields fields ++ ['}']

/-- Array items joined with `", "`. -/
def dumpsElems : List Json → List Char
  | [] => []
  | [v] => jsonDumps v
  | v :: vs => jsonDumps v ++ ',' :: ' ' :: dumpsElems vs

/-- Object members `"key": value` joined with `", "`. -/
def dumpsFields : List (List Char × Json) → List Char
  | [] => []
  | [(k, v)] => '"' :: k.flatMap escapeChar ++ '"' :: ':' :: ' ' :: jsonDumps v
  | (k, v) :: fs =>
    ('"' :: k.flatMap escapeChar ++ '"' :: ':' :: ' ' :: jsonDumps v) ++
      ',' :: ' ' :: dumpsFields fs

end

/-- A valid number token: the number scanner consumes exactly it. -/
def numTokOk (t : List Char) : Bool :=
  match scanNumTok t with
  | some (t', r) => t' == t && r.isEmpty
  | none => false

/-- No key appears twice. -/
def noDupKeys : List (List Char × Json) → Bool
  | [] => true
  | f :: fs => !(fs.any (fun g => g.1 == f.1)) && noDupKeys fs

mutual

/-- Well-formedness of a parsed value: number tokens are valid and object
keys are unique — the shape every parser output has. -/
def wfJson : Json → Bool
  | .null => true
  | .bool _ => true
  | .num t => numTokOk t
  | .str _ => true
  | .arr items => wfList items
  | .obj fields => noDupKeys fields && wfFields fields
  | .nan => true
  | .inf _ => true

/-- Well-formedness of every element. -/
def wfList : List Json → Bool
  | [] => true
  | v :: vs => wfJson v && wfList vs

/-- Well-formedness of every field value. -/
def wfFields : List (List Char × Json) → Bool
  | [] => true
  | f :: fs => wfJson f.2 && wfFields fs

end

/-! ## openai_helpers._parse_json_like and chat_json -/

/-- The two fence replacements of `_parse_json_like`:
`content.replace("```json", "").replace("```", "")`. -/
def stripFences (s : List Char) : List Char :=
  pyReplace '`' "``".data [] (pyReplace '`' "``json".data [] s)

/-- Characters removed by the `CONTROL_CHARS` regex
`[\x00-\x08\x0b\x0c\x0e-\x1f]`. -/
def isCtrlChar (c : Char) : Bool :=
  c.toNat ≤ 8 || c.toNat == 11 || c.toNat == 12 || (14 ≤ c.toNat && c.toNat ≤ 31)

/-- `CONTROL_CHARS.sub("", content)`. -/
def ctrlSub (s : List Char) : List Char := s.filter (fun c => !isCtrlChar c)

/-- The fallback scan of `_parse_json_like`: at each index holding `{` or
`[`, attempt an incremental decode; first success wins. -/
def braceScanAux (c : List Char) : List Nat → Option Json
  | [] => none
  | i :: is =>
    let ch := c.getD i ' '
    if ch == '{' || ch == '[' then
      match jsonRawDecode (c.drop i) with
      | some (v, _) => some v
      | none => braceScanAux c is
    else braceScanAux c is

/-- The index loop of the fallback scan over the whole content. -/
def braceScan (c : List Char) : Option Json := braceScanAux c (List.range c.length)

/-- Python `str.find`: index of the first occurrence of a character. -/
def findCharIdx (c : List Char) (ch : Char) : Option Nat :=
  (List.range c.length).find? (fun i => c.getD i ' ' == ch)

/-- Python `str.rfind`: index of the last occurrence of a character. -/
def rfindCharIdx (c : List Char) (ch : Char) : Option Nat :=
  (List.range c.length).reverse.find? (fun i => c.getD i ' ' == ch)

/-- Minimum over the positions that exist (`min(..., default=-1)` over the
finds that are not `-1`). -/
def minOpt : Option Nat → Option Nat → Option Nat
  | none, b => b
  | a, none => a
  | some a, some b => some (min a b)

/-- Maximum of two `rfind` results, `-1` standing for absence. -/
def maxOpt : Option Nat → Option Nat → Option Nat
  | none, b => b
  | a, none => a
  | some a, some b => some (max a b)

/-- `openai_helpers._parse_json_like`.  The returned `Json` is the Python
object returned by the function, `Json.null` standing for Python `None` —
which is both a parsed JSON `null` and the failure sentinel.  The
permissive `ast.literal_eval` stage is an external-library collaborator
passed as an oracle `litEval` (`none` models a raised, caught error). -/
def parseJsonLike (litEval : List Char → Option Json) (content : List Char) : Json :=
  let c1 := pyStrip content
  let c2 := pyStrip (stripFences c1)
  let c := ctrlSub c2
  match jsonLoads c with
  | some v => v
  | none =>
    match braceScan c with
    | some v => v
    | none =>
      let startO := minOpt (findCharIdx c '{') (findCharIdx c '[')
      let endO := maxOpt (rfindCharIdx c '}') (rfindCharIdx c ']')
      let viaSnippet : Option Json :=
        match startO, endO with
        | some st, some en =>
          if st < en then
            let snippet := (c.drop st).take (en + 1 - st)
            match jsonLoads snippet with
            | some v => some v
            | none => litEval snippet
          else none
        | _, _ => none
      match viaSnippet with
      | some v => v
      | none => (litEval c).getD .null

/-- Message of the `JSONDecodeError` raised by `chat_json` after the
failed repair. -/
def jsonDecodeErrMsg : List Char := "Failed to parse JSON from model output".data

/-- `openai_helpers.chat_json`: parse the reply; on the `None` sentinel
issue one repair request (its reply supplied as an oracle) and parse that;
raise when both fail.  The Boolean records whether the repair request was
issued. -/
def chatJson (litEval : List Char → Option Json) (content repairReply : List Char) :
    Except PyExn Json × Bool :=
  match parseJsonLike litEval content with
  | .null =>
    (match parseJsonLike litEval repairReply with
     | .null => (.error ⟨jsonDecodeErrMsg⟩, true)
     | v => (.ok v, true))
  | v => (.ok v, false)

/-! ## Grammar of the strings the scanner accepts

The relation `GValX s v` says: `s` is exactly the text of one JSON value
denoting `v`, in the grammar of `scanValue`.  It is the device for the
soundness, completeness and fence-stripping-closure arguments. -/

mutual

/-- Exact-span grammar of one value. -/
inductive GValX : List Char → Json → Prop where
  | gnull : GValX "null".data .null
  | gtrue : GValX "true".data (.bool true)
  | gfalse : GValX "false".data (.bool false)
  | gnan : GValX "NaN".data .nan
  | ginf : GValX "Infinity".data (.inf false)
  | gninf : GValX "-Infinity".data (.inf true)
  | gstr {body cs} : scanStringBody body = some (cs, []) → GValX ('"' :: body) (.str cs)
  | gnum {t} : scanNumTok t = some (t, []) → GValX t (.num t)
  | garrNil {w} : w.all isJsonWs = true → GValX ('[' :: w ++ [']']) (.arr [])
  | garr {w mid vs} : w.all isJsonWs = true → GElemsX mid vs →
      GValX ('[' :: w ++ mid ++ [']']) (.arr vs)
  | gobjNil {w} : w.all isJsonWs = true → GValX ('{' :: w ++ ['}']) (.obj [])
  | gobj {w mid pairs} : w.all isJsonWs = true → GMembersX mid pairs →
      GValX ('{' :: w ++ mid ++ ['}']) (.obj (foldInsert [] pairs))

/-- Exact-span grammar of a non-empty element list with its separators and
trailing whitespace (everything between `[` whitespace and `]`). -/
inductive GElemsX : List Char → List Json → Prop where
  | one {p w v} : GValX p v → w.all isJsonWs = true → GElemsX (p ++ w) [v]
  | more {p w1 w2 rest v vs} : GValX p v → w1.all isJsonWs = true → w2.all isJsonWs = true →
      GElemsX rest vs → GElemsX (p ++ w1 ++ ',' :: (w2 ++ rest)) (v :: vs)

/-- Exact-span grammar of a non-empty member list (everything between `{`
whitespace and `}`), keeping the pairs as written. -/
inductive GMembersX : List Char → List (List Char × Json) → Prop where
  | one {kbody k w1 w2 p v w3} : scanStringBody kbody = some (k, []) →
      w1.all isJsonWs = true → w2.all isJsonWs = true → GValX p v → w3.all isJsonWs = true →
      GMembersX ('"' :: kbody ++ w1 ++ ':' :: (w2 ++ p ++ w3)) [(k, v)]
  | more {kbody k w1 w2 p v w3 w4 rest ps} : scanStringBody kbody = some (k, []) →
      w1.all isJsonWs = true → w2.all isJsonWs = true → GValX p v → w3.all isJsonWs = true →
      w4.all isJsonWs = true → GMembersX rest ps →
      GMembersX ('"' :: kbody ++ w1 ++ ':' :: (w2 ++ p ++ w3 ++ ',' :: (w4 ++ rest)))
        ((k, v) :: ps)

end

/-- The keyword half of `_sanitize_brand_style`, as its own function. -/
def sanitizeKeywords (kws : List (List Char)) : List (List Char) :=
  kws.filter (fun kw => !(bannedTokens.contains (pyLower kw)))

/-- A sentence survives when it holds no banned token. -/
def notBanned (s : List Char) : Bool :=
  !(bannedTokens.any (fun t => containsTok (pyLower s) t))

/-- The trimmed non-empty pieces of a layout split on periods. -/
def layoutSentences (layout : List Char) : List (List Char) :=
  ((pySplitChar '.' layout).map pyStrip).filter (fun s => !s.isEmpty)

/-- The surviving sentences of a layout. -/
def cleanSentences (layout : List Char) : List (List Char) :=
  (layoutSentences layout).filter notBanned

/-- The layout half of `_sanitize_brand_style`, as its own function. -/
def sanitizeLayout (layout : List Char) : List Char :=
  if (pyJoin ['.', ' '] (cleanSentences layout)).isEmpty then
    pyJoin ['.', ' '] (cleanSentences layout)
  else pyJoin ['.', ' '] (cleanSentences layout) ++ ['.']

/-- Whether a persistence event touches the run record's status. -/
def isStatusEvent : PersistEvent → Bool
  | .createRun _ => true
  | .updateRunStatus _ _ => true
  | _ => false

/-! ## Concrete inputs used by witnesses and counterexamples -/

/-- A literal-eval oracle that always fails, for closed instances where
the stage is never consulted or its failure is the Python behaviour. -/
def litEvalNone : List Char → Option Json := fun _ => none

/-- A copy variant inside every word budget. -/
def exVariantOk : CopyVariant :=
  ⟨"Fresh Mango Deal".data, "Best smoothies in town".data, "Visit us".data,
   "Call Today".data, none⟩

/-- A copy variant with a seven-word headline, outside the budget. -/
def exVariantBad : CopyVariant :=
  ⟨"one two three four five six seven".data, "a".data, "b".data, "c".data, none⟩

/-- A copy variant with a nine-word headline, for the overlay enforcer. -/
def exOverlayOrig : CopyVariant :=
  ⟨"w w w w w w w w w".data, "s".data, "b".data, "c".data, none⟩

/-- A rewrite reply whose headline has 23 characters, the 21st a space. -/
def exOverlayRewrite : CopyVariant :=
  ⟨"aaaaaaaaaaaaaaaaaaaa bb".data, "s".data, "b".data, "c".data, none⟩

/-- A minimal business-details block. -/
def exDetails : BusinessDetails :=
  ⟨"Mango Hut".data, none, none, none, none, none, none, none, none⟩

/-- A minimal brief. -/
def exBrief : CreativeBrief :=
  ⟨none, exDetails, "Smoothies".data, "BOGO Friday".data, "fun".data,
   "Call Today".data, "6x9".data, none, [], [], [], []⟩

/-- A brand style reply. -/
def exStyle : BrandStyle :=
  ⟨["teal".data], ["modern".data], "Use clean grids".data, "Sans serif".data⟩

/-- Copy oracles that return one fitting variant at once. -/
def exCopyEnvOne : CopyGenEnv :=
  ⟨fun _ => .ok [exVariantOk], fun _ => .ok [], fun v => .ok v⟩

/-- Copy oracles that return two variants and one more on padding. -/
def exCopyEnvPad : CopyGenEnv :=
  ⟨fun _ => .ok [exVariantOk, exVariantOk], fun _ => .ok [exVariantOk], fun v => .ok v⟩

/-- Copy oracles that never produce a variant. -/
def exCopyEnvShort : CopyGenEnv :=
  ⟨fun _ => .ok [], fun _ => .ok [], fun v => .ok v⟩

/-- A run whose image backend always succeeds but whose OCR text never
matches the copy. -/
def exEnvQCFail : PipelineEnv :=
  { styleResult := .ok exStyle, copyEnv := exCopyEnvOne, variantsCfg := 1,
    maxImageAttempts := 3, qcEnabled := true, genImage := fun _ _ => .ok (),
    ocr := fun _ _ => "zzz qqq".data, storage := none, persistEnabled := true,
    runDir := "out".data }

/-- The transport error message of the failing image backend. -/
def timeoutMsg : List Char := "Connection timed out".data

/-- A run whose image backend fails on the first attempt only. -/
def exEnvImgFail : PipelineEnv :=
  { styleResult := .ok exStyle, copyEnv := exCopyEnvOne, variantsCfg := 1,
    maxImageAttempts := 3, qcEnabled := false,
    genImage := fun _ attempt => if attempt = 1 then .error ⟨timeoutMsg⟩ else .ok (),
    ocr := fun _ _ => "x".data, storage := none, persistEnabled := true,
    runDir := "out".data }

/-- Whether the next character could extend a number token: the guard the
scanner soundness argument needs when a value is followed by further text.
For values other than numbers any continuation is safe. -/
def numStopOk : Json → List Char → Bool
  | .num _, c :: _ => !(isDigitChar c || c == '.' || c == 'e' || c == 'E')
  | _, _ => true

/-- Whether a value is a JSON container (object or array). -/
def isContainer : Json → Bool
  | .obj _ => true
  | .arr _ => true
  | _ => false

/-! # Theorems -/

/-! ## Basic lemmas about the Python string primitives -/

theorem startsWithTok_iff (s pat : List Char) :
    startsWithTok s pat = true ↔ ∃ t, s = pat ++ t := by
  induction pat generalizing s with
  | nil => simp [startsWithTok]
  | cons p ps ih =>
    cases s with
    | nil => simp [startsWithTok]
    | cons c cs =>
      simp only [startsWithTok, Bool.and_eq_true, beq_iff_eq, ih]
      constructor
      · rintro ⟨rfl, t, rfl⟩
        exact ⟨t, rfl⟩
      · rintro ⟨t, ht⟩
        simp only [List.cons_append, List.cons.injEq] at ht
        exact ⟨ht.1, t, ht.2⟩

theorem containsTok_iff (hay tok : List Char) :
    containsTok hay tok = true ↔ tok <:+: hay := by
  unfold containsTok
  simp only [List.any_eq_true, List.mem_range, startsWithTok_iff]
  constructor
  · rintro ⟨i, _, t, ht⟩
    refine ⟨hay.take i, t, ?_⟩
    rw [List.append_assoc, ← ht, List.take_append_drop]
  · rintro ⟨u, v, huv⟩
    refine ⟨u.length, ?_, v, ?_⟩
    · have : u.length ≤ hay.length := by
        rw [← huv]
        simp only [List.length_append]
        omega
      omega
    · rw [← huv, List.append_assoc, List.drop_left]

theorem pyLStrip_head (s : List Char) (c : Char) (h : (pyLStrip s).head? = some c) :
    isPySpace c = false := by
  induction s with
  | nil => simp [pyLStrip] at h
  | cons a as ih =>
    by_cases ha : isPySpace a
    · rw [pyLStrip, List.dropWhile_cons_of_pos ha] at h
      exact ih h
    · rw [pyLStrip, List.dropWhile_cons_of_neg ha] at h
      simp only [List.head?_cons, Option.some.injEq] at h
      subst h
      exact Bool.eq_false_iff.mpr ha

theorem pyLStrip_eq_self_of_head (s : List Char)
    (h : ∀ c, s.head? = some c → isPySpace c = false) : pyLStrip s = s := by
  cases s with
  | nil => rfl
  | cons a as =>
    have := h a rfl
    rw [pyLStrip, List.dropWhile_cons_of_neg (by simp [this])]

theorem pyRStrip_prefix (s : List Char) : ∃ t, s = pyRStrip s ++ t := by
  have hsfx : ∃ u, s.reverse = u ++ s.reverse.dropWhile isPySpace := by
    induction s.reverse with
    | nil => exact ⟨[], rfl⟩
    | cons a as ih =>
      by_cases ha : isPySpace a
      · obtain ⟨u, hu⟩ := ih
        rw [List.dropWhile_cons_of_pos ha]
        exact ⟨a :: u, by rw [List.cons_append, ← hu]⟩
      · rw [List.dropWhile_cons_of_neg ha]
        exact ⟨[], rfl⟩
  obtain ⟨u, hu⟩ := hsfx
  refine ⟨u.reverse, ?_⟩
  rw [pyRStrip]
  have := congrArg List.reverse hu
  rw [List.reverse_reverse, List.reverse_append] at this
  exact this

theorem pyLStrip_idem (s : List Char) : pyLStrip (pyLStrip s) = pyLStrip s :=
  pyLStrip_eq_self_of_head _ (pyLStrip_head s)

theorem pyStrip_head (s : List Char) (c : Char) (h : (pyStrip s).head? = some c) :
    isPySpace c = false := by
  unfold pyStrip at h
  obtain ⟨t, ht⟩ := pyRStrip_prefix (pyLStrip s)
  cases hh : pyRStrip (pyLStrip s) with
  | nil => rw [hh] at h; simp at h
  | cons b bs =>
    rw [hh] at h
    simp only [List.head?_cons, Option.some.injEq] at h
    subst h
    apply pyLStrip_head s
    rw [ht, hh]
    rfl

theorem pyRStrip_last (s : List Char) (c : Char)
    (h : (pyRStrip s).getLast? = some c) : isPySpace c = false := by
  unfold pyRStrip at h
  rw [List.getLast?_reverse] at h
  exact pyLStrip_head s.reverse c h

theorem pyRStrip_eq_self_of_last (s : List Char)
    (h : ∀ c, s.getLast? = some c → isPySpace c = false) : pyRStrip s = s := by
  unfold pyRStrip
  have h2 : s.reverse.dropWhile isPySpace = pyLStrip s.reverse := rfl
  rw [h2, pyLStrip_eq_self_of_head s.reverse (fun c hc => h c (by rwa [List.head?_reverse] at hc))]
  exact s.reverse_reverse

theorem pyStrip_idem (s : List Char) : pyStrip (pyStrip s) = pyStrip s := by
  have h1 : pyLStrip (pyStrip s) = pyStrip s :=
    pyLStrip_eq_self_of_head _ (pyStrip_head s)
  show pyRStrip (pyLStrip (pyStrip s)) = pyStrip s
  rw [h1]
  exact pyRStrip_eq_self_of_last _ (fun c hc => pyRStrip_last (pyLStrip s) c hc)

theorem pyStrip_cons_space (s : List Char) (c : Char) (hc : isPySpace c = true) :
    pyStrip (c :: s) = pyStrip s := by
  unfold pyStrip pyLStrip
  rw [List.dropWhile_cons_of_pos hc]

theorem pyStrip_nil : pyStrip [] = [] := rfl

theorem mem_of_mem_pyLStrip {s : List Char} {c : Char} (h : c ∈ pyLStrip s) : c ∈ s := by
  induction s with
  | nil => simp [pyLStrip] at h
  | cons a as ih =>
    by_cases ha : isPySpace a
    · rw [pyLStrip, List.dropWhile_cons_of_pos ha] at h
      exact List.mem_cons_of_mem a (ih h)
    · rwa [pyLStrip, List.dropWhile_cons_of_neg ha] at h

theorem mem_of_mem_pyStrip {s : List Char} {c : Char} (h : c ∈ pyStrip s) : c ∈ s := by
  unfold pyStrip pyRStrip at h
  rw [List.mem_reverse] at h
  have := mem_of_mem_pyLStrip h
  rw [List.mem_reverse] at this
  exact mem_of_mem_pyLStrip this
/-- The Boolean threshold test agrees with the exact rational ratio. -/
theorem smRatioGe34_iff (a b : List Char) :
    smRatioGe34 a b = true ↔ (3 : ℚ) / 4 ≤ smRatio a b := by
  unfold smRatioGe34 smRatio
  by_cases h : a.length + b.length = 0
  · simp only [h, if_pos rfl]
    norm_num
  · have hpos : (0 : ℚ) < (a.length + b.length : ℚ) := by
      have : 0 < a.length + b.length := Nat.pos_of_ne_zero h
      exact_mod_cast this
    rw [if_neg h]
    rw [div_le_div_iff₀ (by norm_num) hpos]
    constructor
    · intro hb
      simp only [Bool.and_eq_true, decide_eq_true_eq] at hb
      have h8 : (3 : ℚ) * (a.length + b.length) ≤ 8 * smTotalMatches a b := by
        exact_mod_cast hb.2
      linarith
    · intro hq
      simp only [Bool.and_eq_true, decide_eq_true_eq]
      refine ⟨h, ?_⟩
      have h8 : (3 : ℚ) * (a.length + b.length) ≤ 8 * smTotalMatches a b := by linarith
      exact_mod_cast h8

/-! ## Lemmas about splitting and joining (for the sanitizer) -/

theorem pySplitChar_ne_nil (sep : Char) (s : List Char) : pySplitChar sep s ≠ [] := by
  cases s with
  | nil => simp [pySplitChar]
  | cons c cs =>
    rw [pySplitChar]
    by_cases h : c == sep
    · simp [h]
    · simp only [h]
      cases pySplitChar sep cs <;> simp

theorem pySplitChar_cons_ne (sep c : Char) (cs : List Char) (h : c ≠ sep) :
    pySplitChar sep (c :: cs) =
      (c :: (pySplitChar sep cs).headD []) :: (pySplitChar sep cs).tail := by
  rw [pySplitChar]
  simp only [beq_iff_eq, h, if_false]
  cases hh : pySplitChar sep cs with
  | nil => exact absurd hh (pySplitChar_ne_nil sep cs)
  | cons p ps => simp

theorem not_mem_of_mem_pySplitChar (sep : Char) (s : List Char) :
    ∀ piece ∈ pySplitChar sep s, sep ∉ piece := by
  induction s with
  | nil => intro piece hp; simp [pySplitChar] at hp; simp [hp]
  | cons c cs ih =>
    intro piece hp
    by_cases h : c = sep
    · subst h
      rw [pySplitChar] at hp
      simp only [beq_self_eq_true, if_true] at hp
      rcases List.mem_cons.mp hp with hp | hp
      · simp [hp]
      · exact ih piece hp
    · rw [pySplitChar_cons_ne sep c cs h] at hp
      rcases List.mem_cons.mp hp with hp | hp
      · subst hp
        intro hmem
        rcases List.mem_cons.mp hmem with hmem | hmem
        · exact h hmem.symm
        · cases hh : pySplitChar sep cs with
          | nil => exact absurd hh (pySplitChar_ne_nil sep cs)
          | cons p ps =>
            rw [hh] at hmem
            exact ih p (by rw [hh]; exact List.mem_cons_self p ps) hmem
      · cases hh : pySplitChar sep cs with
        | nil => exact absurd hh (pySplitChar_ne_nil sep cs)
        | cons p ps =>
          rw [hh] at hp
          exact ih piece (by rw [hh]; exact List.mem_cons_of_mem p hp)

theorem pySplitChar_sep_cons (sep : Char) (rest : List Char) :
    pySplitChar sep (sep :: rest) = [] :: pySplitChar sep rest := by
  rw [pySplitChar]
  simp

theorem pySplitChar_append_sep (sep : Char) (x rest : List Char) (hx : sep ∉ x) :
    pySplitChar sep (x ++ sep :: rest) = x :: pySplitChar sep rest := by
  induction x with
  | nil => simpa using pySplitChar_sep_cons sep rest
  | cons a x' ih =>
    have ha : a ≠ sep := fun h => hx (by simp [h])
    have hx' : sep ∉ x' := fun h => hx (List.mem_cons_of_mem a h)
    rw [List.cons_append, pySplitChar_cons_ne sep a _ ha, ih hx']
    simp

theorem pyJoin_cons₂ (sep p q : List Char) (qs : List (List Char)) :
    pyJoin sep (p :: q :: qs) = p ++ sep ++ pyJoin sep (q :: qs) := rfl

theorem pyJoin_ne_nil (sep : List Char) (l : List (List Char))
    (hl : l ≠ []) (hne : ∀ x ∈ l, x ≠ []) : pyJoin sep l ≠ [] := by
  cases l with
  | nil => exact absurd rfl hl
  | cons p ps =>
    cases ps with
    | nil =>
      exact hne p (List.mem_cons_self p [])
    | cons q qs =>
      rw [pyJoin_cons₂]
      have hp := hne p (List.mem_cons_self p _)
      intro hcontra
      rw [List.append_assoc] at hcontra
      rcases List.append_eq_nil.mp hcontra with ⟨h1, _⟩
      exact hp h1

theorem rawResplit (l : List (List Char)) (k : List Char)
    (hdot : ∀ x ∈ k :: l, ('.' : Char) ∉ x) :
    pySplitChar '.' (pyJoin ['.', ' '] (k :: l) ++ ['.']) =
      (k :: l.map (fun s => ' ' :: s)) ++ [[]] := by
  induction l generalizing k with
  | nil =>
    rw [pyJoin]
    rw [pySplitChar_append_sep '.' k [] (hdot k (List.mem_cons_self _ _))]
    rfl
  | cons k' l' ih =>
    rw [pyJoin_cons₂]
    have : k ++ ['.', ' '] ++ pyJoin ['.', ' '] (k' :: l') ++ ['.'] =
        k ++ '.' :: (' ' :: (pyJoin ['.', ' '] (k' :: l') ++ ['.'])) := by
      simp [List.append_assoc]
    rw [this, pySplitChar_append_sep '.' k _ (hdot k (List.mem_cons_self _ _))]
    have hsp : (' ' : Char) ≠ '.' := by decide
    rw [pySplitChar_cons_ne '.' ' ' _ hsp]
    have ihres := ih k' (fun x hx => hdot x (List.mem_cons_of_mem k hx))
    rw [ihres]
    simp

theorem contains_eq_decide_mem (l : List (List Char)) (x : List Char) :
    l.contains x = decide (x ∈ l) :=
  List.elem_eq_mem x l

theorem sanitize_keyword_filters (style : BrandStyle) :
    style.style_keywords.filter (fun kw => !(bannedTokens.contains (pyLower kw))) =
      style.style_keywords.filter (fun kw => decide (pyLower kw ∉ bannedTokens)) := by
  apply List.filter_congr
  intro kw _
  rw [contains_eq_decide_mem]
  by_cases h : pyLower kw ∈ bannedTokens <;> simp [h]

/-- Claim C9: for every BrandStyle, `FlyerPipeline._sanitize_brand_style`
removes exactly the style keywords whose lower-cased form is in the banned
token set, splits the layout guidance into sentences on periods, drops
every sentence containing a banned token, and rejoins the survivors with
a period and space plus a trailing period when any survive, the empty
layout staying empty — the source transformation coincides with the
transformation described by the specification. -/
theorem C9_sanitize_matches_spec (style : BrandStyle) :
    sanitizeBrandStyle style = sanitizeBrandStyleSpec style := by
  unfold sanitizeBrandStyle sanitizeBrandStyleSpec specSentences
  have hkw := sanitize_keyword_filters style
  refine congrArg₂ (fun kws lay => BrandStyle.mk style.palette kws lay style.typography_guidance)
    hkw ?_
  set sentences :=
    ((pySplitChar '.' style.layout_guidance).map pyStrip).filter (fun s => !s.isEmpty) with hsen
  set clean :=
    sentences.filter (fun s => !(bannedTokens.any (fun t => containsTok (pyLower s) t))) with hcl
  by_cases hc : clean.isEmpty
  · have : clean = [] := List.isEmpty_iff.mp hc
    rw [this]
    simp [pyJoin]
  · have hne : clean ≠ [] := fun h => by simp [h] at hc
    have hel : ∀ x ∈ clean, x ≠ [] := by
      intro x hx
      have hx2 : x ∈ sentences := List.mem_of_mem_filter hx
      have := (List.mem_filter.mp hx2).2
      simpa [List.isEmpty_iff] using this
    have hj : pyJoin ['.', ' '] clean ≠ [] := pyJoin_ne_nil _ _ hne hel
    rw [if_neg (by simpa [List.isEmpty_iff] using hj), if_neg (by simpa [List.isEmpty_iff] using hne)]

theorem sanitize_layout_resplit (clean : List (List Char))
    (hdot : ∀ x ∈ clean, ('.' : Char) ∉ x)
    (hstr : ∀ x ∈ clean, pyStrip x = x)
    (hne : ∀ x ∈ clean, x ≠ [])
    (hcons : clean ≠ []) :
    ((pySplitChar '.' (pyJoin ['.', ' '] clean ++ ['.'])).map pyStrip).filter
        (fun s => !s.isEmpty) = clean := by
  cases clean with
  | nil => exact absurd rfl hcons
  | cons k ks =>
    rw [rawResplit ks k hdot]
    have hmap : ((k :: ks.map (fun s => ' ' :: s)) ++ [[]]).map pyStrip =
        (k :: ks) ++ [([] : List Char)] := by
      rw [List.map_append, List.map_cons, List.map_map]
      have h1 : pyStrip k = k := hstr k (List.mem_cons_self _ _)
      have h2 : ks.map (pyStrip ∘ fun s => ' ' :: s) = ks := by
        have := List.map_congr_left (l := ks)
          (f := pyStrip ∘ fun s => ' ' :: s) (g := id) (fun x hx => by
            simp only [Function.comp_apply, id_eq]
            rw [pyStrip_cons_space _ ' ' (by decide)]
            exact hstr x (List.mem_cons_of_mem k hx))
        rw [this, List.map_id]
      rw [h1, h2]
      rfl
    rw [hmap, List.filter_append]
    have hfl : (k :: ks).filter (fun s => !s.isEmpty) = k :: ks := by
      apply List.filter_eq_self.mpr
      intro x hx
      simpa [List.isEmpty_iff] using hne x hx
    rw [hfl]
    simp

theorem sanitizeBrandStyle_eq (style : BrandStyle) :
    sanitizeBrandStyle style =
      ⟨style.palette, sanitizeKeywords style.style_keywords,
       sanitizeLayout style.layout_guidance, style.typography_guidance⟩ := rfl

theorem filter_self_idem {α : Type} (p : α → Bool) (l : List α) :
    (l.filter p).filter p = l.filter p := by
  apply List.filter_eq_self.mpr
  intro x hx
  exact (List.mem_filter.mp hx).2

theorem cleanSentences_facts (lay : List Char) :
    ∀ x ∈ cleanSentences lay, ('.' : Char) ∉ x ∧ pyStrip x = x ∧ x ≠ [] := by
  intro x hx
  have hx1 : x ∈ layoutSentences lay := List.mem_of_mem_filter hx
  have hx2 := List.mem_filter.mp hx1
  obtain ⟨y, hy, hyx⟩ := List.mem_map.mp hx2.1
  refine ⟨?_, ?_, ?_⟩
  · intro hdot
    exact not_mem_of_mem_pySplitChar '.' lay y hy (mem_of_mem_pyStrip (hyx ▸ hdot))
  · rw [← hyx]
    exact pyStrip_idem y
  · simpa [List.isEmpty_iff] using hx2.2

theorem sanitizeLayout_idem (lay : List Char) :
    sanitizeLayout (sanitizeLayout lay) = sanitizeLayout lay := by
  by_cases hc : cleanSentences lay = []
  · have h0 : sanitizeLayout lay = [] := by
      unfold sanitizeLayout
      rw [hc]
      simp [pyJoin]
    rw [h0]
    rfl
  · have hel : ∀ x ∈ cleanSentences lay, x ≠ [] :=
      fun x hx => (cleanSentences_facts lay x hx).2.2
    have hjoin : pyJoin ['.', ' '] (cleanSentences lay) ≠ [] :=
      pyJoin_ne_nil _ _ hc hel
    have hL : sanitizeLayout lay = pyJoin ['.', ' '] (cleanSentences lay) ++ ['.'] := by
      unfold sanitizeLayout
      rw [if_neg (by simpa [List.isEmpty_iff] using hjoin)]
    have hresplit : layoutSentences (sanitizeLayout lay) = cleanSentences lay := by
      rw [hL]
      exact sanitize_layout_resplit (cleanSentences lay)
        (fun x hx => (cleanSentences_facts lay x hx).1)
        (fun x hx => (cleanSentences_facts lay x hx).2.1)
        hel hc
    have key : cleanSentences (sanitizeLayout lay) = cleanSentences lay := by
      unfold cleanSentences
      rw [show layoutSentences (sanitizeLayout lay) = cleanSentences lay from hresplit]
      unfold cleanSentences
      exact filter_self_idem _ _
    rw [show sanitizeLayout (sanitizeLayout lay) =
        (if (pyJoin ['.', ' '] (cleanSentences (sanitizeLayout lay))).isEmpty then
          pyJoin ['.', ' '] (cleanSentences (sanitizeLayout lay))
        else pyJoin ['.', ' '] (cleanSentences (sanitizeLayout lay)) ++ ['.']) from rfl]
    rw [key, hL, if_neg (by simpa [List.isEmpty_iff] using hjoin)]

/-- Claim C10: brand-style sanitization is idempotent — applying
`_sanitize_brand_style` to its own output returns that output unchanged —
and sanitization never changes the palette or typography guidance. -/
theorem C10_sanitize_idempotent (style : BrandStyle) :
    sanitizeBrandStyle (sanitizeBrandStyle style) = sanitizeBrandStyle style ∧
    (sanitizeBrandStyle style).palette = style.palette ∧
    (sanitizeBrandStyle style).typography_guidance = style.typography_guidance := by
  refine ⟨?_, rfl, rfl⟩
  rw [sanitizeBrandStyle_eq, sanitizeBrandStyle_eq]
  simp only []
  rw [BrandStyle.mk.injEq]
  refine ⟨rfl, ?_, ?_, rfl⟩
  · unfold sanitizeKeywords
    exact filter_self_idem _ _
  · exact sanitizeLayout_idem style.layout_guidance

/-! ## Claim C1 — the constraint enforcer of FlyerPipeline -/

/-- Claim C1, amended: a copy variant already within the word budgets is
returned unchanged by `FlyerPipeline._ensure_constraints` with no model
call; otherwise exactly one rewrite request is issued and its parsed
outcome is returned as-is — no deterministic truncation is applied, so the
returned variant may still violate the budgets, and a malformed rewrite
reply makes the call raise. -/
theorem C1_enforcer_amended (o : Except PyExn CopyVariant) (v : CopyVariant) :
    (withinConstraints v = true → ensureConstraints o v = (.ok v, 0)) ∧
    (withinConstraints v = false → ensureConstraints o v = (o, 1)) := by
  constructor <;> intro h <;> simp [ensureConstraints, h]

/-- Claim C1 witness: the compliant example variant is returned unchanged
without consulting the rewrite oracle. -/
theorem C1_enforcer_amended_witness :
    withinConstraints exVariantOk = true ∧
    ensureConstraints (.error ⟨"boom".data⟩) exVariantOk = (.ok exVariantOk, 0) :=
  ⟨by decide, (C1_enforcer_amended (.error ⟨"boom".data⟩) exVariantOk).1 (by decide)⟩

/-- Claim C1 counterexample: with the model rewrite returning the same
out-of-budget variant (a possible model reply), the enforcer returns a
variant whose headline exceeds the six-word budget — the claim that the
result always satisfies the budgets is false. -/
theorem C1_counterexample :
    withinConstraints exVariantBad = false ∧
    (ensureConstraints (.ok exVariantBad) exVariantBad).1 = .ok exVariantBad := by
  constructor
  · decide
  · rfl

/-! ## Claim C8 — the overlay-fit enforcer of ComfyFlyerPipeline -/

theorem pyRStrip_length_le (s : List Char) : (pyRStrip s).length ≤ s.length := by
  obtain ⟨t, ht⟩ := pyRStrip_prefix s
  conv_rhs => rw [ht]
  simp

/-- Claim C8, amended: a copy variant whose headline exceeds the word
budget triggers exactly one rewrite request, and the final truncation cuts
a stripped field still over its character limit to its first
`limit - 1` characters, strips trailing whitespace from that prefix, and
appends an ellipsis marker — so the final headline is at most 22
characters long and equals the 21-character prefix plus the marker exactly
when that prefix ends with no whitespace. -/
theorem C8_overlay_truncation (c rw : CopyVariant) :
    (6 < wordCount c.headline →
      ensureOverlayFit (.ok (some rw)) c =
        .ok (⟨truncField rw.headline 22, truncField rw.subhead 34, truncField rw.body 160,
              truncField rw.cta 16,
              (if (truncField (rw.disclaimer.getD []) 34).isEmpty then none
               else some (truncField (rw.disclaimer.getD []) 34))⟩, 1)) ∧
    (∀ t : List Char, 22 < (pyStrip t).length →
      truncField t 22 = pyRStrip ((pyStrip t).take 21) ++ [ellipsisChar] ∧
      (truncField t 22).length ≤ 22) := by
  constructor
  · intro h
    have hok : overlayOk c = false := by
      unfold overlayOk
      have : (wordCount c.headline ≤ 6) = False := by simp; omega
      simp [this]
    unfold ensureOverlayFit
    rw [hok]
    rfl
  · intro t ht
    have hgt : ¬((pyStrip t).length ≤ 22) := by omega
    constructor
    · unfold truncField
      rw [if_neg hgt]
    · unfold truncField
      rw [if_neg hgt]
      have h22 : (22 : Nat) - 1 = 21 := rfl
      rw [h22]
      have h1 : (pyRStrip ((pyStrip t).take 21)).length ≤ 21 := by
        calc (pyRStrip ((pyStrip t).take 21)).length
            ≤ ((pyStrip t).take 21).length := pyRStrip_length_le _
          _ ≤ 21 := by simp
      simp only [List.length_append, List.length_cons, List.length_nil]
      omega

/-- Claim C8 witness: a nine-word headline triggers the rewrite, and the
23-character rewritten headline is truncated by the stated rule. -/
theorem C8_overlay_truncation_witness :
    6 < wordCount exOverlayOrig.headline ∧
    22 < (pyStrip exOverlayRewrite.headline).length ∧
    ensureOverlayFit (.ok (some exOverlayRewrite)) exOverlayOrig =
      .ok (⟨truncField exOverlayRewrite.headline 22, truncField exOverlayRewrite.subhead 34,
            truncField exOverlayRewrite.body 160, truncField exOverlayRewrite.cta 16,
            (if (truncField (exOverlayRewrite.disclaimer.getD []) 34).isEmpty then none
             else some (truncField (exOverlayRewrite.disclaimer.getD []) 34))⟩, 1) ∧
    truncField exOverlayRewrite.headline 22 =
      pyRStrip ((pyStrip exOverlayRewrite.headline).take 21) ++ [ellipsisChar] :=
  ⟨by decide, by decide,
   (C8_overlay_truncation exOverlayOrig exOverlayRewrite).1 (by decide),
   ((C8_overlay_truncation exOverlayOrig exOverlayRewrite).2
     exOverlayRewrite.headline (by decide)).1⟩

/-- Claim C8 counterexample: the rewritten headline has 23 characters with
a space in the 21st position; the final headline is the ellipsis appended
to only 20 characters, not to a 21-character prefix — the claim that the
final headline is exactly 21 characters plus the marker is false. -/
theorem C8_counterexample :
    ∃ r : CopyVariant,
      ensureOverlayFit (.ok (some exOverlayRewrite)) exOverlayOrig = .ok (r, 1) ∧
      r.headline ≠ (pyStrip exOverlayRewrite.headline).take 21 ++ [ellipsisChar] ∧
      r.headline.length = 21 := by
  refine ⟨_, rfl, ?_, ?_⟩
  · decide
  · decide

/-! ## Claim C2 — copy generation returns exactly the target count -/

theorem enforceAll_length (rw : CopyVariant → Except PyExn CopyVariant) :
    ∀ (vs l : List CopyVariant), enforceAll rw vs = .ok l → l.length = vs.length := by
  intro vs
  induction vs with
  | nil => intro l h; simp [enforceAll] at h; simp [← h]
  | cons v vs ih =>
    intro l h
    unfold enforceAll at h
    cases h1 : (ensureConstraints (rw v) v).1 with
    | error e => rw [h1] at h; exact absurd h (by simp)
    | ok v' =>
      rw [h1] at h
      cases h2 : enforceAll rw vs with
      | error e => rw [h2] at h; exact absurd h (by simp)
      | ok vs' =>
        rw [h2] at h
        simp only [Except.ok.injEq] at h
        rw [← h]
        simp [ih vs' h2]

theorem enforceAll_total (rw : CopyVariant → Except PyExn CopyVariant)
    (hr : ∀ v, ∃ v', rw v = .ok v') :
    ∀ vs : List CopyVariant, ∃ l, enforceAll rw vs = .ok l := by
  intro vs
  induction vs with
  | nil => exact ⟨[], rfl⟩
  | cons v vs ih =>
    obtain ⟨l, hl⟩ := ih
    unfold enforceAll
    by_cases hw : withinConstraints v
    · rw [show (ensureConstraints (rw v) v).1 = .ok v by simp [ensureConstraints, hw]]
      rw [hl]
      exact ⟨v :: l, rfl⟩
    · obtain ⟨v', hv'⟩ := hr v
      rw [show (ensureConstraints (rw v) v).1 = .ok v' by
        simp [ensureConstraints, hw, hv']]
      rw [hl]
      exact ⟨v' :: l, rfl⟩

theorem generateCopyLoop_ok_length (env : CopyGenEnv) (target : Nat) :
    ∀ (n i : Nat) (l : List CopyVariant),
      generateCopyLoop env target n i = .ok l → l.length = target := by
  intro n
  induction n with
  | zero => intro i l h; exact absurd h (by simp [generateCopyLoop])
  | succ n ih =>
    intro i l h
    cases hA : env.attempts i with
    | error e =>
      simp only [generateCopyLoop, hA] at h
      exact absurd h (by simp)
    | ok vs =>
      simp only [generateCopyLoop, hA] at h
      by_cases h1 : vs.length = target
      · rw [if_pos h1] at h
        rw [enforceAll_length env.rewrites vs l h]
        exact h1
      · rw [if_neg h1] at h
        by_cases h2 : target < vs.length
        · rw [if_pos h2] at h
          rw [enforceAll_length env.rewrites _ l h]
          simp
          omega
        · rw [if_neg h2] at h
          cases hP : padVariants (env.pads i) vs target with
          | error e =>
            simp only [hP] at h
            exact absurd h (by simp)
          | ok vs2 =>
            simp only [hP] at h
            by_cases h3 : vs2.length = target
            · rw [if_pos h3] at h
              rw [enforceAll_length env.rewrites vs2 l h]
              exact h3
            · rw [if_neg h3] at h
              exact ih (i + 1) l h

theorem generateCopyLoop_dichotomy (env : CopyGenEnv) (target : Nat)
    (ha : ∀ i, ∃ vs, env.attempts i = .ok vs)
    (hp : ∀ i, ∃ vs, env.pads i = .ok vs)
    (hr : ∀ v, ∃ v', env.rewrites v = .ok v') :
    ∀ (n i : Nat),
      (∃ l, generateCopyLoop env target n i = .ok l ∧ l.length = target) ∨
        generateCopyLoop env target n i = .error ⟨copyExhaustedMsg⟩ := by
  intro n
  induction n with
  | zero => intro i; right; rfl
  | succ n ih =>
    intro i
    obtain ⟨vs, hvs⟩ := ha i
    by_cases h1 : vs.length = target
    · obtain ⟨l, hl⟩ := enforceAll_total env.rewrites hr vs
      left
      refine ⟨l, ?_, ?_⟩
      · simp only [generateCopyLoop, hvs, if_pos h1]
        exact hl
      · rw [enforceAll_length env.rewrites vs l hl]
        exact h1
    · by_cases h2 : target < vs.length
      · obtain ⟨l, hl⟩ := enforceAll_total env.rewrites hr (vs.take target)
        left
        refine ⟨l, ?_, ?_⟩
        · simp only [generateCopyLoop, hvs, if_neg h1, if_pos h2]
          exact hl
        · rw [enforceAll_length env.rewrites _ l hl]
          simp
          omega
      · obtain ⟨extra, hextra⟩ := hp i
        have hpv : padVariants (env.pads i) vs target = .ok ((vs ++ extra).take target) := by
          unfold padVariants
          rw [if_neg (by omega), hextra]
        by_cases h3 : ((vs ++ extra).take target).length = target
        · obtain ⟨l, hl⟩ := enforceAll_total env.rewrites hr ((vs ++ extra).take target)
          left
          refine ⟨l, ?_, ?_⟩
          · simp only [generateCopyLoop, hvs, if_neg h1, if_neg h2, hpv, if_pos h3]
            exact hl
          · rw [enforceAll_length env.rewrites _ l hl, h3]
        · rcases ih (i + 1) with ⟨l, hl, hlen⟩ | herr
          · left
            refine ⟨l, ?_, hlen⟩
            simp only [generateCopyLoop, hvs, if_neg h1, if_neg h2, hpv, if_neg h3]
            exact hl
          · right
            simp only [generateCopyLoop, hvs, if_neg h1, if_neg h2, hpv, if_neg h3]
            exact herr

theorem generateCopyLoop_trim (env : CopyGenEnv) (target : Nat) (vs : List CopyVariant)
    (hvs : env.attempts 0 = .ok vs) (hlt : target < vs.length) :
    generateCopyLoop env target 3 0 = enforceAll env.rewrites (vs.take target) := by
  show generateCopyLoop env target (2 + 1) 0 = _
  simp only [generateCopyLoop, hvs, if_neg (by omega : ¬vs.length = target), if_pos hlt]

theorem generateCopyLoop_pad (env : CopyGenEnv) (target : Nat) (vs extra : List CopyVariant)
    (hvs : env.attempts 0 = .ok vs) (hlt : vs.length < target)
    (hextra : env.pads 0 = .ok extra) (hle : target ≤ vs.length + extra.length) :
    generateCopyLoop env target 3 0 = enforceAll env.rewrites ((vs ++ extra).take target) := by
  have hpv : padVariants (env.pads 0) vs target = .ok ((vs ++ extra).take target) := by
    unfold padVariants
    rw [if_neg (by omega), hextra]
  have h3 : ((vs ++ extra).take target).length = target := by
    simp
    omega
  show generateCopyLoop env target (2 + 1) 0 = _
  simp only [generateCopyLoop, hvs, if_neg (by omega : ¬vs.length = target),
    if_neg (by omega : ¬target < vs.length), hpv, if_pos h3]

/-- Claim C2: copy generation returns exactly the target count of
variants or raises the copy-generation-exhausted error after three outer
attempts; a successful return never has fewer than the target.  When the
model over-produces on an attempt the list is trimmed to the target, and
when it under-produces one padding request appends variants after the
first-appearance ones and the whole is cut to the target, preserving
order. -/
theorem C2_generate_copy (env : CopyGenEnv) (n : Int) :
    (∀ l, generateCopyVariants env n = .ok l → l.length = (max 1 n).toNat) ∧
    ((∀ i, ∃ vs, env.attempts i = .ok vs) → (∀ i, ∃ vs, env.pads i = .ok vs) →
      (∀ v, ∃ v', env.rewrites v = .ok v') →
      (∃ l, generateCopyVariants env n = .ok l ∧ l.length = (max 1 n).toNat) ∨
        generateCopyVariants env n = .error ⟨copyExhaustedMsg⟩) ∧
    (∀ vs, env.attempts 0 = .ok vs → (max 1 n).toNat < vs.length →
      generateCopyVariants env n =
        enforceAll env.rewrites (vs.take (max 1 n).toNat)) ∧
    (∀ vs extra, env.attempts 0 = .ok vs → vs.length < (max 1 n).toNat →
      env.pads 0 = .ok extra → (max 1 n).toNat ≤ vs.length + extra.length →
      generateCopyVariants env n =
        enforceAll env.rewrites ((vs ++ extra).take (max 1 n).toNat)) := by
  refine ⟨?_, ?_, ?_, ?_⟩
  · intro l h
    exact generateCopyLoop_ok_length env _ 3 0 l h
  · intro ha hp hr
    exact generateCopyLoop_dichotomy env _ ha hp hr 3 0
  · intro vs hvs hlt
    exact generateCopyLoop_trim env _ vs hvs hlt
  · intro vs extra hvs hlt hextra hle
    exact generateCopyLoop_pad env _ vs extra hvs hlt hextra hle

/-- Claim C2 witness: the brief requests three variants, the model returns
two well-formed variants and the padding request one more; the result has
exactly three variants, in first-two-then-padded order. -/
theorem C2_generate_copy_witness :
    exCopyEnvPad.attempts 0 = .ok [exVariantOk, exVariantOk] ∧
    exCopyEnvPad.pads 0 = .ok [exVariantOk] ∧
    generateCopyVariants exCopyEnvPad 3 =
      enforceAll exCopyEnvPad.rewrites
        (([exVariantOk, exVariantOk] ++ [exVariantOk]).take (max 1 (3 : Int)).toNat) ∧
    generateCopyVariants exCopyEnvPad 3 = .ok [exVariantOk, exVariantOk, exVariantOk] :=
  ⟨rfl, rfl,
   (C2_generate_copy exCopyEnvPad 3).2.2.2 [exVariantOk, exVariantOk] [exVariantOk]
     rfl (by decide) rfl (by decide),
   by rfl⟩

/-! ## Claims C3, C4, C5 — image/QC loop and run status lifecycle -/

theorem genImagesLoop_no_status (env : PipelineEnv) (brief : CreativeBrief) :
    ∀ (pkgs : List PromptPackage) (idx : Nat),
      ((genImagesLoop env brief pkgs idx).2).filter isStatusEvent = [] := by
  intro pkgs
  induction pkgs with
  | nil => intro idx; rfl
  | cons pkg rest ih =>
    intro idx
    unfold genImagesLoop
    cases hq : qcLoop env brief pkg.copy_variant idx 1 env.maxImageAttempts with
    | error e =>
      by_cases hp : env.persistEnabled <;> simp [hp, isStatusEvent]
    | ok qc =>
      rcases hrec : genImagesLoop env brief rest (idx + 1) with ⟨res, evs⟩
      have hevs : evs.filter isStatusEvent = [] := by
        have := ih (idx + 1)
        rw [hrec] at this
        exact this
      cases res with
      | error e =>
        by_cases hp : env.persistEnabled <;>
          simp [hp, hrec, List.filter_append, hevs, isStatusEvent]
      | ok vs =>
        by_cases hp : env.persistEnabled <;>
          simp [hp, hrec, List.filter_append, hevs, isStatusEvent]

theorem runPipeline_status (env : PipelineEnv) (brief : CreativeBrief)
    (hp : env.persistEnabled = true) :
    ((runPipeline env brief).2.filter isStatusEvent =
        [PersistEvent.createRun .RUNNING, PersistEvent.updateRunStatus .COMPLETE none] ∧
      ∃ r, (runPipeline env brief).1 = .ok r) ∨
    (∃ e, (runPipeline env brief).1 = .error e ∧
      (runPipeline env brief).2.filter isStatusEvent =
        [PersistEvent.createRun .RUNNING, PersistEvent.updateRunStatus .FAILED (some e.msg)]) := by
  unfold runPipeline
  cases hst : env.styleResult with
  | error e =>
    right
    refine ⟨e, ?_, ?_⟩ <;> simp [hp, failEvents, isStatusEvent]
  | ok rawStyle =>
    cases hcp : generateCopyVariants env.copyEnv env.variantsCfg with
    | error e =>
      right
      refine ⟨e, ?_, ?_⟩ <;>
        simp [hp, failEvents, isStatusEvent, List.filter_append]
    | ok variants =>
      rcases hgi : generateImages env brief
          (buildPromptPackages brief (sanitizeBrandStyle rawStyle) variants) with ⟨res, evsImg⟩
      have hnost : evsImg.filter isStatusEvent = [] := by
        have := genImagesLoop_no_status env brief
          (buildPromptPackages brief (sanitizeBrandStyle rawStyle) variants) 1
        rw [show genImagesLoop env brief
            (buildPromptPackages brief (sanitizeBrandStyle rawStyle) variants) 1 =
            (res, evsImg) from hgi] at this
        exact this
      cases res with
      | error e =>
        right
        refine ⟨e, ?_, ?_⟩ <;>
          simp [hp, hgi, failEvents, isStatusEvent, List.filter_append, hnost]
      | ok images =>
        left
        constructor
        · simp [hp, hgi, isStatusEvent, List.filter_append, hnost]
        · refine ⟨RunResult.mk brief (sanitizeBrandStyle rawStyle) images env.runDir, ?_⟩
          simp [hgi]

/-- Claim C5: with persistence enabled, a run record is created with
status RUNNING, and its status is updated exactly once afterwards, to
COMPLETE when `run` returns normally and to FAILED carrying the raised
error's message when any step raises (the error being re-raised); the
status never returns to RUNNING and never moves between terminal states. -/
theorem C5_run_status_lifecycle (env : PipelineEnv) (brief : CreativeBrief)
    (hp : env.persistEnabled = true) :
    ((runPipeline env brief).2.filter isStatusEvent =
        [PersistEvent.createRun .RUNNING, PersistEvent.updateRunStatus .COMPLETE none] ∧
      ∃ r, (runPipeline env brief).1 = .ok r) ∨
    (∃ e, (runPipeline env brief).1 = .error e ∧
      (runPipeline env brief).2.filter isStatusEvent =
        [PersistEvent.createRun .RUNNING, PersistEvent.updateRunStatus .FAILED (some e.msg)]) :=
  runPipeline_status env brief hp

/-- Claim C5 witness: a concrete persisted run that completes, and a
concrete persisted run that fails, each with the stated status trace. -/
theorem C5_run_status_lifecycle_witness :
    exEnvQCFail.persistEnabled = true ∧
    ((runPipeline exEnvQCFail exBrief).2.filter isStatusEvent =
        [PersistEvent.createRun .RUNNING, PersistEvent.updateRunStatus .COMPLETE none] ∧
      ∃ r, (runPipeline exEnvQCFail exBrief).1 = .ok r) ∨
    (∃ e, (runPipeline exEnvQCFail exBrief).1 = .error e ∧
      (runPipeline exEnvQCFail exBrief).2.filter isStatusEvent =
        [PersistEvent.createRun .RUNNING, PersistEvent.updateRunStatus .FAILED (some e.msg)]) := by
  have := C5_run_status_lifecycle exEnvQCFail exBrief rfl
  rcases this with h | h
  · exact Or.inl ⟨rfl, h⟩
  · exact Or.inr h

theorem qcLoop_all_fail (env : PipelineEnv) (brief : CreativeBrief) (c : CopyVariant)
    (idx : Nat) (hqc : env.qcEnabled = true)
    (hgen : ∀ j, env.genImage idx j = .ok ())
    (hval : ∀ j, validate_text (expectedPhrases brief c) (pyStrip (env.ocr idx j)) = false) :
    ∀ (rem a : Nat), 1 ≤ rem →
      qcLoop env brief c idx a rem = .ok (false, pyStrip (env.ocr idx (a + rem - 1))) := by
  intro rem
  induction rem with
  | zero => intro a h; omega
  | succ r ih =>
    intro a _
    cases r with
    | zero =>
      simp only [qcLoop, hgen a, hqc, hval a]
      rfl
    | succ r' =>
      have hrec := ih (a + 1) (by omega)
      rw [show a + 1 + (r' + 1) - 1 = a + (r' + 1 + 1) - 1 by omega] at hrec
      simp only [qcLoop, hgen a, hgen (a + 1), hqc, hval a, hval (a + 1)] at hrec ⊢
      simpa using hrec

theorem genImagesLoop_qcfail (env : PipelineEnv) (brief : CreativeBrief)
    (hqc : env.qcEnabled = true) (hmax : 1 ≤ env.maxImageAttempts)
    (hgen : ∀ idx j, env.genImage idx j = .ok ())
    (hval : ∀ idx j c, validate_text (expectedPhrases brief c) (pyStrip (env.ocr idx j)) = false) :
    ∀ (pkgs : List PromptPackage) (idx : Nat),
      ∃ vs, (genImagesLoop env brief pkgs idx).1 = .ok vs ∧
        vs.length = pkgs.length ∧
        ∀ v ∈ vs, v.qc_passed = false ∧
          v.qc_text = some (pyStrip (env.ocr v.index env.maxImageAttempts)) := by
  intro pkgs
  induction pkgs with
  | nil => intro idx; exact ⟨[], rfl, rfl, by simp⟩
  | cons pkg rest ih =>
    intro idx
    obtain ⟨vs, hres, hlen, hprop⟩ := ih (idx + 1)
    rcases hpair : genImagesLoop env brief rest (idx + 1) with ⟨res, evs⟩
    rw [hpair] at hres
    simp only at hres
    subst hres
    have hq : qcLoop env brief pkg.copy_variant idx 1 env.maxImageAttempts =
        .ok (false, pyStrip (env.ocr idx env.maxImageAttempts)) := by
      have := qcLoop_all_fail env brief pkg.copy_variant idx hqc (hgen idx)
        (fun j => hval idx j pkg.copy_variant) env.maxImageAttempts 1 hmax
      rw [show 1 + env.maxImageAttempts - 1 = env.maxImageAttempts by omega] at this
      exact this
    unfold genImagesLoop
    rw [hq, hpair]
    refine ⟨_, rfl, ?_, ?_⟩
    · simp [hlen]
    · intro v hv
      rcases List.mem_cons.mp hv with hv | hv
      · subst hv
        exact ⟨rfl, rfl⟩
      · exact hprop v hv

theorem validateTextAux_false_of_mem (nocr : List Char) (ps : List (List Char))
    (p : List Char) (hp : p ∈ ps)
    (h1 : (qcNormalize p).isEmpty = false)
    (h2 : containsTok nocr (qcNormalize p) = false)
    (h3 : phraseMatchB (qcNormalize p) nocr = false) :
    validateTextAux nocr ps = false := by
  induction ps with
  | nil => simp at hp
  | cons q qs ih =>
    unfold validateTextAux
    rcases List.mem_cons.mp hp with hq | hq
    · subst hq
      rw [if_neg (by simp [h1]), if_neg (by simp [h2]), if_neg (by simp [h3])]
    · by_cases e1 : (qcNormalize q).isEmpty
      · rw [if_pos e1]
        exact ih hq
      · rw [if_neg e1]
        by_cases e2 : containsTok nocr (qcNormalize q) = true
        · rw [if_pos e2]
          exact ih hq
        · rw [if_neg e2]
          by_cases e3 : phraseMatchB (qcNormalize q) nocr = true
          · rw [if_pos e3]
            exact ih hq
          · rw [if_neg e3]

/-- Claim C4: when image generation succeeds on every attempt but QC never
passes within the attempt budget, the QC loop returns each variant marked
not passed and carrying the OCR text of the last attempt instead of
raising; the returned list keeps one entry per package (no variant is
dropped), and the run itself still completes. -/
theorem runPipeline_ok_of_qcfail (env : PipelineEnv) (brief : CreativeBrief)
    (hqc : env.qcEnabled = true) (hmax : 1 ≤ env.maxImageAttempts)
    (hgen : ∀ idx j, env.genImage idx j = .ok ())
    (hval : ∀ idx j c,
      validate_text (expectedPhrases brief c) (pyStrip (env.ocr idx j)) = false)
    (st : BrandStyle) (vs0 : List CopyVariant) (hst : env.styleResult = .ok st)
    (hcp : generateCopyVariants env.copyEnv env.variantsCfg = .ok vs0) :
    ∃ r, (runPipeline env brief).1 = .ok r := by
  obtain ⟨vs, hgi1, _, _⟩ := genImagesLoop_qcfail env brief hqc hmax hgen hval
    (buildPromptPackages brief (sanitizeBrandStyle st) vs0) 1
  rcases hpair : generateImages env brief
      (buildPromptPackages brief (sanitizeBrandStyle st) vs0) with ⟨res, evs⟩
  have : res = .ok vs := by
    have h2 : (genImagesLoop env brief
        (buildPromptPackages brief (sanitizeBrandStyle st) vs0) 1).1 = .ok vs := hgi1
    rw [show genImagesLoop env brief
        (buildPromptPackages brief (sanitizeBrandStyle st) vs0) 1 = (res, evs) from hpair] at h2
    exact h2
  subst this
  simp only [runPipeline, hst, hcp, hpair]
  exact ⟨_, rfl⟩

/-- Claim C4: when image generation succeeds on every attempt but QC never
passes within the attempt budget, the QC loop returns each variant marked
not passed and carrying the OCR text of the last attempt instead of
raising; the returned list keeps one entry per package (no variant is
dropped), and the run itself still completes. -/
theorem C4_qc_failure_not_fatal (env : PipelineEnv) (brief : CreativeBrief)
    (hqc : env.qcEnabled = true) (hmax : 1 ≤ env.maxImageAttempts)
    (hgen : ∀ idx j, env.genImage idx j = .ok ())
    (hval : ∀ idx j c,
      validate_text (expectedPhrases brief c) (pyStrip (env.ocr idx j)) = false) :
    (∀ c idx, qcLoop env brief c idx 1 env.maxImageAttempts =
      .ok (false, pyStrip (env.ocr idx env.maxImageAttempts))) ∧
    (∀ (pkgs : List PromptPackage),
      ∃ vs, (generateImages env brief pkgs).1 = .ok vs ∧
        vs.length = pkgs.length ∧
        ∀ v ∈ vs, v.qc_passed = false ∧
          v.qc_text = some (pyStrip (env.ocr v.index env.maxImageAttempts))) ∧
    (∀ st vs0, env.styleResult = .ok st →
      generateCopyVariants env.copyEnv env.variantsCfg = .ok vs0 →
      ∃ r, (runPipeline env brief).1 = .ok r) := by
  refine ⟨?_, ?_, ?_⟩
  · intro c idx
    have := qcLoop_all_fail env brief c idx hqc (hgen idx)
      (fun j => hval idx j c) env.maxImageAttempts 1 hmax
    rw [show 1 + env.maxImageAttempts - 1 = env.maxImageAttempts by omega] at this
    exact this
  · intro pkgs
    exact genImagesLoop_qcfail env brief hqc hmax hgen hval pkgs 1
  · intro st vs0 hst hcp
    exact runPipeline_ok_of_qcfail env brief hqc hmax hgen hval st vs0 hst hcp

/-- Claim C4 witness: a concrete run with three attempts whose OCR text
never matches: the single variant comes back with `qc_passed = false` and
the last attempt's OCR text, and the run completes. -/
theorem C4_qc_failure_not_fatal_witness :
    exEnvQCFail.qcEnabled = true ∧ 1 ≤ exEnvQCFail.maxImageAttempts ∧
    (∃ vs, (generateImages exEnvQCFail exBrief
        (buildPromptPackages exBrief (sanitizeBrandStyle exStyle) [exVariantOk])).1 = .ok vs ∧
      vs.length = (buildPromptPackages exBrief (sanitizeBrandStyle exStyle) [exVariantOk]).length ∧
      ∀ v ∈ vs, v.qc_passed = false ∧
        v.qc_text = some (pyStrip (exEnvQCFail.ocr v.index exEnvQCFail.maxImageAttempts))) ∧
    (∃ r, (runPipeline exEnvQCFail exBrief).1 = .ok r) := by
  have hval : ∀ idx j c,
      validate_text (expectedPhrases exBrief c) (pyStrip (exEnvQCFail.ocr idx j)) = false := by
    intro idx j c
    show validateTextAux (qcNormalize (pyStrip "zzz qqq".data)) (expectedPhrases exBrief c) = false
    apply validateTextAux_false_of_mem _ _ ("Mango Hut".data)
    · show "Mango Hut".data ∈ _ ++ requiredDetails (some exBrief)
      rw [show requiredDetails (some exBrief) = ["Mango Hut".data] from rfl]
      exact List.mem_append_right _ (List.mem_cons_self _ _)
    · decide
    · decide
    · decide
  have H := C4_qc_failure_not_fatal exEnvQCFail exBrief rfl (by decide)
    (fun _ _ => rfl) hval
  exact ⟨rfl, by decide, H.2.1 _, H.2.2 exStyle [exVariantOk] rfl (by rfl)⟩

/-! ## Claim C3 — image-backend failure handling -/

theorem qcLoop_gen_error (env : PipelineEnv) (brief : CreativeBrief) (c : CopyVariant)
    (idx : Nat) (e : PyExn) :
    ∀ (d a rem : Nat), d < rem →
      (∀ j, a ≤ j → j < a + d → env.genImage idx j = .ok () ∧ env.qcEnabled = true ∧
        validate_text (expectedPhrases brief c) (pyStrip (env.ocr idx j)) = false) →
      env.genImage idx (a + d) = .error e →
      qcLoop env brief c idx a rem = .error e := by
  intro d
  induction d with
  | zero =>
    intro a rem hrem hpre herr
    cases rem with
    | zero => omega
    | succ r =>
      rw [show a + 0 = a by omega] at herr
      simp only [qcLoop, herr]
  | succ d ih =>
    intro a rem hrem hpre herr
    cases rem with
    | zero => omega
    | succ r =>
      obtain ⟨hok, hqc, hv⟩ := hpre a (by omega) (by omega)
      have hrec : qcLoop env brief c idx (a + 1) r = .error e := by
        apply ih (a + 1) r (by omega)
        · intro j hj1 hj2
          exact hpre j (by omega) (by omega)
        · rw [show a + 1 + d = a + (d + 1) by omega]
          exact herr
      simp only [qcLoop, hok, hqc, hv]
      simp only [Bool.not_true, Bool.false_eq_true, if_false]
      rw [if_neg (by omega : ¬r = 0)]
      exact hrec

theorem genImagesLoop_gen_error (env : PipelineEnv) (brief : CreativeBrief)
    (pkg : PromptPackage) (rest : List PromptPackage) (idx : Nat) (e : PyExn)
    (hq : qcLoop env brief pkg.copy_variant idx 1 env.maxImageAttempts = .error e) :
    (genImagesLoop env brief (pkg :: rest) idx).1 = .error e := by
  unfold genImagesLoop
  rw [hq]

theorem runPipeline_err_of_gen_error (env : PipelineEnv) (brief : CreativeBrief)
    (st : BrandStyle) (v : CopyVariant) (rest : List CopyVariant) (e : PyExn)
    (hst : env.styleResult = .ok st)
    (hcp : generateCopyVariants env.copyEnv env.variantsCfg = .ok (v :: rest))
    (hq : qcLoop env brief v 1 1 env.maxImageAttempts = .error e) :
    (runPipeline env brief).1 = .error e := by
  have himg : (generateImages env brief
      (buildPromptPackages brief (sanitizeBrandStyle st) (v :: rest))).1 = .error e := by
    show (genImagesLoop env brief _ 1).1 = .error e
    rw [show buildPromptPackages brief (sanitizeBrandStyle st) (v :: rest) =
      ({ image_prompt := backgroundPrompt brief (sanitizeBrandStyle st),
         negative_prompt := negativePromptText, copy_variant := v } : PromptPackage) ::
        buildPromptPackages brief (sanitizeBrandStyle st) rest from rfl]
    exact genImagesLoop_gen_error env brief _ _ 1 e hq
  rcases hpair : generateImages env brief
      (buildPromptPackages brief (sanitizeBrandStyle st) (v :: rest)) with ⟨res, evs⟩
  have : res = .error e := by
    rw [hpair] at himg
    exact himg
  subst this
  simp only [runPipeline, hst, hcp, hpair]

/-- Claim C3, amended: an image-backend failure (raised error) on any
attempt of the QC loop is not retried — it immediately aborts the loop for
that variant, propagates out of `generate_images`, and ends the run with
terminal status FAILED carrying the transport error message, even when
attempts remain within `max_attempts`. -/
theorem C3_image_failure_aborts (env : PipelineEnv) (brief : CreativeBrief) :
    (∀ c idx e, env.genImage idx 1 = .error e → 1 ≤ env.maxImageAttempts →
      qcLoop env brief c idx 1 env.maxImageAttempts = .error e) ∧
    (∀ c idx e d, d < env.maxImageAttempts →
      (∀ j, 1 ≤ j → j < 1 + d → env.genImage idx j = .ok () ∧ env.qcEnabled = true ∧
        validate_text (expectedPhrases brief c) (pyStrip (env.ocr idx j)) = false) →
      env.genImage idx (1 + d) = .error e →
      qcLoop env brief c idx 1 env.maxImageAttempts = .error e) ∧
    (∀ st v rest e, env.styleResult = .ok st →
      generateCopyVariants env.copyEnv env.variantsCfg = .ok (v :: rest) →
      qcLoop env brief v 1 1 env.maxImageAttempts = .error e →
      (runPipeline env brief).1 = .error e ∧
        (env.persistEnabled = true →
          (runPipeline env brief).2.filter isStatusEvent =
            [PersistEvent.createRun .RUNNING,
             PersistEvent.updateRunStatus .FAILED (some e.msg)])) := by
  refine ⟨?_, ?_, ?_⟩
  · intro c idx e herr hmax
    apply qcLoop_gen_error env brief c idx e 0 1 env.maxImageAttempts (by omega)
    · intro j hj1 hj2
      omega
    · rw [show 1 + 0 = 1 by omega]
      exact herr
  · intro c idx e d hd hpre herr
    exact qcLoop_gen_error env brief c idx e d 1 env.maxImageAttempts hd hpre herr
  · intro st v rest e hst hcp hq
    have herr := runPipeline_err_of_gen_error env brief st v rest e hst hcp hq
    refine ⟨herr, fun hp => ?_⟩
    rcases runPipeline_status env brief hp with ⟨_, ⟨r, hok⟩⟩ | ⟨e', he', htrace⟩
    · rw [herr] at hok
      exact absurd hok (by simp)
    · rw [herr] at he'
      have : e = e' := by
        simpa using he'
      rw [← this] at htrace
      exact htrace

/-- Claim C3 witness: a backend error on the first attempt aborts the QC
loop at once and the run records FAILED with the transport message. -/
theorem C3_image_failure_aborts_witness :
    qcLoop exEnvImgFail exBrief exVariantOk 1 1 exEnvImgFail.maxImageAttempts =
      .error ⟨timeoutMsg⟩ ∧
    (runPipeline exEnvImgFail exBrief).1 = .error ⟨timeoutMsg⟩ ∧
    (runPipeline exEnvImgFail exBrief).2.filter isStatusEvent =
      [PersistEvent.createRun .RUNNING,
       PersistEvent.updateRunStatus .FAILED (some timeoutMsg)] := by
  have H := C3_image_failure_aborts exEnvImgFail exBrief
  have h1 := H.1 exVariantOk 1 ⟨timeoutMsg⟩ rfl (by decide)
  have h3 := H.2.2 exStyle exVariantOk [] ⟨timeoutMsg⟩ rfl (by rfl) h1
  exact ⟨h1, h3.1, h3.2 rfl⟩

/-- Claim C3 counterexample: the backend fails only on the first attempt
and would succeed on attempts two and three of the configured three, yet
the run ends immediately with FAILED — the claimed retry of backend
failures up to `max_attempts` does not happen. -/
theorem C3_counterexample :
    exEnvImgFail.maxImageAttempts = 3 ∧
    exEnvImgFail.genImage 1 2 = .ok () ∧
    exEnvImgFail.genImage 1 3 = .ok () ∧
    (runPipeline exEnvImgFail exBrief).1 = .error ⟨timeoutMsg⟩ := by
  refine ⟨rfl, rfl, rfl, ?_⟩
  rfl

/-! ## Claim C6 — phrase-matching QC -/

theorem infix_map {p t : List Char} (f : Char → Char) (h : p <:+: t) :
    p.map f <:+: t.map f := by
  obtain ⟨u, v, rfl⟩ := h
  exact ⟨u.map f, v.map f, by simp⟩

theorem infix_rev {p t : List Char} (h : p <:+: t) : p.reverse <:+: t.reverse := by
  obtain ⟨u, v, rfl⟩ := h
  exact ⟨v.reverse, u.reverse, by simp⟩

theorem getLast_cons_elim (c : Char) (cs : List Char) (f : Bool) :
    ((c :: cs).getLast?.elim f isPySpace) = (cs.getLast?.elim (isPySpace c) isPySpace) := by
  cases cs with
  | nil => rfl
  | cons d ds =>
    rw [List.getLast?_cons_cons]
    rcases hgl : (d :: ds).getLast? with _ | x
    · exact absurd hgl (by simp)
    · rfl

theorem collapseWs_append (u : List Char) :
    ∀ (f : Bool) (v : List Char),
      collapseWs f (u ++ v) = collapseWs f u ++ collapseWs (u.getLast?.elim f isPySpace) v := by
  induction u with
  | nil => intro f v; rfl
  | cons c cs ih =>
    intro f v
    rw [List.cons_append, getLast_cons_elim]
    by_cases hc : isPySpace c
    · by_cases hf : f
      · rw [show collapseWs f (c :: (cs ++ v)) = collapseWs true (cs ++ v) by
          simp [collapseWs, hc, hf]]
        rw [show collapseWs f (c :: cs) = collapseWs true cs by simp [collapseWs, hc, hf]]
        rw [ih true v, hc]
      · rw [show collapseWs f (c :: (cs ++ v)) = ' ' :: collapseWs true (cs ++ v) by
          simp [collapseWs, hc, hf]]
        rw [show collapseWs f (c :: cs) = ' ' :: collapseWs true cs by simp [collapseWs, hc, hf]]
        rw [ih true v, hc]
        rfl
    · rw [show collapseWs f (c :: (cs ++ v)) = c :: collapseWs false (cs ++ v) by
        simp [collapseWs, hc]]
      rw [show collapseWs f (c :: cs) = c :: collapseWs false cs by simp [collapseWs, hc]]
      rw [ih false v]
      have : isPySpace c = false := by simp [hc]
      rw [this]
      rfl

theorem collapseWs_true_false (x : List Char) :
    collapseWs false x = collapseWs true x ∨
      collapseWs false x = ' ' :: collapseWs true x := by
  cases x with
  | nil => left; rfl
  | cons c cs =>
    by_cases hc : isPySpace c
    · right
      simp [collapseWs, hc]
    · left
      simp [collapseWs, hc]

theorem pyStrip_infix_self (z : List Char) : pyStrip z <:+: z := by
  have h1 : ∃ u, z = u ++ pyLStrip z := by
    unfold pyLStrip
    induction z with
    | nil => exact ⟨[], rfl⟩
    | cons c cs ih =>
      by_cases hc : isPySpace c
      · obtain ⟨u, hu⟩ := ih
        rw [List.dropWhile_cons_of_pos hc]
        exact ⟨c :: u, by rw [List.cons_append, ← hu]⟩
      · rw [List.dropWhile_cons_of_neg hc]
        exact ⟨[], rfl⟩
  obtain ⟨u, hu⟩ := h1
  obtain ⟨t, ht⟩ := pyRStrip_prefix (pyLStrip z)
  refine ⟨u, t, ?_⟩
  have hps : pyStrip z = pyRStrip (pyLStrip z) := rfl
  rw [hps, List.append_assoc, ← ht, ← hu]

theorem infix_pyLStrip {z w : List Char} (h : z <:+: w)
    (hh : ∀ c, z.head? = some c → isPySpace c = false) : z <:+: pyLStrip w := by
  induction w with
  | nil =>
    have : z = [] := List.eq_nil_of_infix_nil h
    subst this
    exact List.nil_infix
  | cons c cs ih =>
    by_cases hc : isPySpace c
    · rw [pyLStrip, List.dropWhile_cons_of_pos hc]
      obtain ⟨a, b, hab⟩ := h
      cases a with
      | nil =>
        cases z with
        | nil => exact List.nil_infix
        | cons zc zs =>
          simp only [List.nil_append, List.cons_append, List.cons.injEq] at hab
          have := hh zc rfl
          rw [hab.1] at this
          rw [this] at hc
          exact absurd hc (by simp)
      | cons ac as =>
        simp only [List.cons_append, List.cons.injEq] at hab
        exact ih ⟨as, b, hab.2⟩
    · rw [pyLStrip, List.dropWhile_cons_of_neg hc]
      exact h

theorem infix_pyStrip {z w : List Char} (h : z <:+: w)
    (hh : ∀ c, z.head? = some c → isPySpace c = false)
    (hl : ∀ c, z.getLast? = some c → isPySpace c = false) : z <:+: pyStrip w := by
  have h1 : z <:+: pyLStrip w := infix_pyLStrip h hh
  have h2 : z.reverse <:+: (pyLStrip w).reverse := infix_rev h1
  have h3 : z.reverse <:+: pyLStrip ((pyLStrip w).reverse) := by
    apply infix_pyLStrip h2
    intro c hc
    rw [List.head?_reverse] at hc
    exact hl c hc
  have h4 : z.reverse.reverse <:+: (pyLStrip ((pyLStrip w).reverse)).reverse := infix_rev h3
  rw [List.reverse_reverse] at h4
  exact h4

theorem infix_collapse_core {x y : List Char} (h : x <:+: y) :
    pyStrip (collapseWs false x) <:+: collapseWs false y := by
  obtain ⟨u, v, rfl⟩ := h
  rw [List.append_assoc]
  rw [collapseWs_append u false (x ++ v),
    collapseWs_append x (u.getLast?.elim false isPySpace) v]
  set f1 := u.getLast?.elim false isPySpace with hf1
  have hmid : pyStrip (collapseWs false x) <:+: collapseWs f1 x := by
    cases f1 with
    | false => exact pyStrip_infix_self _
    | true =>
      rcases collapseWs_true_false x with heq | heq
      · rw [← heq]
        exact pyStrip_infix_self _
      · have : pyStrip (collapseWs false x) = pyStrip (collapseWs true x) := by
          rw [heq, pyStrip_cons_space _ ' ' (by decide)]
        rw [this]
        exact pyStrip_infix_self _
  obtain ⟨a, b, hab⟩ := hmid
  exact ⟨collapseWs false u ++ a, b ++ collapseWs ((x.getLast?.elim f1 isPySpace)) v, by
    rw [← hab]
    simp⟩

theorem pyStrip_getLast (s : List Char) (c : Char) (h : (pyStrip s).getLast? = some c) :
    isPySpace c = false := by
  unfold pyStrip at h
  exact pyRStrip_last (pyLStrip s) c h

theorem qcNormalize_infix {p t : List Char} (h : p <:+: t) :
    qcNormalize p <:+: qcNormalize t := by
  unfold qcNormalize pyLower
  rw [List.map_map, List.map_map]
  have hmap := infix_map ((fun c => if qcKeepChar c then c else ' ') ∘ pyLowerChar) h
  have hcore := infix_collapse_core hmap
  exact infix_pyStrip hcore (pyStrip_head _) (pyStrip_getLast _)

theorem validateTextAux_iff (nocr : List Char) (ps : List (List Char)) :
    validateTextAux nocr ps = true ↔
      ∀ p ∈ ps, qcNormalize p = [] ∨ qcNormalize p <:+: nocr ∨
        (3 : ℚ) / 4 ≤ smRatio (qcNormalize p) nocr := by
  induction ps with
  | nil => simp [validateTextAux]
  | cons q qs ih =>
    unfold validateTextAux
    by_cases h1 : (qcNormalize q).isEmpty = true
    · rw [if_pos h1, ih]
      constructor
      · intro h p hp
        rcases List.mem_cons.mp hp with rfl | hp
        · exact Or.inl (by simpa using h1)
        · exact h p hp
      · intro h p hp
        exact h p (List.mem_cons_of_mem _ hp)
    · rw [if_neg h1]
      by_cases h2 : containsTok nocr (qcNormalize q) = true
      · rw [if_pos h2, ih]
        constructor
        · intro h p hp
          rcases List.mem_cons.mp hp with rfl | hp
          · exact Or.inr (Or.inl ((containsTok_iff _ _).mp h2))
          · exact h p hp
        · intro h p hp
          exact h p (List.mem_cons_of_mem _ hp)
      · by_cases h3 : phraseMatchB (qcNormalize q) nocr = true
        · rw [if_neg h2, if_pos h3, ih]
          have hr : (3 : ℚ) / 4 ≤ smRatio (qcNormalize q) nocr := by
            unfold phraseMatchB at h3
            rw [if_neg h1, if_neg h2] at h3
            exact (smRatioGe34_iff _ _).mp h3
          constructor
          · intro h p hp
            rcases List.mem_cons.mp hp with rfl | hp
            · exact Or.inr (Or.inr hr)
            · exact h p hp
          · intro h p hp
            exact h p (List.mem_cons_of_mem _ hp)
        · rw [if_neg h2, if_neg h3]
          constructor
          · intro hft
            exact absurd hft (by simp)
          · intro hall
            exfalso
            rcases hall q (List.mem_cons_self q qs) with he | hin | hrt
            · exact h1 (by simp [he])
            · exact h2 ((containsTok_iff _ _).mpr hin)
            · apply h3
              unfold phraseMatchB
              rw [if_neg h1, if_neg h2]
              exact (smRatioGe34_iff _ _).mpr hrt

/-- Claim C6: `validate_text` returns True iff every expected phrase whose
normalized form is non-empty is either a literal substring of the normalized
OCR text or has similarity ratio at least 0.75 against it; the two sample
strings normalize to equal strings; a phrase present verbatim in the OCR
text always passes; and a phrase whose non-empty normal form is absent and
dissimilar (ratio below 0.75) makes validation fail. -/
theorem C6_validate_text :
    (∀ (phrases : List (List Char)) (ocr : List Char),
        validate_text phrases ocr = true ↔
          ∀ p ∈ phrases, qcNormalize p = [] ∨
            qcNormalize p <:+: qcNormalize ocr ∨
            (3 : ℚ) / 4 ≤ smRatio (qcNormalize p) (qcNormalize ocr)) ∧
    qcNormalize ("Call (512) 555-0142!").data = qcNormalize ("call 512 555 0142").data ∧
    (∀ (p ocr : List Char), p <:+: ocr → validate_text [p] ocr = true) ∧
    (∀ (phrases : List (List Char)) (ocr p : List Char), p ∈ phrases →
        qcNormalize p ≠ [] → ¬ qcNormalize p <:+: qcNormalize ocr →
        smRatio (qcNormalize p) (qcNormalize ocr) < 3 / 4 →
        validate_text phrases ocr = false) := by
  refine ⟨?_, by rfl, ?_, ?_⟩
  · intro phrases ocr
    unfold validate_text
    exact validateTextAux_iff (qcNormalize ocr) phrases
  · intro p ocr h
    have hinf : qcNormalize p <:+: qcNormalize ocr := qcNormalize_infix h
    unfold validate_text validateTextAux
    by_cases h1 : (qcNormalize p).isEmpty = true
    · rw [if_pos h1]
      rfl
    · rw [if_neg h1, if_pos ((containsTok_iff _ _).mpr hinf)]
      rfl
  · intro phrases ocr p hp hne hni hlt
    have h1 : (qcNormalize p).isEmpty = false := by
      rcases hq : qcNormalize p with _ | ⟨c, cs⟩
      · exact absurd hq hne
      · rfl
    have h2 : containsTok (qcNormalize ocr) (qcNormalize p) = false := by
      rcases hb : containsTok (qcNormalize ocr) (qcNormalize p) with _ | _
      · rfl
      · exact absurd ((containsTok_iff _ _).mp hb) hni
    have h3 : phraseMatchB (qcNormalize p) (qcNormalize ocr) = false := by
      unfold phraseMatchB
      rw [if_neg (by simp [h1]), if_neg (by simp [h2])]
      rcases hb : smRatioGe34 (qcNormalize p) (qcNormalize ocr) with _ | _
      · rfl
      · exact absurd ((smRatioGe34_iff _ _).mp hb) (not_le.mpr hlt)
    unfold validate_text
    exact validateTextAux_false_of_mem _ _ p hp h1 h2 h3

theorem C6_validate_text_witness :
    validate_text [("hi").data] ("say hi there").data = true ∧
    validate_text [("mango").data] ("zzz qqq").data = false := by
  constructor
  · exact C6_validate_text.2.2.1 ("hi").data ("say hi there").data
      ⟨("say ").data, (" there").data, rfl⟩
  · exact C6_validate_text.2.2.2 [("mango").data] ("zzz qqq").data ("mango").data
      (by simp) (by decide) (by decide)
      (by by_contra hge
          push_neg at hge
          have hb := (smRatioGe34_iff (qcNormalize ("mango").data)
            (qcNormalize ("zzz qqq").data)).mpr hge
          rw [show smRatioGe34 (qcNormalize ("mango").data)
                (qcNormalize ("zzz qqq").data) = false from by decide] at hb
          exact absurd hb (by simp))

/-! ## Claim C7 — lemmas about the JSON parse sequence -/

theorem numStopOk_nil (v : Json) : numStopOk v [] = true := by
  cases v <;> rfl

theorem isJsonWs_isPySpace {c : Char} (h : isJsonWs c = true) : isPySpace c = true := by
  simp only [isJsonWs, Bool.or_eq_true, beq_iff_eq] at h
  rcases h with ((rfl | rfl) | rfl) | rfl <;> decide

theorem isJsonWs_not_ctrl {c : Char} (h : isJsonWs c = true) : isCtrlChar c = false := by
  simp only [isJsonWs, Bool.or_eq_true, beq_iff_eq] at h
  rcases h with ((rfl | rfl) | rfl) | rfl <;> decide

theorem skipJsonWs_append_ws {w : List Char} (h : w.all isJsonWs = true) (s : List Char) :
    skipJsonWs (w ++ s) = skipJsonWs s := by
  induction w with
  | nil => rfl
  | cons c cs ih =>
    simp only [List.all_cons, Bool.and_eq_true] at h
    rw [List.cons_append]
    unfold skipJsonWs
    rw [List.dropWhile_cons_of_pos h.1]
    exact ih h.2

theorem skipJsonWs_cons_not {c : Char} (h : isJsonWs c = false) (s : List Char) :
    skipJsonWs (c :: s) = c :: s := by
  unfold skipJsonWs
  rw [List.dropWhile_cons_of_neg (by simp [h])]

theorem skipJsonWs_eq_self {s : List Char} (h : ∀ c, s.head? = some c → isJsonWs c = false) :
    skipJsonWs s = s := by
  cases s with
  | nil => rfl
  | cons c cs => exact skipJsonWs_cons_not (h c rfl) cs

theorem skipJsonWs_decomp (s : List Char) :
    ∃ w, s = w ++ skipJsonWs s ∧ w.all isJsonWs = true := by
  refine ⟨s.takeWhile isJsonWs, (List.takeWhile_append_dropWhile isJsonWs s).symm, ?_⟩
  rw [List.all_eq_true]
  intro c hc
  exact List.mem_takeWhile_imp hc

theorem skipJsonWs_empty_all {s : List Char} (h : (skipJsonWs s).isEmpty = true) :
    s.all isJsonWs = true := by
  rw [List.isEmpty_iff] at h
  rw [List.all_eq_true]
  exact List.dropWhile_eq_nil_iff.mp h

theorem pyLStrip_append_of_head {w : List Char}
    (hw : ∀ c, w.head? = some c → isPySpace c = false) (u : List Char) :
    pyLStrip (u ++ w) = pyLStrip u ++ w := by
  induction u with
  | nil => simpa using pyLStrip_eq_self_of_head w hw
  | cons c cs ih =>
    by_cases hc : isPySpace c
    · show List.dropWhile isPySpace (c :: (cs ++ w)) = List.dropWhile isPySpace (c :: cs) ++ w
      rw [List.dropWhile_cons_of_pos hc, List.dropWhile_cons_of_pos hc]
      exact ih
    · show List.dropWhile isPySpace (c :: (cs ++ w)) = List.dropWhile isPySpace (c :: cs) ++ w
      rw [List.dropWhile_cons_of_neg hc, List.dropWhile_cons_of_neg hc]
      rfl

theorem pyLStrip_append_ws {w : List Char} (h : ∀ c ∈ w, isPySpace c = true) (s : List Char) :
    pyLStrip (w ++ s) = pyLStrip s := by
  induction w with
  | nil => rfl
  | cons c cs ih =>
    rw [List.cons_append]
    show List.dropWhile isPySpace (c :: (cs ++ s)) = pyLStrip s
    rw [List.dropWhile_cons_of_pos (h c (List.mem_cons_self c cs))]
    exact ih (fun d hd => h d (List.mem_cons_of_mem c hd))

theorem pyRStrip_append_of_last {u : List Char}
    (hu : ∀ c, u.getLast? = some c → isPySpace c = false) (w : List Char) :
    pyRStrip (u ++ w) = u ++ pyRStrip w := by
  have hh : ∀ c, u.reverse.head? = some c → isPySpace c = false := by
    intro c hc
    rw [List.head?_reverse] at hc
    exact hu c hc
  show (List.dropWhile isPySpace (u ++ w).reverse).reverse =
    u ++ (List.dropWhile isPySpace w.reverse).reverse
  rw [List.reverse_append]
  have h2 := pyLStrip_append_of_head hh w.reverse
  unfold pyLStrip at h2
  rw [h2, List.reverse_append, List.reverse_reverse]

theorem pyRStrip_append_ws {w : List Char} (h : ∀ c ∈ w, isPySpace c = true) (s : List Char) :
    pyRStrip (s ++ w) = pyRStrip s := by
  show (List.dropWhile isPySpace (s ++ w).reverse).reverse =
    (List.dropWhile isPySpace s.reverse).reverse
  rw [List.reverse_append]
  have h2 := pyLStrip_append_ws (fun c hc => h c (List.mem_reverse.mp hc)) s.reverse
  unfold pyLStrip at h2
  rw [h2]

theorem pyStrip_sandwich (w1 p w2 : List Char) (hne : p ≠ [])
    (h1 : ∀ c ∈ w1, isPySpace c = true) (h2 : ∀ c ∈ w2, isPySpace c = true)
    (hph : ∀ c, p.head? = some c → isPySpace c = false)
    (hpl : ∀ c, p.getLast? = some c → isPySpace c = false) :
    pyStrip (w1 ++ (p ++ w2)) = p := by
  unfold pyStrip
  rw [pyLStrip_append_ws h1 (p ++ w2)]
  have hh : pyLStrip (p ++ w2) = p ++ w2 := by
    apply pyLStrip_eq_self_of_head
    intro c hc
    rcases p with _ | ⟨a, as⟩
    · exact absurd rfl hne
    · rw [List.cons_append, List.head?_cons, Option.some.injEq] at hc
      subst hc
      exact hph a rfl
  rw [hh, pyRStrip_append_ws h2 p]
  exact pyRStrip_eq_self_of_last p hpl

theorem ctrlSub_eq_self {s : List Char} (h : ∀ c ∈ s, isCtrlChar c = false) :
    ctrlSub s = s := by
  unfold ctrlSub
  rw [List.filter_eq_self]
  intro c hc
  simp [h c hc]

theorem startsWithTok_self_append (u t : List Char) : startsWithTok (u ++ t) u = true :=
  (startsWithTok_iff (u ++ t) u).mpr ⟨t, rfl⟩

theorem containsTok_cons_split (c : Char) (cs pat : List Char) :
    containsTok (c :: cs) pat = (startsWithTok (c :: cs) pat || containsTok cs pat) := by
  rw [Bool.eq_iff_iff]
  simp only [Bool.or_eq_true, containsTok_iff, startsWithTok_iff]
  constructor
  · rintro ⟨u, v, huv⟩
    cases u with
    | nil =>
      exact Or.inl ⟨v, by simpa using huv.symm⟩
    | cons a as =>
      right
      refine ⟨as, v, ?_⟩
      have := congrArg List.tail huv
      simpa using this
  · rintro (⟨t, ht⟩ | ⟨u, v, huv⟩)
    · exact ⟨[], t, by simp [ht]⟩
    · refine ⟨c :: u, v, ?_⟩
      rw [List.cons_append, List.cons_append, huv]

theorem head_mem_of_containsTok {s : List Char} {c : Char} {cs : List Char}
    (h : containsTok s (c :: cs) = true) : c ∈ s := by
  obtain ⟨u, v, huv⟩ := (containsTok_iff s (c :: cs)).mp h
  rw [← huv]
  simp

theorem not_containsTok_of_not_mem {s : List Char} {c : Char} (h : c ∉ s) (cs : List Char) :
    containsTok s (c :: cs) = false := by
  rcases hb : containsTok s (c :: cs) with _ | _
  · rfl
  · exact absurd (head_mem_of_containsTok hb) h

theorem pyReplace_not_contains (p : Char) (ps repl : List Char) :
    ∀ s : List Char, containsTok s (p :: ps) = false → pyReplace p ps repl s = s := by
  intro s
  induction s with
  | nil =>
    intro _
    simp [pyReplace]
  | cons c cs ih =>
    intro h
    rw [containsTok_cons_split] at h
    simp only [Bool.or_eq_false_iff] at h
    rw [pyReplace, if_neg (by simp [h.1])]
    rw [ih h.2]

theorem pyReplace_append_no_head (p : Char) (ps repl : List Char) (u : List Char)
    (hu : ∀ c ∈ u, c ≠ p) (s : List Char) :
    pyReplace p ps repl (u ++ s) = u ++ pyReplace p ps repl s := by
  induction u with
  | nil => rfl
  | cons c cs ih =>
    have hc : c ≠ p := hu c (List.mem_cons_self c cs)
    rw [List.cons_append, pyReplace,
      if_neg (by simp [startsWithTok, hc])]
    rw [ih (fun d hd => hu d (List.mem_cons_of_mem c hd))]
    rfl

theorem pyReplace_head_match (p : Char) (ps repl t : List Char) :
    pyReplace p ps repl ((p :: ps) ++ t) = repl ++ pyReplace p ps repl t := by
  rw [List.cons_append, pyReplace,
    if_pos (by rw [← List.cons_append]; exact startsWithTok_self_append (p :: ps) t)]
  rw [List.drop_succ_cons, List.drop_left]

theorem stripFences_no_tick {s : List Char} (h : '`' ∉ s) : stripFences s = s := by
  unfold stripFences
  rw [pyReplace_not_contains '`' ("``json").data [] s (not_containsTok_of_not_mem h _),
    pyReplace_not_contains '`' ("``").data [] s (not_containsTok_of_not_mem h _)]

theorem not_ctrl_of_ge {c : Char} (h : 32 ≤ c.toNat) : isCtrlChar c = false := by
  simp only [isCtrlChar, Bool.or_eq_false_iff, Bool.and_eq_false_iff]
  refine ⟨⟨⟨?_, ?_⟩, ?_⟩, Or.inr ?_⟩ <;> simp <;> omega

theorem hex_not_ctrl {c : Char} (h : isHexDigitChar c = true) : isCtrlChar c = false := by
  apply not_ctrl_of_ge
  have h6 : (('0' ≤ c ∧ c ≤ '9') ∨ ('a' ≤ c ∧ c ≤ 'f')) ∨ ('A' ≤ c ∧ c ≤ 'F') := by
    simpa [isHexDigitChar] using h
  rcases h6 with (⟨h1, _⟩ | ⟨h1, _⟩) | ⟨h1, _⟩
  · have h5 : 48 ≤ c.toNat := h1
    omega
  · have h5 : 97 ≤ c.toNat := h1
    omega
  · have h5 : 65 ≤ c.toNat := h1
    omega

set_option maxHeartbeats 2000000 in
theorem scanStringBody_decomp (s : List Char) :
    ∀ cs t, scanStringBody s = some (cs, t) →
      ∃ q, s = q ++ '"' :: t ∧
        (∀ r, scanStringBody (q ++ '"' :: r) = some (cs, r)) ∧
        (∀ c ∈ q, isCtrlChar c = false) := by
  induction s using scanStringBody.induct with
  | case1 =>
    intro cs t h
    simp [scanStringBody] at h
  | case2 rest =>
    intro cs t h
    simp only [scanStringBody, Option.some.injEq, Prod.mk.injEq] at h
    obtain ⟨rfl, rfl⟩ := h
    exact ⟨[], rfl, fun r => rfl, by simp⟩
  | case3 rest ih =>
    intro cs t h
    simp only [scanStringBody, Option.map_eq_some'] at h
    obtain ⟨⟨cs1, t1⟩, h1, h2⟩ := h
    obtain ⟨rfl, rfl⟩ := Prod.mk.injEq .. |>.mp h2
    obtain ⟨q, hq, hres, hctrl⟩ := ih cs1 t1 h1
    refine ⟨'\\' :: '"' :: q, by simp [hq], ?_, ?_⟩
    · intro r
      simp only [List.cons_append, scanStringBody, List.append_eq, hres r, Option.map_some']
    · intro c hc
      simp only [List.mem_cons] at hc
      rcases hc with rfl | rfl | hc
      · decide
      · decide
      · exact hctrl c hc
  | case4 rest ih =>
    intro cs t h
    simp only [scanStringBody, Option.map_eq_some'] at h
    obtain ⟨⟨cs1, t1⟩, h1, h2⟩ := h
    obtain ⟨rfl, rfl⟩ := Prod.mk.injEq .. |>.mp h2
    obtain ⟨q, hq, hres, hctrl⟩ := ih cs1 t1 h1
    refine ⟨'\\' :: '\\' :: q, by simp [hq], ?_, ?_⟩
    · intro r
      simp only [List.cons_append, scanStringBody, List.append_eq, hres r, Option.map_some']
    · intro c hc
      simp only [List.mem_cons] at hc
      rcases hc with rfl | rfl | hc
      · decide
      · decide
      · exact hctrl c hc
  | case5 rest ih =>
    intro cs t h
    simp only [scanStringBody, Option.map_eq_some'] at h
    obtain ⟨⟨cs1, t1⟩, h1, h2⟩ := h
    obtain ⟨rfl, rfl⟩ := Prod.mk.injEq .. |>.mp h2
    obtain ⟨q, hq, hres, hctrl⟩ := ih cs1 t1 h1
    refine ⟨'\\' :: '/' :: q, by simp [hq], ?_, ?_⟩
    · intro r
      simp only [List.cons_append, scanStringBody, List.append_eq, hres r, Option.map_some']
    · intro c hc
      simp only [List.mem_cons] at hc
      rcases hc with rfl | rfl | hc
      · decide
      · decide
      · exact hctrl c hc
  | case6 rest ih =>
    intro cs t h
    simp only [scanStringBody, Option.map_eq_some'] at h
    obtain ⟨⟨cs1, t1⟩, h1, h2⟩ := h
    obtain ⟨rfl, rfl⟩ := Prod.mk.injEq .. |>.mp h2
    obtain ⟨q, hq, hres, hctrl⟩ := ih cs1 t1 h1
    refine ⟨'\\' :: 'b' :: q, by simp [hq], ?_, ?_⟩
    · intro r
      simp only [List.cons_append, scanStringBody, List.append_eq, hres r, Option.map_some']
    · intro c hc
      simp only [List.mem_cons] at hc
      rcases hc with rfl | rfl | hc
      · decide
      · decide
      · exact hctrl c hc
  | case7 rest ih =>
    intro cs t h
    simp only [scanStringBody, Option.map_eq_some'] at h
    obtain ⟨⟨cs1, t1⟩, h1, h2⟩ := h
    obtain ⟨rfl, rfl⟩ := Prod.mk.injEq .. |>.mp h2
    obtain ⟨q, hq, hres, hctrl⟩ := ih cs1 t1 h1
    refine ⟨'\\' :: 'f' :: q, by simp [hq], ?_, ?_⟩
    · intro r
      simp only [List.cons_append, scanStringBody, List.append_eq, hres r, Option.map_some']
    · intro c hc
      simp only [List.mem_cons] at hc
      rcases hc with rfl | rfl | hc
      · decide
      · decide
      · exact hctrl c hc
  | case8 rest ih =>
    intro cs t h
    simp only [scanStringBody, Option.map_eq_some'] at h
    obtain ⟨⟨cs1, t1⟩, h1, h2⟩ := h
    obtain ⟨rfl, rfl⟩ := Prod.mk.injEq .. |>.mp h2
    obtain ⟨q, hq, hres, hctrl⟩ := ih cs1 t1 h1
    refine ⟨'\\' :: 'n' :: q, by simp [hq], ?_, ?_⟩
    · intro r
      simp only [List.cons_append, scanStringBody, List.append_eq, hres r, Option.map_some']
    · intro c hc
      simp only [List.mem_cons] at hc
      rcases hc with rfl | rfl | hc
      · decide
      · decide
      · exact hctrl c hc
  | case9 rest ih =>
    intro cs t h
    simp only [scanStringBody, Option.map_eq_some'] at h
    obtain ⟨⟨cs1, t1⟩, h1, h2⟩ := h
    obtain ⟨rfl, rfl⟩ := Prod.mk.injEq .. |>.mp h2
    obtain ⟨q, hq, hres, hctrl⟩ := ih cs1 t1 h1
    refine ⟨'\\' :: 'r' :: q, by simp [hq], ?_, ?_⟩
    · intro r
      simp only [List.cons_append, scanStringBody, List.append_eq, hres r, Option.map_some']
    · intro c hc
      simp only [List.mem_cons] at hc
      rcases hc with rfl | rfl | hc
      · decide
      · decide
      · exact hctrl c hc
  | case10 rest ih =>
    intro cs t h
    simp only [scanStringBody, Option.map_eq_some'] at h
    obtain ⟨⟨cs1, t1⟩, h1, h2⟩ := h
    obtain ⟨rfl, rfl⟩ := Prod.mk.injEq .. |>.mp h2
    obtain ⟨q, hq, hres, hctrl⟩ := ih cs1 t1 h1
    refine ⟨'\\' :: 't' :: q, by simp [hq], ?_, ?_⟩
    · intro r
      simp only [List.cons_append, scanStringBody, List.append_eq, hres r, Option.map_some']
    · intro c hc
      simp only [List.mem_cons] at hc
      rcases hc with rfl | rfl | hc
      · decide
      · decide
      · exact hctrl c hc
  | case11 c1 c2 c3 c4 hhex v hvr d1 d2 d3 d4 rest2 hhex2 lo hlo ih =>
    have hvr2 : 55296 ≤ hex4Val c1 c2 c3 c4 ∧ hex4Val c1 c2 c3 c4 ≤ 56319 := hvr
    have hlo2 : 56320 ≤ hex4Val d1 d2 d3 d4 ∧ hex4Val d1 d2 d3 d4 ≤ 57343 := hlo
    intro cs t h
    simp only [scanStringBody, if_pos hhex, if_pos hvr2, if_pos hhex2, if_pos hlo2,
      Option.map_eq_some'] at h
    obtain ⟨⟨cs1, t1⟩, h1, h2⟩ := h
    obtain ⟨rfl, rfl⟩ := Prod.mk.injEq .. |>.mp h2
    obtain ⟨q, hq, hres, hctrl⟩ := ih cs1 t1 h1
    have hhp : ((isHexDigitChar c1 = true ∧ isHexDigitChar c2 = true) ∧
        isHexDigitChar c3 = true) ∧ isHexDigitChar c4 = true := by simpa using hhex
    have hhp2 : ((isHexDigitChar d1 = true ∧ isHexDigitChar d2 = true) ∧
        isHexDigitChar d3 = true) ∧ isHexDigitChar d4 = true := by simpa using hhex2
    refine ⟨'\\' :: 'u' :: c1 :: c2 :: c3 :: c4 :: '\\' :: 'u' :: d1 :: d2 :: d3 :: d4 :: q,
      by simp [hq], ?_, ?_⟩
    · intro r
      simp only [List.cons_append, scanStringBody, if_pos hhex, if_pos hvr2, if_pos hhex2,
        if_pos hlo2, List.append_eq, hres r, Option.map_some']
    · intro c hc
      simp only [List.mem_cons] at hc
      rcases hc with rfl | rfl | rfl | rfl | rfl | rfl | rfl | rfl | rfl | rfl | rfl | rfl | hc
      · decide
      · decide
      · exact hex_not_ctrl hhp.1.1.1
      · exact hex_not_ctrl hhp.1.1.2
      · exact hex_not_ctrl hhp.1.2
      · exact hex_not_ctrl hhp.2
      · decide
      · decide
      · exact hex_not_ctrl hhp2.1.1.1
      · exact hex_not_ctrl hhp2.1.1.2
      · exact hex_not_ctrl hhp2.1.2
      · exact hex_not_ctrl hhp2.2
      · exact hctrl c hc
  | case12 c1 c2 c3 c4 hhex v hvr d1 d2 d3 d4 rest2 hhex2 lo hlo =>
    have hvr2 : 55296 ≤ hex4Val c1 c2 c3 c4 ∧ hex4Val c1 c2 c3 c4 ≤ 56319 := hvr
    have hlo2 : ¬(56320 ≤ hex4Val d1 d2 d3 d4 ∧ hex4Val d1 d2 d3 d4 ≤ 57343) := hlo
    intro cs t h
    simp only [scanStringBody, if_pos hhex, if_pos hvr2, if_pos hhex2, if_neg hlo2] at h
    exact absurd h (by simp)
  | case13 c1 c2 c3 c4 hhex v hvr d1 d2 d3 d4 rest2 hhex2 =>
    have hvr2 : 55296 ≤ hex4Val c1 c2 c3 c4 ∧ hex4Val c1 c2 c3 c4 ≤ 56319 := hvr
    intro cs t h
    simp only [scanStringBody, if_pos hhex, if_pos hvr2, if_neg hhex2] at h
    exact absurd h (by simp)
  | case14 c1 c2 c3 c4 rest hhex v hvr hnm =>
    have hvr2 : 55296 ≤ hex4Val c1 c2 c3 c4 ∧ hex4Val c1 c2 c3 c4 ≤ 56319 := hvr
    intro cs t h
    simp only [scanStringBody, if_pos hhex, if_pos hvr2] at h
    exact absurd h (by simp)
  | case15 c1 c2 c3 c4 rest hhex v hnot hlo3 =>
    have hnot2 : ¬(55296 ≤ hex4Val c1 c2 c3 c4 ∧ hex4Val c1 c2 c3 c4 ≤ 56319) := hnot
    have hlo4 : 56320 ≤ hex4Val c1 c2 c3 c4 ∧ hex4Val c1 c2 c3 c4 ≤ 57343 := hlo3
    intro cs t h
    simp only [scanStringBody, if_pos hhex, if_neg hnot2, if_pos hlo4] at h
    exact absurd h (by simp)
  | case16 c1 c2 c3 c4 rest hhex v hnot hnot3 ih =>
    have hnot2 : ¬(55296 ≤ hex4Val c1 c2 c3 c4 ∧ hex4Val c1 c2 c3 c4 ≤ 56319) := hnot
    have hnot4 : ¬(56320 ≤ hex4Val c1 c2 c3 c4 ∧ hex4Val c1 c2 c3 c4 ≤ 57343) := hnot3
    intro cs t h
    simp only [scanStringBody, if_pos hhex, if_neg hnot2, if_neg hnot4,
      Option.map_eq_some'] at h
    obtain ⟨⟨cs1, t1⟩, h1, h2⟩ := h
    obtain ⟨rfl, rfl⟩ := Prod.mk.injEq .. |>.mp h2
    obtain ⟨q, hq, hres, hctrl⟩ := ih cs1 t1 h1
    have hhp : ((isHexDigitChar c1 = true ∧ isHexDigitChar c2 = true) ∧
        isHexDigitChar c3 = true) ∧ isHexDigitChar c4 = true := by simpa using hhex
    refine ⟨'\\' :: 'u' :: c1 :: c2 :: c3 :: c4 :: q, by simp [hq], ?_, ?_⟩
    · intro r
      simp only [List.cons_append, scanStringBody, if_pos hhex,
        if_neg hnot2, if_neg hnot4, List.append_eq, hres r, Option.map_some']
    · intro c hc
      simp only [List.mem_cons] at hc
      rcases hc with rfl | rfl | rfl | rfl | rfl | rfl | hc
      · decide
      · decide
      · exact hex_not_ctrl hhp.1.1.1
      · exact hex_not_ctrl hhp.1.1.2
      · exact hex_not_ctrl hhp.1.2
      · exact hex_not_ctrl hhp.2
      · exact hctrl c hc
  | case17 c1 c2 c3 c4 rest hhex =>
    intro cs t h
    simp only [scanStringBody, if_neg hhex] at h
    exact absurd h (by simp)
  | case18 esc h1 h2 h3 h4 h5 h6 h7 h8 h9 =>
    intro cs t h
    simp [scanStringBody] at h
  | case19 c rest hq hb hlt =>
    intro cs t h
    simp [scanStringBody, if_pos hlt] at h
  | case20 c rest hq hb hge ih =>
    intro cs t h
    simp only [scanStringBody, if_neg hge, Option.map_eq_some'] at h
    obtain ⟨⟨cs1, t1⟩, h1, h2⟩ := h
    obtain ⟨rfl, rfl⟩ := Prod.mk.injEq .. |>.mp h2
    obtain ⟨q, hq2, hres, hctrl⟩ := ih cs1 t1 h1
    refine ⟨c :: q, by simp [hq2], ?_, ?_⟩
    · intro r
      simp only [List.cons_append, scanStringBody, if_neg hge, List.append_eq, hres r, Option.map_some']
    · intro d hd
      simp only [List.mem_cons] at hd
      rcases hd with rfl | hd
      · simp only [isCtrlChar]
        have : 32 ≤ d.toNat := by omega
        simp only [Bool.or_eq_false_iff]
        refine ⟨⟨⟨by simp; omega, by simp; omega⟩, by simp; omega⟩, ?_⟩
        simp only [Bool.and_eq_false_iff]
        right
        simp
        omega
      · exact hctrl d hd

theorem digit_range {c : Char} (h : isDigitChar c = true) :
    48 ≤ c.toNat ∧ c.toNat ≤ 57 := by
  have h2 : '0' ≤ c ∧ c ≤ '9' := by simpa [isDigitChar] using h
  exact ⟨h2.1, h2.2⟩

theorem scanDigits_eq (s : List Char) :
    scanDigits s = (s.takeWhile isDigitChar, s.dropWhile isDigitChar) := by
  induction s with
  | nil => rfl
  | cons c cs ih =>
    by_cases hc : isDigitChar c = true
    · simp only [scanDigits, if_pos hc, ih, List.takeWhile_cons_of_pos hc,
        List.dropWhile_cons_of_pos hc]
    · simp only [scanDigits, if_neg hc, List.takeWhile_cons_of_neg (by simpa using hc),
        List.dropWhile_cons_of_neg (by simpa using hc)]

theorem scanDigits_append (ds Y : List Char) (hds : ∀ c ∈ ds, isDigitChar c = true)
    (hY : ∀ c, Y.head? = some c → isDigitChar c = false) :
    scanDigits (ds ++ Y) = (ds, Y) := by
  induction ds with
  | nil =>
    cases Y with
    | nil => rfl
    | cons y ys =>
      have hy : isDigitChar y = false := hY y rfl
      rw [List.nil_append]
      simp only [scanDigits]
      rw [if_neg (by simp [hy])]
  | cons d ds2 ih =>
    have hd := hds d (List.mem_cons_self d ds2)
    simp only [List.cons_append, scanDigits, if_pos hd, List.append_eq,
      ih (fun c hc => hds c (List.mem_cons_of_mem d hc))]

theorem scanFrac_decomp (s f r : List Char) (h : scanFrac s = (f, r)) :
    s = f ++ r ∧
      (f = [] ∨ ∃ ds, f = '.' :: ds ∧ ds ≠ [] ∧ ∀ c ∈ ds, isDigitChar c = true) := by
  cases s with
  | nil =>
    simp only [scanFrac] at h
    obtain ⟨rfl, rfl⟩ := Prod.mk.injEq .. |>.mp h
    exact ⟨rfl, Or.inl rfl⟩
  | cons c cs =>
    by_cases hc : c = '.'
    · subst hc
      cases htw : cs.takeWhile isDigitChar with
      | nil =>
        simp only [scanFrac, scanDigits_eq, htw] at h
        obtain ⟨rfl, rfl⟩ := Prod.mk.injEq .. |>.mp h
        exact ⟨rfl, Or.inl rfl⟩
      | cons d ds =>
        simp only [scanFrac, scanDigits_eq, htw] at h
        obtain ⟨rfl, rfl⟩ := Prod.mk.injEq .. |>.mp h
        refine ⟨?_, Or.inr ⟨d :: ds, rfl, by simp, ?_⟩⟩
        · have hsplit := List.takeWhile_append_dropWhile isDigitChar cs
          rw [htw] at hsplit
          conv_lhs => rw [← hsplit]
          simp
        · intro c hc
          rw [← htw] at hc
          exact List.mem_takeWhile_imp hc
    · unfold scanFrac at h
      split at h
      · rename_i rest heq
        exact absurd heq (by simp [hc])
      · obtain ⟨rfl, rfl⟩ := Prod.mk.injEq .. |>.mp h
        exact ⟨rfl, Or.inl rfl⟩

theorem scanFrac_none (X : List Char) (hX : ∀ c, X.head? = some c → c ≠ '.') :
    scanFrac X = ([], X) := by
  cases X with
  | nil => rfl
  | cons c cs =>
    have hc : c ≠ '.' := hX c rfl
    unfold scanFrac
    split
    · rename_i rest heq
      exact absurd heq (by simp [hc])
    · rfl

theorem scanFrac_cons (ds Y : List Char) (hne : ds ≠ [])
    (hds : ∀ c ∈ ds, isDigitChar c = true)
    (hY : ∀ c, Y.head? = some c → isDigitChar c = false) :
    scanFrac ('.' :: (ds ++ Y)) = ('.' :: ds, Y) := by
  rcases ds with _ | ⟨d, ds2⟩
  · exact absurd rfl hne
  · simp only [scanFrac, scanDigits_append (d :: ds2) Y hds hY]

theorem scanExp_none (X : List Char)
    (hX : ∀ c, X.head? = some c → (c == 'e' || c == 'E') = false) :
    scanExp X = ([], X) := by
  cases X with
  | nil => rfl
  | cons c cs =>
    simp only [scanExp]
    rw [if_neg (by simp [hX c rfl])]

theorem scanExp_decomp (s e r : List Char) (h : scanExp s = (e, r)) :
    s = e ++ r ∧
      (e = [] ∨ ∃ e0 sgn ds, e = e0 :: (sgn ++ ds) ∧ (e0 == 'e' || e0 == 'E') = true ∧
        (sgn = [] ∨ sgn = ['+'] ∨ sgn = ['-']) ∧ ds ≠ [] ∧ ∀ c ∈ ds, isDigitChar c = true) := by
  cases s with
  | nil =>
    simp only [scanExp] at h
    obtain ⟨rfl, rfl⟩ := Prod.mk.injEq .. |>.mp h
    exact ⟨rfl, Or.inl rfl⟩
  | cons c cs =>
    by_cases hcond : (c == 'e' || c == 'E') = true
    · rcases cs with _ | ⟨c2, cs2⟩
      · simp only [scanExp, if_pos hcond, scanDigits] at h
        obtain ⟨rfl, rfl⟩ := Prod.mk.injEq .. |>.mp h
        exact ⟨rfl, Or.inl rfl⟩
      · by_cases h2p : c2 = '+'
        · subst h2p
          cases htw : cs2.takeWhile isDigitChar with
          | nil =>
            simp only [scanExp, if_pos hcond, scanDigits_eq, htw] at h
            obtain ⟨rfl, rfl⟩ := Prod.mk.injEq .. |>.mp h
            exact ⟨rfl, Or.inl rfl⟩
          | cons d ds =>
            simp only [scanExp, if_pos hcond, scanDigits_eq, htw] at h
            obtain ⟨rfl, rfl⟩ := Prod.mk.injEq .. |>.mp h
            have hsplit := List.takeWhile_append_dropWhile isDigitChar cs2
            rw [htw] at hsplit
            refine ⟨by (conv_lhs => rw [← hsplit]); simp, Or.inr ⟨c, ['+'], d :: ds, by simp,
              hcond, Or.inr (Or.inl rfl), by simp, ?_⟩⟩
            intro x hx
            rw [← htw] at hx
            exact List.mem_takeWhile_imp hx
        · by_cases h2m : c2 = '-'
          · subst h2m
            cases htw : cs2.takeWhile isDigitChar with
            | nil =>
              simp only [scanExp, if_pos hcond, scanDigits_eq, htw] at h
              obtain ⟨rfl, rfl⟩ := Prod.mk.injEq .. |>.mp h
              exact ⟨rfl, Or.inl rfl⟩
            | cons d ds =>
              simp only [scanExp, if_pos hcond, scanDigits_eq, htw] at h
              obtain ⟨rfl, rfl⟩ := Prod.mk.injEq .. |>.mp h
              have hsplit := List.takeWhile_append_dropWhile isDigitChar cs2
              rw [htw] at hsplit
              refine ⟨by (conv_lhs => rw [← hsplit]); simp, Or.inr ⟨c, ['-'], d :: ds, by simp,
                hcond, Or.inr (Or.inr rfl), by simp, ?_⟩⟩
              intro x hx
              rw [← htw] at hx
              exact List.mem_takeWhile_imp hx
          · rw [show scanExp (c :: c2 :: cs2) =
                (match scanDigits (c2 :: cs2) with
                 | ([], _) => ([], c :: c2 :: cs2)
                 | (ds, r) => (c :: ds, r)) from by
              simp only [scanExp, if_pos hcond]
              split
              · rename_i rest2 heq
                exact absurd heq (by simp [h2p])
              · rename_i rest2 heq
                exact absurd heq (by simp [h2m])
              · rfl] at h
            cases htw : (c2 :: cs2).takeWhile isDigitChar with
            | nil =>
              simp only [scanDigits_eq, htw] at h
              obtain ⟨rfl, rfl⟩ := Prod.mk.injEq .. |>.mp h
              exact ⟨rfl, Or.inl rfl⟩
            | cons d ds =>
              simp only [scanDigits_eq, htw] at h
              obtain ⟨rfl, rfl⟩ := Prod.mk.injEq .. |>.mp h
              have hsplit := List.takeWhile_append_dropWhile isDigitChar (c2 :: cs2)
              rw [htw] at hsplit
              refine ⟨by (conv_lhs => rw [← hsplit]); simp, Or.inr ⟨c, [], d :: ds, by simp,
                hcond, Or.inl rfl, by simp, ?_⟩⟩
              intro x hx
              rw [← htw] at hx
              exact List.mem_takeWhile_imp hx
    · simp only [scanExp] at h
      rw [if_neg hcond] at h
      obtain ⟨rfl, rfl⟩ := Prod.mk.injEq .. |>.mp h
      exact ⟨rfl, Or.inl rfl⟩

theorem scanExp_tok (e0 : Char) (he : (e0 == 'e' || e0 == 'E') = true)
    (sgn ds Y : List Char) (hsgn : sgn = [] ∨ sgn = ['+'] ∨ sgn = ['-'])
    (hne : ds ≠ []) (hds : ∀ c ∈ ds, isDigitChar c = true)
    (hY : ∀ c, Y.head? = some c → isDigitChar c = false) :
    scanExp ((e0 :: (sgn ++ ds)) ++ Y) = (e0 :: (sgn ++ ds), Y) := by
  rcases ds with _ | ⟨d, ds2⟩
  · exact absurd rfl hne
  have hd := hds d (List.mem_cons_self d ds2)
  have h48 := digit_range hd
  rcases hsgn with rfl | rfl | rfl
  · have hdp : d ≠ '+' := by
      intro hh
      subst hh
      exact absurd h48.1 (by decide)
    have hdm : d ≠ '-' := by
      intro hh
      subst hh
      exact absurd h48.1 (by decide)
    simp only [List.nil_append, List.cons_append, scanExp, if_pos he]
    split
    · rename_i rest2 heq
      exact absurd heq (by simp [hdp])
    · rename_i rest2 heq
      exact absurd heq (by simp [hdm])
    · rw [show d :: (ds2 ++ Y) = (d :: ds2) ++ Y from rfl]
      simp only [scanDigits_append (d :: ds2) Y hds hY]
  · simp only [List.cons_append, List.nil_append, scanExp, if_pos he]
    rw [show d :: (ds2 ++ Y) = (d :: ds2) ++ Y from rfl]
    simp only [scanDigits_append (d :: ds2) Y hds hY]
  · simp only [List.cons_append, List.nil_append, scanExp, if_pos he]
    rw [show d :: (ds2 ++ Y) = (d :: ds2) ++ Y from rfl]
    simp only [scanDigits_append (d :: ds2) Y hds hY]

theorem fracExpScan (f1 e1 : List Char)
    (hf : f1 = [] ∨ ∃ ds, f1 = '.' :: ds ∧ ds ≠ [] ∧ ∀ c ∈ ds, isDigitChar c = true)
    (he : e1 = [] ∨ ∃ e0 sgn ds, e1 = e0 :: (sgn ++ ds) ∧ (e0 == 'e' || e0 == 'E') = true ∧
        (sgn = [] ∨ sgn = ['+'] ∨ sgn = ['-']) ∧ ds ≠ [] ∧ ∀ c ∈ ds, isDigitChar c = true)
    (r2 : List Char)
    (hstop : ∀ c, r2.head? = some c →
        (isDigitChar c || c == '.' || c == 'e' || c == 'E') = false) :
    scanFrac (f1 ++ (e1 ++ r2)) = (f1, e1 ++ r2) ∧ scanExp (e1 ++ r2) = (e1, r2) := by
  have hr2d : ∀ c, r2.head? = some c → isDigitChar c = false := by
    intro c hc
    have h2 := hstop c hc
    simp only [Bool.or_eq_false_iff] at h2
    exact h2.1.1.1
  have hr2dot : ∀ c, r2.head? = some c → c ≠ '.' := by
    intro c hc heq
    subst heq
    exact absurd (hstop '.' hc) (by decide)
  have hr2e : ∀ c, r2.head? = some c → (c == 'e' || c == 'E') = false := by
    intro c hc
    have h2 := hstop c hc
    simp only [Bool.or_eq_false_iff] at h2
    exact Bool.or_eq_false_iff.mpr ⟨h2.1.2, h2.2⟩
  have hexp : scanExp (e1 ++ r2) = (e1, r2) := by
    rcases he with rfl | ⟨e0, sgn, ds, rfl, he0, hsgn, hne, hds⟩
    · rw [List.nil_append]
      exact scanExp_none r2 hr2e
    · exact scanExp_tok e0 he0 sgn ds r2 hsgn hne hds hr2d
  refine ⟨?_, hexp⟩
  have hheadT : ∀ c, (e1 ++ r2).head? = some c → c ≠ '.' ∧ isDigitChar c = false := by
    intro c hc
    rcases he with rfl | ⟨e0, sgn, ds, rfl, he0, hsgn, hne, hds⟩
    · rw [List.nil_append] at hc
      exact ⟨hr2dot c hc, hr2d c hc⟩
    · rw [List.cons_append, List.head?_cons, Option.some.injEq] at hc
      have he02 : e0 = 'e' ∨ e0 = 'E' := by simpa using he0
      rw [← hc]
      rcases he02 with rfl | rfl
      · exact ⟨by decide, by decide⟩
      · exact ⟨by decide, by decide⟩
  rcases hf with rfl | ⟨ds, rfl, hne, hds⟩
  · rw [List.nil_append]
    exact scanFrac_none _ (fun c hc => (hheadT c hc).1)
  · rw [List.cons_append]
    exact scanFrac_cons ds (e1 ++ r2) hne hds (fun c hc => (hheadT c hc).2)

theorem numTail_last (c0 : Char) (hc0 : isDigitChar c0 = true) (mid f1 e1 : List Char)
    (hmid : ∀ c ∈ mid, isDigitChar c = true)
    (hf : f1 = [] ∨ ∃ ds, f1 = '.' :: ds ∧ ds ≠ [] ∧ ∀ c ∈ ds, isDigitChar c = true)
    (he : e1 = [] ∨ ∃ e0 sgn ds, e1 = e0 :: (sgn ++ ds) ∧ (e0 == 'e' || e0 == 'E') = true ∧
        (sgn = [] ∨ sgn = ['+'] ∨ sgn = ['-']) ∧ ds ≠ [] ∧ ∀ c ∈ ds, isDigitChar c = true) :
    ∃ d, (c0 :: (mid ++ (f1 ++ e1))).getLast? = some d ∧ isDigitChar d = true := by
  have hlastds : ∀ ds : List Char, ds ≠ [] → (∀ c ∈ ds, isDigitChar c = true) →
      ∃ d, ds.getLast? = some d ∧ isDigitChar d = true := by
    intro ds hne hds
    refine ⟨ds.getLast hne, List.getLast?_eq_getLast ds hne, hds _ (List.getLast_mem hne)⟩
  have hstep : ∀ (a : List Char) (b : List Char), b ≠ [] →
      (∃ d, b.getLast? = some d ∧ isDigitChar d = true) →
      ∃ d, (a ++ b).getLast? = some d ∧ isDigitChar d = true := by
    rintro a b hbne ⟨d, hd, hdd⟩
    exact ⟨d, by rw [List.getLast?_append_of_ne_nil a hbne]; exact hd, hdd⟩
  rcases he with rfl | ⟨e0, sgn, ds, rfl, he0, hsgn, hne, hds⟩
  · rcases hf with rfl | ⟨ds, rfl, hne, hds⟩
    · rcases mid with _ | ⟨m, ms⟩
      · exact ⟨c0, rfl, hc0⟩
      · simp only [List.append_nil]
        exact hstep [c0] (m :: ms) (by simp) (hlastds (m :: ms) (by simp) hmid)
    · simp only [List.append_nil]
      have h2 := hstep ['.'] ds hne (hlastds ds hne hds)
      have h3 := hstep (c0 :: mid) ('.' :: ds) (by simp) (by simpa using h2)
      simpa using h3
  · have h2 := hstep (e0 :: sgn) ds hne (hlastds ds hne hds)
    have h3 := hstep (c0 :: (mid ++ f1)) (e0 :: (sgn ++ ds)) (by simp) (by simpa using h2)
    refine ⟨h3.choose, ?_, h3.choose_spec.2⟩
    have := h3.choose_spec.1
    simpa using this

theorem numTail_charset (c0 : Char) (hc0 : isDigitChar c0 = true) (mid f1 e1 : List Char)
    (hmid : ∀ c ∈ mid, isDigitChar c = true)
    (hf : f1 = [] ∨ ∃ ds, f1 = '.' :: ds ∧ ds ≠ [] ∧ ∀ c ∈ ds, isDigitChar c = true)
    (he : e1 = [] ∨ ∃ e0 sgn ds, e1 = e0 :: (sgn ++ ds) ∧ (e0 == 'e' || e0 == 'E') = true ∧
        (sgn = [] ∨ sgn = ['+'] ∨ sgn = ['-']) ∧ ds ≠ [] ∧ ∀ c ∈ ds, isDigitChar c = true) :
    ∀ c ∈ c0 :: (mid ++ (f1 ++ e1)), 43 ≤ c.toNat ∧ c.toNat ≤ 101 := by
  have hdig : ∀ c : Char, isDigitChar c = true → 43 ≤ c.toNat ∧ c.toNat ≤ 101 := by
    intro c hc
    have := digit_range hc
    omega
  intro c hc
  simp only [List.mem_cons, List.mem_append] at hc
  rcases hc with rfl | (hc | (hc | hc))
  · exact hdig c hc0
  · exact hdig c (hmid c hc)
  · rcases hf with rfl | ⟨ds, rfl, hne, hds⟩
    · simp at hc
    · simp only [List.mem_cons] at hc
      rcases hc with rfl | hc
      · exact ⟨by decide, by decide⟩
      · exact hdig c (hds c hc)
  · rcases he with rfl | ⟨e0, sgn, ds, rfl, he0, hsgn, hne, hds⟩
    · simp at hc
    · simp only [List.mem_cons, List.mem_append] at hc
      rcases hc with rfl | (hc | hc)
      · have he02 : c = 'e' ∨ c = 'E' := by simpa using he0
        rcases he02 with rfl | rfl
        · exact ⟨by decide, by decide⟩
        · exact ⟨by decide, by decide⟩
      · rcases hsgn with rfl | rfl | rfl
        · simp at hc
        · simp only [List.mem_singleton] at hc
          subst hc
          exact ⟨by decide, by decide⟩
        · simp only [List.mem_singleton] at hc
          subst hc
          exact ⟨by decide, by decide⟩
      · exact hdig c (hds c hc)

theorem scanUNum_master (s u r : List Char) (h : scanUNum s = some (u, r)) :
    s = u ++ r ∧
    (∀ r2, (∀ c, r2.head? = some c →
        (isDigitChar c || c == '.' || c == 'e' || c == 'E') = false) →
      scanUNum (u ++ r2) = some (u, r2)) ∧
    (∃ d ds, u = d :: ds ∧ isDigitChar d = true) ∧
    (∃ d, u.getLast? = some d ∧ isDigitChar d = true) ∧
    (∀ c ∈ u, 43 ≤ c.toNat ∧ c.toNat ≤ 101) := by
  cases s with
  | nil => simp [scanUNum] at h
  | cons c cs =>
    by_cases hc0 : c = '0'
    · subst hc0
      rcases hfr : scanFrac cs with ⟨f1, fr⟩
      rcases hex : scanExp fr with ⟨e1, er⟩
      simp only [scanUNum, hfr, hex] at h
      rw [Option.some.injEq] at h
      obtain ⟨rfl, rfl⟩ := Prod.mk.injEq .. |>.mp h
      obtain ⟨hfd, hfs⟩ := scanFrac_decomp cs f1 fr hfr
      obtain ⟨hed, hes⟩ := scanExp_decomp fr e1 er hex
      have hform : '0' :: f1 ++ e1 = '0' :: ([] ++ (f1 ++ e1)) := by simp
      refine ⟨?_, ?_, ⟨'0', f1 ++ e1, by simp, by decide⟩, ?_, ?_⟩
      · rw [hfd, hed]
        simp
      · intro r2 hstop
        obtain ⟨hfrac, hexp⟩ := fracExpScan f1 e1 hfs hes r2 hstop
        have heq2 : ('0' :: f1 ++ e1) ++ r2 = '0' :: (f1 ++ (e1 ++ r2)) := by simp
        rw [heq2]
        simp only [scanUNum, hfrac, hexp]
      · rw [hform]
        exact numTail_last '0' (by decide) [] f1 e1 (by simp) hfs hes
      · rw [hform]
        exact numTail_charset '0' (by decide) [] f1 e1 (by simp) hfs hes
    · have hsplit : scanUNum (c :: cs) =
          (if ('1' ≤ c && c ≤ '9') = true then
            some (c :: (scanDigits cs).1 ++ (scanFrac (scanDigits cs).2).1 ++
              (scanExp (scanFrac (scanDigits cs).2).2).1,
              (scanExp (scanFrac (scanDigits cs).2).2).2)
          else none) := by
        unfold scanUNum
        split
        · rename_i rest heq
          exact absurd heq (by simp [hc0])
        · rename_i x c2 rest2 hne heq
          injection heq with e1 e2
          subst e1
          subst e2
          rfl
        · rename_i x heq
          exact absurd heq (by simp)
      rw [hsplit] at h
      by_cases h19 : ('1' ≤ c && c ≤ '9') = true
      · rw [if_pos h19] at h
        rcases hdg : scanDigits cs with ⟨d1, dr⟩
        rcases hfr : scanFrac dr with ⟨f1, fr⟩
        rcases hex : scanExp fr with ⟨e1, er⟩
        simp only [hdg, hfr, hex] at h
        rw [Option.some.injEq] at h
        obtain ⟨rfl, rfl⟩ := Prod.mk.injEq .. |>.mp h
        have hcd : isDigitChar c = true := by
          have h2 : '1' ≤ c ∧ c ≤ '9' := by simpa using h19
          have h3 : 49 ≤ c.toNat := h2.1
          have h4 : c.toNat ≤ 57 := h2.2
          simp only [isDigitChar]
          have h5 : ('0' : Char) ≤ c := by
            show (48 : Nat) ≤ c.toNat
            omega
          simp [h5, h2.2]
        have hd1 : ∀ x ∈ d1, isDigitChar x = true := by
          intro x hx
          have := scanDigits_eq cs
          rw [hdg] at this
          have hd1eq : d1 = cs.takeWhile isDigitChar := congrArg Prod.fst this
          rw [hd1eq] at hx
          exact List.mem_takeWhile_imp hx
        obtain ⟨hfd, hfs⟩ := scanFrac_decomp dr f1 fr hfr
        obtain ⟨hed, hes⟩ := scanExp_decomp fr e1 er hex
        have hcsd : cs = d1 ++ dr := by
          have := scanDigits_eq cs
          rw [hdg] at this
          have h1 : d1 = cs.takeWhile isDigitChar := congrArg Prod.fst this
          have h2 : dr = cs.dropWhile isDigitChar := congrArg Prod.snd this
          rw [h1, h2]
          exact (List.takeWhile_append_dropWhile isDigitChar cs).symm
        have hform : c :: d1 ++ f1 ++ e1 = c :: (d1 ++ (f1 ++ e1)) := by simp
        refine ⟨?_, ?_, ⟨c, d1 ++ f1 ++ e1, by simp, hcd⟩, ?_, ?_⟩
        · rw [hcsd, hfd, hed]
          simp
        · intro r2 hstop
          obtain ⟨hfrac, hexp⟩ := fracExpScan f1 e1 hfs hes r2 hstop
          have hheadX : ∀ x, (f1 ++ (e1 ++ r2)).head? = some x → isDigitChar x = false := by
            intro x hx
            rcases hfs with rfl | ⟨ds, rfl, hne, hds⟩
            · rw [List.nil_append] at hx
              rcases hes with rfl | ⟨e0, sgn, ds, rfl, he0, hsgn, hne, hds⟩
              · rw [List.nil_append] at hx
                have h2 := hstop x hx
                simp only [Bool.or_eq_false_iff] at h2
                exact h2.1.1.1
              · rw [List.cons_append, List.head?_cons, Option.some.injEq] at hx
                have he02 : e0 = 'e' ∨ e0 = 'E' := by simpa using he0
                rw [← hx]
                rcases he02 with rfl | rfl
                · decide
                · decide
            · rw [List.cons_append, List.head?_cons, Option.some.injEq] at hx
              rw [← hx]
              decide
          have hDres : scanDigits (d1 ++ (f1 ++ (e1 ++ r2))) = (d1, f1 ++ (e1 ++ r2)) :=
            scanDigits_append d1 (f1 ++ (e1 ++ r2)) hd1 hheadX
          have heq2 : (c :: d1 ++ f1 ++ e1) ++ r2 = c :: (d1 ++ (f1 ++ (e1 ++ r2))) := by
            simp
          rw [heq2]
          have hsplit2 : scanUNum (c :: (d1 ++ (f1 ++ (e1 ++ r2)))) =
              (if ('1' ≤ c && c ≤ '9') = true then
                some (c :: (scanDigits (d1 ++ (f1 ++ (e1 ++ r2)))).1 ++
                  (scanFrac (scanDigits (d1 ++ (f1 ++ (e1 ++ r2)))).2).1 ++
                  (scanExp (scanFrac (scanDigits (d1 ++ (f1 ++ (e1 ++ r2)))).2).2).1,
                  (scanExp (scanFrac (scanDigits (d1 ++ (f1 ++ (e1 ++ r2)))).2).2).2)
              else none) := by
            unfold scanUNum
            split
            · rename_i rest heq
              exact absurd heq (by simp [hc0])
            · rename_i x c2 rest2 hne heq
              injection heq with e1 e2
              subst e1
              subst e2
              rfl
            · rename_i x heq
              exact absurd heq (by simp)
          rw [hsplit2, if_pos h19]
          simp only [hDres, hfrac, hexp]
        · rw [hform]
          exact numTail_last c hcd d1 f1 e1 hd1 hfs hes
        · rw [hform]
          exact numTail_charset c hcd d1 f1 e1 hd1 hfs hes
      · rw [if_neg h19] at h
        exact absurd h (by simp)

theorem scanNumTok_master (s t r : List Char) (h : scanNumTok s = some (t, r)) :
    s = t ++ r ∧
    (∀ r2, (∀ c, r2.head? = some c →
        (isDigitChar c || c == '.' || c == 'e' || c == 'E') = false) →
      scanNumTok (t ++ r2) = some (t, r2)) ∧
    (∃ d ds, t = d :: ds ∧ (d = '-' ∨ isDigitChar d = true)) ∧
    (∃ d, t.getLast? = some d ∧ isDigitChar d = true) ∧
    (∀ c ∈ t, 43 ≤ c.toNat ∧ c.toNat ≤ 101) := by
  cases s with
  | nil => simp [scanNumTok, scanUNum] at h
  | cons c cs =>
    by_cases hcm : c = '-'
    · subst hcm
      simp only [scanNumTok, Option.map_eq_some'] at h
      obtain ⟨⟨u, r1⟩, h1, h2⟩ := h
      obtain ⟨rfl, rfl⟩ := Prod.mk.injEq .. |>.mp h2
      obtain ⟨hsd, hres, ⟨d, ds, hu, hdd⟩, ⟨dl, hdl, hdld⟩, hchar⟩ :=
        scanUNum_master cs u r1 h1
      refine ⟨by rw [hsd]; rfl, ?_, ⟨'-', u, rfl, Or.inl rfl⟩, ?_, ?_⟩
      · intro r2 hstop
        have heq2 : ('-' :: u) ++ r2 = '-' :: (u ++ r2) := rfl
        rw [heq2]
        simp only [scanNumTok, hres r2 hstop, Option.map_some']
      · refine ⟨dl, ?_, hdld⟩
        rw [show ('-' :: u).getLast? = (['-'] ++ u).getLast? from rfl,
          List.getLast?_append_of_ne_nil ['-'] (by rw [hu]; simp)]
        exact hdl
      · intro x hx
        simp only [List.mem_cons] at hx
        rcases hx with rfl | hx
        · exact ⟨by decide, by decide⟩
        · exact hchar x hx
    · have hsplit : scanNumTok (c :: cs) = scanUNum (c :: cs) := by
        unfold scanNumTok
        split
        · rename_i rest heq
          exact absurd heq (by simp [hcm])
        · rfl
      rw [hsplit] at h
      obtain ⟨hsd, hres, ⟨d, ds, ht, hdd⟩, hlast, hchar⟩ := scanUNum_master _ _ _ h
      refine ⟨hsd, ?_, ⟨d, ds, ht, Or.inr hdd⟩, hlast, hchar⟩
      intro r2 hstop
      have hdm : d ≠ '-' := by
        intro hh
        subst hh
        have := digit_range hdd
        exact absurd this.1 (by decide)
      rw [ht]
      have hsplit2 : scanNumTok (d :: (ds ++ r2)) = scanUNum (d :: (ds ++ r2)) := by
        unfold scanNumTok
        split
        · rename_i rest heq
          exact absurd heq (by simp [hdm])
        · rfl
      rw [List.cons_append, hsplit2, ← List.cons_append, ← ht]
      exact hres r2 hstop

theorem not_space_of_ge {c : Char} (h : 43 ≤ c.toNat) :
    isJsonWs c = false ∧ isPySpace c = false := by
  have hne : ∀ d : Char, d.toNat < 43 → c ≠ d := by
    intro d hd heq
    rw [heq] at h
    omega
  constructor
  · simp only [isJsonWs, Bool.or_eq_false_iff, beq_eq_false_iff_ne, ne_eq]
    exact ⟨⟨⟨hne ' ' (by decide), hne '\t' (by decide)⟩, hne '\n' (by decide)⟩,
      hne '\x0d' (by decide)⟩
  · simp only [isPySpace, Bool.or_eq_false_iff, beq_eq_false_iff_ne, ne_eq]
    exact ⟨⟨⟨⟨⟨hne ' ' (by decide), hne '\t' (by decide)⟩, hne '\n' (by decide)⟩,
      hne '\x0d' (by decide)⟩, hne (Char.ofNat 11) (by decide)⟩, hne (Char.ofNat 12) (by decide)⟩

theorem ws_not_numext {c : Char} (h : isJsonWs c = true) :
    (isDigitChar c || c == '.' || c == 'e' || c == 'E') = false := by
  simp only [isJsonWs, Bool.or_eq_true, beq_iff_eq] at h
  rcases h with ((rfl | rfl) | rfl) | rfl <;> decide

theorem numStopOk_wsdelim (v : Json) (w : List Char) (hw : w.all isJsonWs = true)
    (b : Char) (hb : (isDigitChar b || b == '.' || b == 'e' || b == 'E') = false)
    (r : List Char) : numStopOk v (w ++ b :: r) = true := by
  cases v <;> try rfl
  cases w with
  | nil => simp [numStopOk, hb]
  | cons c cs =>
    have hc : isJsonWs c = true := by
      simp only [List.all_cons, Bool.and_eq_true] at hw
      exact hw.1
    simp [numStopOk, ws_not_numext hc]

theorem numStop_head {t : List Char} {r : List Char}
    (h : numStopOk (.num t) r = true) :
    ∀ c, r.head? = some c → (isDigitChar c || c == '.' || c == 'e' || c == 'E') = false := by
  intro c hc
  cases r with
  | nil => simp at hc
  | cons x xs =>
    rw [List.head?_cons, Option.some.injEq] at hc
    rw [← hc]
    simpa [numStopOk] using h

theorem scanNumTok_head2 (s t r : List Char) (h : scanNumTok s = some (t, r)) :
    ∃ d ds, t = d :: ds ∧
      (isDigitChar d = true ∨ (d = '-' ∧ ∃ e es, ds = e :: es ∧ isDigitChar e = true)) := by
  cases s with
  | nil => simp [scanNumTok, scanUNum] at h
  | cons c cs =>
    by_cases hcm : c = '-'
    · subst hcm
      simp only [scanNumTok, Option.map_eq_some'] at h
      obtain ⟨⟨u, r1⟩, h1, h2⟩ := h
      obtain ⟨rfl, rfl⟩ := Prod.mk.injEq .. |>.mp h2
      obtain ⟨_, _, ⟨d, ds, hu, hdd⟩, _, _⟩ := scanUNum_master cs u r1 h1
      exact ⟨'-', u, rfl, Or.inr ⟨rfl, d, ds, hu, hdd⟩⟩
    · have hsplit : scanNumTok (c :: cs) = scanUNum (c :: cs) := by
        unfold scanNumTok
        split
        · rename_i rest heq
          exact absurd heq (by simp [hcm])
        · rfl
      rw [hsplit] at h
      obtain ⟨_, _, ⟨d, ds, ht, hdd⟩, _, _⟩ := scanUNum_master _ _ _ h
      exact ⟨d, ds, ht, Or.inl hdd⟩

theorem digit_not_space {c : Char} (h : isDigitChar c = true) :
    isJsonWs c = false ∧ isPySpace c = false :=
  not_space_of_ge (by have := digit_range h; omega)

theorem gval_edge {p : List Char} {v : Json} (h : GValX p v) :
    ∃ c cs, p = c :: cs ∧
      isJsonWs c = false ∧ isPySpace c = false ∧ c ≠ ']' ∧ c ≠ '}' ∧ c ≠ ',' ∧
      (∃ d, p.getLast? = some d ∧ isJsonWs d = false ∧ isPySpace d = false) := by
  cases h with
  | gnull =>
    exact ⟨'n', _, rfl, by decide, by decide, by decide, by decide, by decide,
      ⟨'l', by decide, by decide, by decide⟩⟩
  | gtrue =>
    exact ⟨'t', _, rfl, by decide, by decide, by decide, by decide, by decide,
      ⟨'e', by decide, by decide, by decide⟩⟩
  | gfalse =>
    exact ⟨'f', _, rfl, by decide, by decide, by decide, by decide, by decide,
      ⟨'e', by decide, by decide, by decide⟩⟩
  | gnan =>
    exact ⟨'N', _, rfl, by decide, by decide, by decide, by decide, by decide,
      ⟨'N', by decide, by decide, by decide⟩⟩
  | ginf =>
    exact ⟨'I', _, rfl, by decide, by decide, by decide, by decide, by decide,
      ⟨'y', by decide, by decide, by decide⟩⟩
  | gninf =>
    exact ⟨'-', _, rfl, by decide, by decide, by decide, by decide, by decide,
      ⟨'y', by decide, by decide, by decide⟩⟩
  | gstr hb =>
    rename_i body cs
    obtain ⟨q, hq, _, _⟩ := scanStringBody_decomp body cs [] hb
    refine ⟨'"', body, rfl, by decide, by decide, by decide, by decide, by decide,
      ⟨'"', ?_, by decide, by decide⟩⟩
    rw [hq]
    rw [show '"' :: (q ++ '"' :: ([] : List Char)) = ('"' :: q) ++ ['"'] from by simp]
    exact List.getLast?_concat _
  | gnum hn =>
    obtain ⟨_, _, ⟨d, ds, ht, hdd⟩, ⟨dl, hdl, hdld⟩, hchar⟩ := scanNumTok_master _ _ _ hn
    have hd43 : 43 ≤ d.toNat := by
      rcases hdd with rfl | hdig
      · decide
      · have := digit_range hdig
        omega
    have hdlp := digit_not_space hdld
    refine ⟨d, ds, ht, (not_space_of_ge hd43).1, (not_space_of_ge hd43).2, ?_, ?_, ?_,
      ⟨dl, hdl, hdlp.1, hdlp.2⟩⟩
    · intro heq
      rcases hdd with rfl | hdig
      · exact absurd heq (by decide)
      · rw [heq] at hdig
        exact absurd hdig (by decide)
    · intro heq
      rcases hdd with rfl | hdig
      · exact absurd heq (by decide)
      · rw [heq] at hdig
        exact absurd hdig (by decide)
    · intro heq
      rcases hdd with rfl | hdig
      · exact absurd heq (by decide)
      · rw [heq] at hdig
        exact absurd hdig (by decide)
  | garrNil hw =>
    rename_i w
    refine ⟨'[', _, rfl, by decide, by decide, by decide, by decide, by decide,
      ⟨']', ?_, by decide, by decide⟩⟩
    exact List.getLast?_concat _
  | garr hw he =>
    rename_i w mid vs
    refine ⟨'[', _, rfl, by decide, by decide, by decide, by decide, by decide,
      ⟨']', ?_, by decide, by decide⟩⟩
    rw [show ('[' :: w ++ mid) ++ [']'] = ('[' :: w ++ mid) ++ [']'] from rfl]
    exact List.getLast?_concat _
  | gobjNil hw =>
    rename_i w
    refine ⟨'{', _, rfl, by decide, by decide, by decide, by decide, by decide,
      ⟨'}', ?_, by decide, by decide⟩⟩
    exact List.getLast?_concat _
  | gobj hw hm =>
    rename_i w mid pairs
    refine ⟨'{', _, rfl, by decide, by decide, by decide, by decide, by decide,
      ⟨'}', ?_, by decide, by decide⟩⟩
    exact List.getLast?_concat _

theorem gelems_head {m : List Char} {vs : List Json} (h : GElemsX m vs) :
    ∃ c cs, m = c :: cs ∧
      isJsonWs c = false ∧ isPySpace c = false ∧ c ≠ ']' ∧ c ≠ '}' ∧ c ≠ ',' := by
  cases h with
  | one hval hw =>
    rename_i p2 w2 v2
    obtain ⟨c, cs, rfl, h1, h2, h3, h4, h5, _⟩ := gval_edge hval
    exact ⟨c, cs ++ w2, List.cons_append c cs w2, h1, h2, h3, h4, h5⟩
  | more hval hw1 hw2 hrest =>
    rename_i p2 w1b w2b restb v2 vs2
    obtain ⟨c, cs, rfl, h1, h2, h3, h4, h5, _⟩ := gval_edge hval
    exact ⟨c, cs ++ w1b ++ ',' :: (w2b ++ restb), by simp, h1, h2, h3, h4, h5⟩

theorem gmembers_head {m : List Char} {ps : List (List Char × Json)} (h : GMembersX m ps) :
    ∃ cs, m = '"' :: cs := by
  cases h with
  | one hk hw1 hw2 hval hw3 => exact ⟨_, rfl⟩
  | more hk hw1 hw2 hval hw3 hw4 hrest => exact ⟨_, rfl⟩

theorem digit_enum {c : Char} (h : isDigitChar c = true) :
    c = '0' ∨ c = '1' ∨ c = '2' ∨ c = '3' ∨ c = '4' ∨ c = '5' ∨ c = '6' ∨ c = '7' ∨
      c = '8' ∨ c = '9' := by
  have h2 := digit_range h
  have h3 : c.toNat = 48 ∨ c.toNat = 49 ∨ c.toNat = 50 ∨ c.toNat = 51 ∨ c.toNat = 52 ∨
      c.toNat = 53 ∨ c.toNat = 54 ∨ c.toNat = 55 ∨ c.toNat = 56 ∨ c.toNat = 57 := by
    omega
  rcases h3 with h4 | h4 | h4 | h4 | h4 | h4 | h4 | h4 | h4 | h4
  · exact Or.inl (Char.ext (UInt32.ext h4))
  · exact Or.inr (Or.inl (Char.ext (UInt32.ext h4)))
  · exact Or.inr (Or.inr (Or.inl (Char.ext (UInt32.ext h4))))
  · exact Or.inr (Or.inr (Or.inr (Or.inl (Char.ext (UInt32.ext h4)))))
  · exact Or.inr (Or.inr (Or.inr (Or.inr (Or.inl (Char.ext (UInt32.ext h4))))))
  · exact Or.inr (Or.inr (Or.inr (Or.inr (Or.inr (Or.inl (Char.ext (UInt32.ext h4)))))))
  · exact Or.inr (Or.inr (Or.inr (Or.inr (Or.inr (Or.inr (Or.inl
      (Char.ext (UInt32.ext h4))))))))
  · exact Or.inr (Or.inr (Or.inr (Or.inr (Or.inr (Or.inr (Or.inr (Or.inl
      (Char.ext (UInt32.ext h4)))))))))
  · exact Or.inr (Or.inr (Or.inr (Or.inr (Or.inr (Or.inr (Or.inr (Or.inr (Or.inl
      (Char.ext (UInt32.ext h4))))))))))
  · exact Or.inr (Or.inr (Or.inr (Or.inr (Or.inr (Or.inr (Or.inr (Or.inr (Or.inr
      (Char.ext (UInt32.ext h4))))))))))

set_option maxHeartbeats 3000000 in
theorem scanValue_num_arm (f : Nat) (d : Char) (X : List Char)
    (hshape : isDigitChar d = true ∨
      (d = '-' ∧ ∃ e Y, X = e :: Y ∧ isDigitChar e = true)) :
    scanValue (f + 1) (d :: X) = (scanNumTok (d :: X)).map (fun p => (Json.num p.1, p.2)) := by
  rcases hshape with hdig | ⟨rfl, e, Y, rfl, hedig⟩
  · rcases digit_enum hdig with rfl | rfl | rfl | rfl | rfl | rfl | rfl | rfl | rfl | rfl <;>
      rfl
  · rcases digit_enum hedig with rfl | rfl | rfl | rfl | rfl | rfl | rfl | rfl | rfl | rfl <;>
      rfl

theorem scanValue_str_step (f : Nat) (X : List Char) :
    scanValue (f + 1) ('"' :: X) = (scanStringBody X).map (fun p => (Json.str p.1, p.2)) := rfl

theorem scanValue_arr_step (f : Nat) (X : List Char) :
    scanValue (f + 1) ('[' :: X) =
      (match skipJsonWs X with
       | ']' :: r2 => some (Json.arr [], r2)
       | s1 => scanElems f s1 []) := rfl

theorem scanValue_obj_step (f : Nat) (X : List Char) :
    scanValue (f + 1) ('{' :: X) =
      (match skipJsonWs X with
       | '}' :: r2 => some (Json.obj [], r2)
       | s1 => scanMembers f s1 []) := rfl

theorem scanElems_step (f : Nat) (s : List Char) (acc : List Json) :
    scanElems (f + 1) s acc =
      (match scanValue f s with
       | none => none
       | some (v, r1) =>
         match skipJsonWs r1 with
         | ']' :: r2 => some (.arr (acc ++ [v]), r2)
         | ',' :: r2 => scanElems f (skipJsonWs r2) (acc ++ [v])
         | _ => none) := rfl

theorem scanMembers_step (f : Nat) (X : List Char) (acc : List (List Char × Json)) :
    scanMembers (f + 1) ('"' :: X) acc =
      (match scanStringBody X with
       | none => none
       | some (key, r1) =>
         match skipJsonWs r1 with
         | ':' :: r2 =>
           (match scanValue f (skipJsonWs r2) with
            | none => none
            | some (v, r3) =>
              match skipJsonWs r3 with
              | '}' :: r4 => some (.obj (dictInsert acc key v), r4)
              | ',' :: r4 => scanMembers f (skipJsonWs r4) (dictInsert acc key v)
              | _ => none)
         | _ => none) := rfl

set_option maxHeartbeats 4000000 in
theorem scan_sound_all : ∀ n : Nat,
    (∀ p v, p.length ≤ n → GValX p v → ∀ fuel r, p.length < fuel →
        numStopOk v r = true → scanValue fuel (p ++ r) = some (v, r)) ∧
    (∀ m vs, m.length ≤ n → GElemsX m vs → ∀ fuel r acc, m.length + 1 < fuel →
        scanElems fuel (m ++ ']' :: r) acc = some (.arr (acc ++ vs), r)) ∧
    (∀ m ps, m.length ≤ n → GMembersX m ps → ∀ fuel r acc, m.length + 1 < fuel →
        scanMembers fuel (m ++ '}' :: r) acc = some (.obj (foldInsert acc ps), r)) := by
  intro n
  induction n using Nat.strong_induction_on with
  | _ n ih =>
  have hv : ∀ p v, p.length ≤ n → GValX p v → ∀ fuel r, p.length < fuel →
      numStopOk v r = true → scanValue fuel (p ++ r) = some (v, r) := by
    intro p v hlen hval fuel r hfuel hstop
    rcases fuel with _ | f
    · omega
    cases hval with
    | gnull => rfl
    | gtrue => rfl
    | gfalse => rfl
    | gnan => rfl
    | ginf => rfl
    | gninf => rfl
    | gstr hb =>
      rename_i body cs
      obtain ⟨q, hq, hres, _⟩ := scanStringBody_decomp body cs [] hb
      have hbr : body ++ r = q ++ '"' :: r := by
        rw [hq]
        simp
      show scanValue (f + 1) (('"' :: body) ++ r) = some (.str cs, r)
      rw [List.cons_append, scanValue_str_step, hbr, hres r]
      rfl
    | gnum hn =>
      obtain ⟨_, hres, _, _, _⟩ := scanNumTok_master _ _ _ hn
      obtain ⟨d, ds, ht, hshape⟩ := scanNumTok_head2 _ _ _ hn
      have hscan : scanNumTok ((d :: ds) ++ r) = some (d :: ds, r) := by
        rw [← ht]
        exact hres r (numStop_head hstop)
      rw [ht, List.cons_append]
      rw [scanValue_num_arm f d (ds ++ r) (by
        rcases hshape with hdig | ⟨rfl, e, es, hds, hedig⟩
        · exact Or.inl hdig
        · exact Or.inr ⟨rfl, e, es ++ r, by rw [hds, List.cons_append], hedig⟩)]
      rw [← List.cons_append, hscan]
      rfl
    | garrNil hw =>
      rename_i w
      have heq2 : (('[' :: w) ++ [']']) ++ r = '[' :: (w ++ ']' :: r) := by simp
      show scanValue (f + 1) ((('[' :: w) ++ [']']) ++ r) = some (.arr [], r)
      have hskip : skipJsonWs (w ++ ']' :: r) = ']' :: r := by
        rw [skipJsonWs_append_ws hw]
        exact skipJsonWs_cons_not (by decide) r
      rw [heq2, scanValue_arr_step, hskip]
      rfl
    | garr hw he =>
      rename_i w mid vs
      obtain ⟨c, cs, hmid, hcw, _, hcrb, _, _⟩ := gelems_head he
      show scanValue (f + 1) (((('[' :: w) ++ mid) ++ [']']) ++ r) = some (.arr vs, r)
      have heq2 : ((('[' :: w) ++ mid) ++ [']']) ++ r = '[' :: (w ++ (mid ++ ']' :: r)) := by
        simp
      have hskip : skipJsonWs (w ++ (mid ++ ']' :: r)) = mid ++ ']' :: r := by
        rw [skipJsonWs_append_ws hw]
        apply skipJsonWs_eq_self
        intro x hx
        rw [hmid, List.cons_append, List.head?_cons, Option.some.injEq] at hx
        rw [← hx]
        exact hcw
      have hlen2 : mid.length < n := by
        have := hlen
        simp only [List.length_append, List.length_cons] at this
        omega
      have hfl : mid.length + 1 < f := by
        have := hfuel
        simp only [List.length_append, List.length_cons] at this
        omega
      have helems := (ih mid.length hlen2).2.1 mid vs le_rfl he f r [] hfl
      rw [heq2, scanValue_arr_step, hskip, hmid, List.cons_append]
      split
      · rename_i r2 heq
        injection heq with h1 _
        exact absurd h1 hcrb
      · rw [← List.cons_append, ← hmid, helems]
        simp
    | gobjNil hw =>
      rename_i w
      have heq2 : (('{' :: w) ++ ['}']) ++ r = '{' :: (w ++ '}' :: r) := by simp
      show scanValue (f + 1) ((('{' :: w) ++ ['}']) ++ r) = some (.obj [], r)
      have hskip : skipJsonWs (w ++ '}' :: r) = '}' :: r := by
        rw [skipJsonWs_append_ws hw]
        exact skipJsonWs_cons_not (by decide) r
      rw [heq2, scanValue_obj_step, hskip]
      rfl
    | gobj hw hm =>
      rename_i w mid pairs
      obtain ⟨cs, hmid⟩ := gmembers_head hm
      show scanValue (f + 1) (((('{' :: w) ++ mid) ++ ['}']) ++ r) =
        some (.obj (foldInsert [] pairs), r)
      have heq2 : ((('{' :: w) ++ mid) ++ ['}']) ++ r = '{' :: (w ++ (mid ++ '}' :: r)) := by
        simp
      have hskip : skipJsonWs (w ++ (mid ++ '}' :: r)) = mid ++ '}' :: r := by
        rw [skipJsonWs_append_ws hw]
        apply skipJsonWs_eq_self
        intro x hx
        rw [hmid, List.cons_append, List.head?_cons, Option.some.injEq] at hx
        rw [← hx]
        decide
      have hlen2 : mid.length < n := by
        have := hlen
        simp only [List.length_append, List.length_cons] at this
        omega
      have hfl : mid.length + 1 < f := by
        have := hfuel
        simp only [List.length_append, List.length_cons] at this
        omega
      have hmem := (ih mid.length hlen2).2.2 mid pairs le_rfl hm f r [] hfl
      rw [heq2, scanValue_obj_step, hskip, hmid, List.cons_append]
      split
      · rename_i r2 heq
        injection heq with h1 _
        exact absurd h1 (by decide)
      · rw [← List.cons_append, ← hmid, hmem]
  have hq : ∀ m vs, m.length ≤ n → GElemsX m vs → ∀ fuel r acc, m.length + 1 < fuel →
      scanElems fuel (m ++ ']' :: r) acc = some (.arr (acc ++ vs), r) := by
    intro m vs hlen helems fuel r acc hfuel
    rcases fuel with _ | f
    · omega
    cases helems with
    | one hval hw =>
      rename_i p2 w2 v2
      have heq2 : (p2 ++ w2) ++ ']' :: r = p2 ++ (w2 ++ ']' :: r) := by simp
      have hsv : scanValue f (p2 ++ (w2 ++ ']' :: r)) = some (v2, w2 ++ ']' :: r) := by
        apply hv p2 v2 ?_ hval f _ ?_ (numStopOk_wsdelim v2 w2 hw ']' (by decide) r)
        · have := hlen
          simp only [List.length_append] at this
          omega
        · have := hfuel
          simp only [List.length_append] at this
          omega
      have hskip : skipJsonWs (w2 ++ ']' :: r) = ']' :: r := by
        rw [skipJsonWs_append_ws hw]
        exact skipJsonWs_cons_not (by decide) r
      rw [heq2, scanElems_step]
      simp only [hsv, hskip]
    | more hval hw1 hw2 hrest =>
      rename_i p2 w1b w2b restb v2 vs2
      obtain ⟨c, cs, hrb, hcw, _, _, _, _⟩ := gelems_head hrest
      have heq2 : ((p2 ++ w1b) ++ ',' :: (w2b ++ restb)) ++ ']' :: r =
          p2 ++ (w1b ++ ',' :: (w2b ++ (restb ++ ']' :: r))) := by simp
      have hsv : scanValue f (p2 ++ (w1b ++ ',' :: (w2b ++ (restb ++ ']' :: r)))) =
          some (v2, w1b ++ ',' :: (w2b ++ (restb ++ ']' :: r))) := by
        apply hv p2 v2 ?_ hval f _ ?_
          (numStopOk_wsdelim v2 w1b hw1 ',' (by decide) _)
        · have := hlen
          simp only [List.length_append, List.length_cons] at this
          omega
        · have := hfuel
          simp only [List.length_append, List.length_cons] at this
          omega
      have hskip1 : skipJsonWs (w1b ++ ',' :: (w2b ++ (restb ++ ']' :: r))) =
          ',' :: (w2b ++ (restb ++ ']' :: r)) := by
        rw [skipJsonWs_append_ws hw1]
        exact skipJsonWs_cons_not (by decide) _
      have hskip2 : skipJsonWs (w2b ++ (restb ++ ']' :: r)) = restb ++ ']' :: r := by
        rw [skipJsonWs_append_ws hw2]
        apply skipJsonWs_eq_self
        intro x hx
        rw [hrb, List.cons_append, List.head?_cons, Option.some.injEq] at hx
        rw [← hx]
        exact hcw
      have hlen2 : restb.length < n := by
        have := hlen
        simp only [List.length_append, List.length_cons] at this
        omega
      have hfl : restb.length + 1 < f := by
        have := hfuel
        simp only [List.length_append, List.length_cons] at this
        omega
      have hrec := (ih restb.length hlen2).2.1 restb vs2 le_rfl hrest f r (acc ++ [v2]) hfl
      rw [heq2, scanElems_step]
      simp only [hsv, hskip1, hskip2, hrec]
      simp
  have hr : ∀ m ps, m.length ≤ n → GMembersX m ps → ∀ fuel r acc, m.length + 1 < fuel →
      scanMembers fuel (m ++ '}' :: r) acc = some (.obj (foldInsert acc ps), r) := by
    intro m ps hlen hmem fuel r acc hfuel
    rcases fuel with _ | f
    · omega
    cases hmem with
    | one hk hw1 hw2 hval hw3 =>
      rename_i kbody k w1b w2b p2 v2 w3b
      obtain ⟨pc, pcs, hp2, hpw, _, _, _, _⟩ := gval_edge hval
      obtain ⟨q, hkq, hkres, _⟩ := scanStringBody_decomp kbody k [] hk
      have heq2 : (('"' :: kbody) ++ w1b ++ ':' :: (w2b ++ p2 ++ w3b)) ++ '}' :: r =
          '"' :: (kbody ++ (w1b ++ ':' :: (w2b ++ (p2 ++ (w3b ++ '}' :: r))))) := by
        simp
      have hkbr : kbody ++ (w1b ++ ':' :: (w2b ++ (p2 ++ (w3b ++ '}' :: r)))) =
          q ++ '"' :: (w1b ++ ':' :: (w2b ++ (p2 ++ (w3b ++ '}' :: r)))) := by
        rw [hkq]
        simp
      have hskip1 : skipJsonWs (w1b ++ ':' :: (w2b ++ (p2 ++ (w3b ++ '}' :: r)))) =
          ':' :: (w2b ++ (p2 ++ (w3b ++ '}' :: r))) := by
        rw [skipJsonWs_append_ws hw1]
        exact skipJsonWs_cons_not (by decide) _
      have hskip2 : skipJsonWs (w2b ++ (p2 ++ (w3b ++ '}' :: r))) =
          p2 ++ (w3b ++ '}' :: r) := by
        rw [skipJsonWs_append_ws hw2]
        apply skipJsonWs_eq_self
        intro x hx
        rw [hp2, List.cons_append, List.head?_cons, Option.some.injEq] at hx
        rw [← hx]
        exact hpw
      have hsv : scanValue f (p2 ++ (w3b ++ '}' :: r)) = some (v2, w3b ++ '}' :: r) := by
        apply hv p2 v2 ?_ hval f _ ?_ (numStopOk_wsdelim v2 w3b hw3 '}' (by decide) r)
        · have := hlen
          simp only [List.length_append, List.length_cons] at this
          omega
        · have := hfuel
          simp only [List.length_append, List.length_cons] at this
          omega
      have hskip3 : skipJsonWs (w3b ++ '}' :: r) = '}' :: r := by
        rw [skipJsonWs_append_ws hw3]
        exact skipJsonWs_cons_not (by decide) r
      rw [heq2, scanMembers_step]
      simp only [hkbr, hkres, hskip1, hskip2, hsv, hskip3]
      rfl
    | more hk hw1 hw2 hval hw3 hw4 hrest =>
      rename_i kbody k w1b w2b p2 v2 w3b w4b restb ps2
      obtain ⟨pc, pcs, hp2, hpw, _, _, _, _⟩ := gval_edge hval
      obtain ⟨rcs, hrb⟩ := gmembers_head hrest
      obtain ⟨q, hkq, hkres, _⟩ := scanStringBody_decomp kbody k [] hk
      have heq2 : (('"' :: kbody) ++ w1b ++ ':' :: (w2b ++ p2 ++ w3b ++ ',' ::
            (w4b ++ restb))) ++ '}' :: r =
          '"' :: (kbody ++ (w1b ++ ':' :: (w2b ++ (p2 ++ (w3b ++ ',' ::
            (w4b ++ (restb ++ '}' :: r))))))) := by
        simp
      have hkbr : kbody ++ (w1b ++ ':' :: (w2b ++ (p2 ++ (w3b ++ ',' ::
            (w4b ++ (restb ++ '}' :: r)))))) =
          q ++ '"' :: (w1b ++ ':' :: (w2b ++ (p2 ++ (w3b ++ ',' ::
            (w4b ++ (restb ++ '}' :: r)))))) := by
        rw [hkq]
        simp
      have hskip1 : skipJsonWs (w1b ++ ':' :: (w2b ++ (p2 ++ (w3b ++ ',' ::
            (w4b ++ (restb ++ '}' :: r)))))) =
          ':' :: (w2b ++ (p2 ++ (w3b ++ ',' :: (w4b ++ (restb ++ '}' :: r))))) := by
        rw [skipJsonWs_append_ws hw1]
        exact skipJsonWs_cons_not (by decide) _
      have hskip2 : skipJsonWs (w2b ++ (p2 ++ (w3b ++ ',' ::
            (w4b ++ (restb ++ '}' :: r))))) =
          p2 ++ (w3b ++ ',' :: (w4b ++ (restb ++ '}' :: r))) := by
        rw [skipJsonWs_append_ws hw2]
        apply skipJsonWs_eq_self
        intro x hx
        rw [hp2, List.cons_append, List.head?_cons, Option.some.injEq] at hx
        rw [← hx]
        exact hpw
      have hsv : scanValue f (p2 ++ (w3b ++ ',' :: (w4b ++ (restb ++ '}' :: r)))) =
          some (v2, w3b ++ ',' :: (w4b ++ (restb ++ '}' :: r))) := by
        apply hv p2 v2 ?_ hval f _ ?_ (numStopOk_wsdelim v2 w3b hw3 ',' (by decide) _)
        · have := hlen
          simp only [List.length_append, List.length_cons] at this
          omega
        · have := hfuel
          simp only [List.length_append, List.length_cons] at this
          omega
      have hskip3 : skipJsonWs (w3b ++ ',' :: (w4b ++ (restb ++ '}' :: r))) =
          ',' :: (w4b ++ (restb ++ '}' :: r)) := by
        rw [skipJsonWs_append_ws hw3]
        exact skipJsonWs_cons_not (by decide) _
      have hskip4 : skipJsonWs (w4b ++ (restb ++ '}' :: r)) = restb ++ '}' :: r := by
        rw [skipJsonWs_append_ws hw4]
        apply skipJsonWs_eq_self
        intro x hx
        rw [hrb, List.cons_append, List.head?_cons, Option.some.injEq] at hx
        rw [← hx]
        decide
      have hlen2 : restb.length < n := by
        have := hlen
        simp only [List.length_append, List.length_cons] at this
        omega
      have hfl : restb.length + 1 < f := by
        have := hfuel
        simp only [List.length_append, List.length_cons] at this
        omega
      have hrec := (ih restb.length hlen2).2.2 restb ps2 le_rfl hrest f r
        (dictInsert acc k v2) hfl
      rw [heq2, scanMembers_step]
      simp only [hkbr, hkres, hskip1, hskip2, hsv, hskip3, hskip4, hrec]
      rfl
  exact ⟨hv, hq, hr⟩

theorem gval_sound {p : List Char} {v : Json} (h : GValX p v) (fuel : Nat) (r : List Char)
    (hf : p.length < fuel) (hstop : numStopOk v r = true) :
    scanValue fuel (p ++ r) = some (v, r) :=
  (scan_sound_all p.length).1 p v le_rfl h fuel r hf hstop

theorem scanMembers_inv (f : Nat) (s : List Char) (acc : List (List Char × Json))
    (j : Json) (r : List Char) (h : scanMembers (f + 1) s acc = some (j, r)) :
    ∃ rest, s = '"' :: rest := by
  rw [scanMembers.eq_def] at h
  split at h
  · exact absurd h (by simp)
  · split at h
    · exact ⟨_, rfl⟩
    · exact absurd h (by simp)

theorem take_drop_span {l w : List Char} {n : Nat} (h : l.take n = w) :
    l = w ++ l.drop n := by
  conv_lhs => rw [← List.take_append_drop n l]
  rw [h]

set_option maxHeartbeats 4000000 in
theorem scan_complete_all : ∀ fuel : Nat,
    (∀ s v r, scanValue fuel s = some (v, r) → ∃ p, s = p ++ r ∧ GValX p v) ∧
    (∀ s acc j r, scanElems fuel s acc = some (j, r) →
        ∃ m vs, s = m ++ ']' :: r ∧ GElemsX m vs ∧ j = .arr (acc ++ vs)) ∧
    (∀ s acc j r, scanMembers fuel s acc = some (j, r) →
        ∃ m ps, s = m ++ '}' :: r ∧ GMembersX m ps ∧ j = .obj (foldInsert acc ps)) := by
  intro fuel
  induction fuel with
  | zero =>
    refine ⟨?_, ?_, ?_⟩
    · intro s v r h
      exact absurd h (by simp [scanValue])
    · intro s acc j r h
      exact absurd h (by simp [scanElems])
    · intro s acc j r h
      exact absurd h (by simp [scanMembers])
  | succ f ihf =>
    obtain ⟨ihv, ihe, ihm⟩ := ihf
    have hval : ∀ s v r, scanValue (f + 1) s = some (v, r) → ∃ p, s = p ++ r ∧ GValX p v := by
      intro s v r h
      cases s with
      | nil => exact absurd h (by simp [scanValue])
      | cons c rest =>
      simp only [scanValue] at h
      split at h
      · -- c = '"'
        rename_i hc
        subst hc
        simp only [Option.map_eq_some'] at h
        obtain ⟨⟨cs, t⟩, h1, h2⟩ := h
        obtain ⟨rfl, rfl⟩ := Prod.mk.injEq .. |>.mp h2
        obtain ⟨q, hq, hres, _⟩ := scanStringBody_decomp rest cs t h1
        refine ⟨'"' :: (q ++ ['"']), ?_, GValX.gstr (hres [])⟩
        rw [hq]
        simp
      · rename_i hnq
        split at h
        · -- c = '{', inner match
          rename_i hc
          subst hc
          split at h
          · rename_i r2 heqS
            rw [Option.some.injEq] at h
            obtain ⟨rfl, rfl⟩ := Prod.mk.injEq .. |>.mp h.symm
            obtain ⟨w, hw1, hw2⟩ := skipJsonWs_decomp rest
            rw [heqS] at hw1
            refine ⟨('{' :: w) ++ ['}'], ?_, GValX.gobjNil hw2⟩
            rw [hw1]
            simp
          · rename_i s1 hnotbrace
            obtain ⟨m, ps, hm1, hm2, rfl⟩ := ihm _ _ _ _ h
            obtain ⟨w, hw1, hw2⟩ := skipJsonWs_decomp rest
            rw [hm1] at hw1
            refine ⟨('{' :: w) ++ m ++ ['}'], ?_, GValX.gobj hw2 hm2⟩
            rw [hw1]
            simp
        · rename_i hnb
          split at h
          · -- c = '[', inner match
            rename_i hc
            subst hc
            split at h
            · rename_i r2 heqS
              rw [Option.some.injEq] at h
              obtain ⟨rfl, rfl⟩ := Prod.mk.injEq .. |>.mp h.symm
              obtain ⟨w, hw1, hw2⟩ := skipJsonWs_decomp rest
              rw [heqS] at hw1
              refine ⟨('[' :: w) ++ [']'], ?_, GValX.garrNil hw2⟩
              rw [hw1]
              simp
            · rename_i s1 hnotbrack
              obtain ⟨m, vs, hm1, hm2, rfl⟩ := ihe _ _ _ _ h
              obtain ⟨w, hw1, hw2⟩ := skipJsonWs_decomp rest
              rw [hm1] at hw1
              refine ⟨('[' :: w) ++ m ++ [']'], ?_, by simpa using GValX.garr hw2 hm2⟩
              rw [hw1]
              simp
          · rename_i hna
            split at h
            · rename_i hc
              obtain ⟨rfl, htk⟩ := hc
              rw [Option.some.injEq] at h
              obtain ⟨rfl, rfl⟩ := Prod.mk.injEq .. |>.mp h.symm
              refine ⟨("null").data, ?_, GValX.gnull⟩
              conv_lhs => rw [take_drop_span htk]
              rfl
            · rename_i hnn
              split at h
              · rename_i hc
                obtain ⟨rfl, htk⟩ := hc
                rw [Option.some.injEq] at h
                obtain ⟨rfl, rfl⟩ := Prod.mk.injEq .. |>.mp h.symm
                refine ⟨("true").data, ?_, GValX.gtrue⟩
                conv_lhs => rw [take_drop_span htk]
                rfl
              · rename_i hnt
                split at h
                · rename_i hc
                  obtain ⟨rfl, htk⟩ := hc
                  rw [Option.some.injEq] at h
                  obtain ⟨rfl, rfl⟩ := Prod.mk.injEq .. |>.mp h.symm
                  refine ⟨("false").data, ?_, GValX.gfalse⟩
                  conv_lhs => rw [take_drop_span htk]
                  rfl
                · rename_i hnf
                  split at h
                  · rename_i hc
                    obtain ⟨rfl, htk⟩ := hc
                    rw [Option.some.injEq] at h
                    obtain ⟨rfl, rfl⟩ := Prod.mk.injEq .. |>.mp h.symm
                    refine ⟨("NaN").data, ?_, GValX.gnan⟩
                    conv_lhs => rw [take_drop_span htk]
                    rfl
                  · rename_i hnN
                    split at h
                    · rename_i hc
                      obtain ⟨rfl, htk⟩ := hc
                      rw [Option.some.injEq] at h
                      obtain ⟨rfl, rfl⟩ := Prod.mk.injEq .. |>.mp h.symm
                      refine ⟨("Infinity").data, ?_, GValX.ginf⟩
                      conv_lhs => rw [take_drop_span htk]
                      rfl
                    · rename_i hnI
                      split at h
                      · rename_i hc
                        obtain ⟨rfl, htk⟩ := hc
                        rw [Option.some.injEq] at h
                        obtain ⟨rfl, rfl⟩ := Prod.mk.injEq .. |>.mp h.symm
                        refine ⟨("-Infinity").data, ?_, GValX.gninf⟩
                        conv_lhs => rw [take_drop_span htk]
                        rfl
                      · -- default: number token
                        simp only [Option.map_eq_some'] at h
                        obtain ⟨⟨t, t2⟩, h1, h2⟩ := h
                        obtain ⟨rfl, rfl⟩ := Prod.mk.injEq .. |>.mp h2
                        obtain ⟨hsd, hres, _, _, _⟩ := scanNumTok_master _ _ _ h1
                        refine ⟨t, hsd, GValX.gnum ?_⟩
                        have := hres [] (by intro c hc; simp at hc)
                        simpa using this
    refine ⟨hval, ?_, ?_⟩
    · intro s acc j r h
      rw [show scanElems (f + 1) s acc =
        (match scanValue f s with
         | none => none
         | some (v, r1) =>
           match skipJsonWs r1 with
           | ']' :: r2 => some (.arr (acc ++ [v]), r2)
           | ',' :: r2 => scanElems f (skipJsonWs r2) (acc ++ [v])
           | _ => none) from rfl] at h
      rcases hsv : scanValue f s with _ | ⟨v1, r1⟩
      · rw [hsv] at h
        exact absurd h (by simp)
      · simp only [hsv] at h
        obtain ⟨p, rfl, hpv⟩ := ihv _ _ _ hsv
        split at h
        · rename_i r2 heqS
          rw [Option.some.injEq] at h
          obtain ⟨rfl, rfl⟩ := Prod.mk.injEq .. |>.mp h.symm
          obtain ⟨w, hw1, hw2⟩ := skipJsonWs_decomp r1
          rw [heqS] at hw1
          refine ⟨p ++ w, [v1], ?_, GElemsX.one hpv hw2, rfl⟩
          rw [hw1]
          simp
        · rename_i r2 heqS
          obtain ⟨m2, vs2, hm1, hm2, rfl⟩ := ihe _ _ _ _ h
          obtain ⟨w1, hw11, hw12⟩ := skipJsonWs_decomp r1
          rw [heqS] at hw11
          obtain ⟨w2, hw21, hw22⟩ := skipJsonWs_decomp r2
          rw [hm1] at hw21
          refine ⟨(p ++ w1) ++ ',' :: (w2 ++ m2), v1 :: vs2, ?_,
            GElemsX.more hpv hw12 hw22 hm2, by simp⟩
          rw [hw11, hw21]
          simp
        · exact absurd h (by simp)
    · intro s acc j r h
      obtain ⟨rest, rfl⟩ := scanMembers_inv f s acc j r h
      rw [scanMembers_step] at h
      rcases hsb : scanStringBody rest with _ | ⟨key, r1⟩
      · rw [hsb] at h
        exact absurd h (by simp)
      · simp only [hsb] at h
        obtain ⟨q, hq, hres, _⟩ := scanStringBody_decomp rest key r1 hsb
        split at h
        · rename_i r2 heqC
          rcases hsv2 : scanValue f (skipJsonWs r2) with _ | ⟨v2, r3⟩
          · rw [hsv2] at h
            exact absurd h (by simp)
          · simp only [hsv2] at h
            obtain ⟨p, hp1, hpv⟩ := ihv _ _ _ hsv2
            obtain ⟨w2, hw21, hw22⟩ := skipJsonWs_decomp r2
            rw [hp1] at hw21
            obtain ⟨w1, hw11, hw12⟩ := skipJsonWs_decomp r1
            rw [heqC] at hw11
            split at h
            · rename_i r4 heqB
              rw [Option.some.injEq] at h
              obtain ⟨rfl, rfl⟩ := Prod.mk.injEq .. |>.mp h.symm
              obtain ⟨w3, hw31, hw32⟩ := skipJsonWs_decomp r3
              rw [heqB] at hw31
              refine ⟨('"' :: (q ++ ['"'])) ++ w1 ++ ':' :: (w2 ++ p ++ w3),
                [(key, v2)], ?_, GMembersX.one (hres []) hw12 hw22 hpv hw32, rfl⟩
              rw [hq, hw11, hw21, hw31]
              simp
            · rename_i r4 heqB
              obtain ⟨m2, ps2, hm1, hm2, rfl⟩ := ihm _ _ _ _ h
              obtain ⟨w3, hw31, hw32⟩ := skipJsonWs_decomp r3
              rw [heqB] at hw31
              obtain ⟨w4, hw41, hw42⟩ := skipJsonWs_decomp r4
              rw [hm1] at hw41
              refine ⟨('"' :: (q ++ ['"'])) ++ w1 ++ ':' :: (w2 ++ p ++ w3 ++ ',' ::
                  (w4 ++ m2)), (key, v2) :: ps2, ?_,
                GMembersX.more (hres []) hw12 hw22 hpv hw32 hw42 hm2, rfl⟩
              rw [hq, hw11, hw21, hw31, hw41]
              simp
            · exact absurd h (by simp)
        · exact absurd h (by simp)

/-! ## Well-formedness of every parse result -/

theorem noDupKeys_iff (fs : List (List Char × Json)) :
    noDupKeys fs = true ↔ (fs.map Prod.fst).Nodup := by
  induction fs with
  | nil => simp [noDupKeys]
  | cons f fs ih =>
    simp only [noDupKeys, Bool.and_eq_true, ih, List.map_cons, List.nodup_cons,
      Bool.not_eq_true', List.any_eq_false, List.mem_map, beq_iff_eq]
    constructor
    · rintro ⟨h1, h2⟩
      refine ⟨?_, h2⟩
      rintro ⟨g, hg, hgf⟩
      exact absurd hgf (h1 g hg)
    · rintro ⟨h1, h2⟩
      exact ⟨fun g hg hgf => h1 ⟨g, hg, hgf⟩, h2⟩

theorem keys_dictInsert_replace (fs : List (List Char × Json)) (k : List Char) (v : Json) :
    (fs.map (fun f => if f.1 == k then (k, v) else f)).map Prod.fst = fs.map Prod.fst := by
  rw [List.map_map]
  refine List.map_congr_left ?_
  intro f _
  by_cases h : f.1 == k
  · simp only [Function.comp_apply, if_pos h]
    exact (eq_of_beq h).symm
  · simp only [Function.comp_apply, if_neg h]

theorem noDupKeys_dictInsert (fs : List (List Char × Json)) (k : List Char) (v : Json)
    (h : noDupKeys fs = true) : noDupKeys (dictInsert fs k v) = true := by
  rw [noDupKeys_iff] at h ⊢
  rw [dictInsert]
  split
  · rw [keys_dictInsert_replace]
    exact h
  · rename_i hany
    rw [List.map_append]
    simp only [List.map_cons, List.map_nil]
    rw [List.nodup_append]
    refine ⟨h, List.nodup_singleton k, ?_⟩
    intro a ha hm
    simp only [List.mem_singleton] at hm
    rw [Bool.not_eq_true, List.any_eq_false] at hany
    simp only [List.mem_map] at ha
    obtain ⟨f, hf, hfa⟩ := ha
    have hne := hany f hf
    rw [hfa, hm] at hne
    simp at hne

theorem wfFields_append (a b : List (List Char × Json)) :
    wfFields (a ++ b) = (wfFields a && wfFields b) := by
  induction a with
  | nil => simp [wfFields]
  | cons f fs ih => simp [wfFields, ih, Bool.and_assoc]

theorem wfFields_replace (k : List Char) (v : Json) (hv : wfJson v = true) :
    ∀ fs, wfFields fs = true →
      wfFields (fs.map (fun f => if f.1 == k then (k, v) else f)) = true := by
  intro fs
  induction fs with
  | nil => intro h
           exact h
  | cons f fs2 ih =>
    intro h
    rw [wfFields, Bool.and_eq_true] at h
    simp only [List.map_cons, wfFields, Bool.and_eq_true]
    refine ⟨?_, ih h.2⟩
    by_cases hk : (f.1 == k) = true
    · rw [if_pos hk]
      exact hv
    · rw [if_neg hk]
      exact h.1

theorem wfFields_dictInsert (fs : List (List Char × Json)) (k : List Char) (v : Json)
    (hv : wfJson v = true) (h : wfFields fs = true) :
    wfFields (dictInsert fs k v) = true := by
  rw [dictInsert]
  split
  · exact wfFields_replace k v hv fs h
  · rw [wfFields_append, h]
    simp [wfFields, hv]

theorem foldInsert_wf (pairs : List (List Char × Json))
    (hvals : ∀ kv ∈ pairs, wfJson kv.2 = true) :
    ∀ acc, noDupKeys acc = true → wfFields acc = true →
      noDupKeys (foldInsert acc pairs) = true ∧ wfFields (foldInsert acc pairs) = true := by
  induction pairs with
  | nil => exact fun acc h1 h2 => ⟨h1, h2⟩
  | cons p ps ih =>
    intro acc h1 h2
    have hstep : foldInsert acc (p :: ps) = foldInsert (dictInsert acc p.1 p.2) ps := rfl
    rw [hstep]
    exact ih (fun kv hm => hvals kv (List.mem_cons_of_mem _ hm)) _
      (noDupKeys_dictInsert _ _ _ h1)
      (wfFields_dictInsert _ _ _ (hvals p (List.mem_cons_self _ _)) h2)

theorem wf_of_grammar_all : ∀ n : Nat,
    (∀ p v, p.length ≤ n → GValX p v → wfJson v = true) ∧
    (∀ m vs, m.length ≤ n → GElemsX m vs → wfList vs = true) ∧
    (∀ m ps, m.length ≤ n → GMembersX m ps →
      wfFields ps = true ∧ ∀ kv ∈ ps, wfJson kv.2 = true) := by
  intro n
  induction n using Nat.strong_induction_on with
  | _ n ih =>
  have hv : ∀ p v, p.length ≤ n → GValX p v → wfJson v = true := by
    intro p v hlen h
    cases h with
    | gnull => rfl
    | gtrue => rfl
    | gfalse => rfl
    | gnan => rfl
    | ginf => rfl
    | gninf => rfl
    | gstr hb => rfl
    | gnum hn => simp [wfJson, numTokOk, hn]
    | garrNil hw => rfl
    | garr hw hm =>
      rename_i w mid vs
      simp only [List.length_cons, List.length_append] at hlen
      have hlt : mid.length < n := by omega
      simpa [wfJson] using (ih mid.length hlt).2.1 mid vs le_rfl hm
    | gobjNil hw => rfl
    | gobj hw hm =>
      rename_i w mid pairs
      simp only [List.length_cons, List.length_append] at hlen
      have hlt : mid.length < n := by omega
      obtain ⟨hwf, hvals⟩ := (ih mid.length hlt).2.2 mid pairs le_rfl hm
      obtain ⟨h1, h2⟩ := foldInsert_wf pairs hvals [] rfl rfl
      simp [wfJson, h1, h2]
  refine ⟨hv, ?_, ?_⟩
  · intro m vs hlen h
    cases h with
    | one hpv hw =>
      rename_i p w v
      simp only [List.length_append] at hlen
      have := hv p v (by omega) hpv
      simp [wfList, this]
    | more hpv hw1 hw2 hrest =>
      rename_i p w1 w2 rest v vs2
      simp only [List.length_append, List.length_cons] at hlen
      have h1 := hv p v (by omega) hpv
      have hlt : rest.length < n := by omega
      have h2 := (ih rest.length hlt).2.1 rest vs2 le_rfl hrest
      simp [wfList, h1, h2]
  · intro m ps hlen h
    cases h with
    | one hk hw1 hw2 hpv hw3 =>
      rename_i kbody k2 w1 w2 p v w3
      simp only [List.length_cons, List.length_append] at hlen
      have h1 := hv p v (by omega) hpv
      refine ⟨by simp [wfFields, h1], ?_⟩
      intro kv hkv
      simp only [List.mem_singleton] at hkv
      rw [hkv]
      exact h1
    | more hk hw1 hw2 hpv hw3 hw4 hrest =>
      rename_i kbody k2 w1 w2 p v w3 w4 rest ps2
      simp only [List.length_cons, List.length_append] at hlen
      have h1 := hv p v (by omega) hpv
      have hlt : rest.length < n := by omega
      obtain ⟨h2, h3⟩ := (ih rest.length hlt).2.2 rest ps2 le_rfl hrest
      refine ⟨by simp [wfFields, h1, h2], ?_⟩
      intro kv hkv
      rcases List.mem_cons.mp hkv with rfl | hm2
      · exact h1
      · exact h3 kv hm2

theorem wf_of_grammar {p : List Char} {v : Json} (h : GValX p v) : wfJson v = true :=
  (wf_of_grammar_all p.length).1 p v le_rfl h
theorem hexDigitChar_isHex {n : Nat} (h : n < 16) : isHexDigitChar (hexDigitChar n) = true := by
  interval_cases n <;> decide

theorem hexVal_hexDigitChar {n : Nat} (h : n < 16) : hexVal (hexDigitChar n) = n := by
  interval_cases n <;> decide

theorem hex4Val_hex4Out {n : Nat} (h : n < 65536) :
    hex4Val (hexDigitChar (n / 4096 % 16)) (hexDigitChar (n / 256 % 16))
      (hexDigitChar (n / 16 % 16)) (hexDigitChar (n % 16)) = n := by
  unfold hex4Val
  rw [hexVal_hexDigitChar (Nat.mod_lt _ (by norm_num)),
    hexVal_hexDigitChar (Nat.mod_lt _ (by norm_num)),
    hexVal_hexDigitChar (Nat.mod_lt _ (by norm_num)),
    hexVal_hexDigitChar (Nat.mod_lt _ (by norm_num))]
  omega

theorem scanStringBody_u4 (h1 h2 h3 h4 : Char) (n : Nat)
    (hh1 : isHexDigitChar h1 = true) (hh2 : isHexDigitChar h2 = true)
    (hh3 : isHexDigitChar h3 = true) (hh4 : isHexDigitChar h4 = true)
    (hv : hex4Val h1 h2 h3 h4 = n) (hn : n < 65536) (hs : n < 55296 ∨ 57344 ≤ n)
    (r : List Char) :
    scanStringBody ('\\' :: 'u' :: h1 :: h2 :: h3 :: h4 :: r) =
      (scanStringBody r).map (fun p => (Char.ofNat n :: p.1, p.2)) := by
  simp only [scanStringBody]
  rw [hh1, hh2, hh3, hh4]
  simp only [Bool.and_self, if_true]
  rw [hv]
  rw [if_neg (by omega), if_neg (by omega)]

theorem scanStringBody_pair8 (h1 h2 h3 h4 d1 d2 d3 d4 : Char) (hi lo : Nat)
    (hh1 : isHexDigitChar h1 = true) (hh2 : isHexDigitChar h2 = true)
    (hh3 : isHexDigitChar h3 = true) (hh4 : isHexDigitChar h4 = true)
    (hd1 : isHexDigitChar d1 = true) (hd2 : isHexDigitChar d2 = true)
    (hd3 : isHexDigitChar d3 = true) (hd4 : isHexDigitChar d4 = true)
    (hvh : hex4Val h1 h2 h3 h4 = hi) (hvl : hex4Val d1 d2 d3 d4 = lo)
    (hhi1 : 55296 ≤ hi) (hhi2 : hi ≤ 56319) (hlo1 : 56320 ≤ lo) (hlo2 : lo ≤ 57343)
    (r : List Char) :
    scanStringBody ('\\' :: 'u' :: h1 :: h2 :: h3 :: h4 ::
        '\\' :: 'u' :: d1 :: d2 :: d3 :: d4 :: r) =
      (scanStringBody r).map
        (fun p => (Char.ofNat (65536 + (hi - 55296) * 1024 + (lo - 56320)) :: p.1, p.2)) := by
  simp only [scanStringBody]
  rw [hh1, hh2, hh3, hh4]
  simp only [Bool.and_self, if_true]
  rw [hvh]
  rw [if_pos (by omega)]
  rw [hd1, hd2, hd3, hd4]
  simp only [Bool.and_self, if_true]
  rw [hvl]
  rw [if_pos (by omega)]

theorem scanStringBody_u (n : Nat) (hn : n < 65536) (hs : n < 55296 ∨ 57344 ≤ n)
    (r : List Char) :
    scanStringBody (('\\' :: 'u' :: hex4Out n) ++ r) =
      (scanStringBody r).map (fun p => (Char.ofNat n :: p.1, p.2)) := by
  show scanStringBody ('\\' :: 'u' :: hexDigitChar (n / 4096 % 16) ::
    hexDigitChar (n / 256 % 16) :: hexDigitChar (n / 16 % 16) :: hexDigitChar (n % 16) :: r) = _
  exact scanStringBody_u4 _ _ _ _ n
    (hexDigitChar_isHex (Nat.mod_lt _ (by norm_num)))
    (hexDigitChar_isHex (Nat.mod_lt _ (by norm_num)))
    (hexDigitChar_isHex (Nat.mod_lt _ (by norm_num)))
    (hexDigitChar_isHex (Nat.mod_lt _ (by norm_num)))
    (hex4Val_hex4Out hn) hn hs r

theorem scanStringBody_surrogate (n : Nat) (hn : 65536 ≤ n) (hlt : n < 1114112)
    (r : List Char) :
    scanStringBody (('\\' :: 'u' :: hex4Out (55296 + (n - 65536) / 1024)) ++
      (('\\' :: 'u' :: hex4Out (56320 + (n - 65536) % 1024)) ++ r)) =
      (scanStringBody r).map (fun p => (Char.ofNat n :: p.1, p.2)) := by
  show scanStringBody ('\\' :: 'u' ::
      hexDigitChar ((55296 + (n - 65536) / 1024) / 4096 % 16) ::
      hexDigitChar ((55296 + (n - 65536) / 1024) / 256 % 16) ::
      hexDigitChar ((55296 + (n - 65536) / 1024) / 16 % 16) ::
      hexDigitChar ((55296 + (n - 65536) / 1024) % 16) ::
      '\\' :: 'u' ::
      hexDigitChar ((56320 + (n - 65536) % 1024) / 4096 % 16) ::
      hexDigitChar ((56320 + (n - 65536) % 1024) / 256 % 16) ::
      hexDigitChar ((56320 + (n - 65536) % 1024) / 16 % 16) ::
      hexDigitChar ((56320 + (n - 65536) % 1024) % 16) :: r) = _
  have hres := scanStringBody_pair8 _ _ _ _ _ _ _ _
    (55296 + (n - 65536) / 1024) (56320 + (n - 65536) % 1024)
    (hexDigitChar_isHex (Nat.mod_lt _ (by norm_num)))
    (hexDigitChar_isHex (Nat.mod_lt _ (by norm_num)))
    (hexDigitChar_isHex (Nat.mod_lt _ (by norm_num)))
    (hexDigitChar_isHex (Nat.mod_lt _ (by norm_num)))
    (hexDigitChar_isHex (Nat.mod_lt _ (by norm_num)))
    (hexDigitChar_isHex (Nat.mod_lt _ (by norm_num)))
    (hexDigitChar_isHex (Nat.mod_lt _ (by norm_num)))
    (hexDigitChar_isHex (Nat.mod_lt _ (by norm_num)))
    (hex4Val_hex4Out (by omega)) (hex4Val_hex4Out (by omega))
    (by omega) (by omega) (by omega) (by omega) r
  rw [hres]
  have harith : 65536 + (55296 + (n - 65536) / 1024 - 55296) * 1024 +
      (56320 + (n - 65536) % 1024 - 56320) = n := by omega
  rw [harith]

theorem scanStringBody_plain (c : Char) (r : List Char) (hq : c ≠ '"') (hb : c ≠ '\\')
    (hge : 32 ≤ c.toNat) :
    scanStringBody (c :: r) = (scanStringBody r).map (fun p => (c :: p.1, p.2)) := by
  rw [scanStringBody.eq_def]
  split
  · rename_i heq
    exact absurd heq (by simp)
  · rename_i rest heq
    injection heq with e1 e2
    exact absurd e1 hq
  · rename_i esc heq
    injection heq with e1 e2
    exact absurd e1 hb
  · rename_i c2 rest2 heq
    injection heq with e1 e2
    subst e1
    subst e2
    rw [if_neg (by omega)]

theorem scanStringBody_escapeChar (c : Char) (r : List Char) :
    scanStringBody (escapeChar c ++ r) = (scanStringBody r).map (fun p => (c :: p.1, p.2)) := by
  by_cases h1 : c = '"'
  · subst h1; rfl
  by_cases h2 : c = '\\'
  · subst h2; rfl
  by_cases h3 : c = Char.ofNat 8
  · subst h3; rfl
  by_cases h4 : c = Char.ofNat 12
  · subst h4; rfl
  by_cases h5 : c = '\n'
  · subst h5; rfl
  by_cases h6 : c = Char.ofNat 13
  · subst h6; rfl
  by_cases h7 : c = '\t'
  · subst h7; rfl
  have hvd : c.toNat < 55296 ∨ (57344 ≤ c.toNat ∧ c.toNat < 1114112) := c.valid
  by_cases h8 : (c.toNat < 32 || 126 < c.toNat) = true
  · rw [escapeChar, if_neg h1, if_neg h2, if_neg h3, if_neg h4, if_neg h5, if_neg h6,
      if_neg h7, if_pos h8]
    by_cases h9 : c.toNat < 65536
    · rw [if_pos h9]
      rw [scanStringBody_u c.toNat h9
        (by rcases hvd with h | h
            · exact Or.inl h
            · exact Or.inr (by omega)), Char.ofNat_toNat]
    · rw [if_neg h9]
      show scanStringBody ((('\\' :: 'u' :: hex4Out (55296 + (c.toNat - 65536) / 1024)) ++
        ('\\' :: 'u' :: hex4Out (56320 + (c.toNat - 65536) % 1024))) ++ r) = _
      rw [List.append_assoc]
      rw [scanStringBody_surrogate c.toNat (by omega)
        (by rcases hvd with h | h
            · omega
            · omega), Char.ofNat_toNat]
  · rw [escapeChar, if_neg h1, if_neg h2, if_neg h3, if_neg h4, if_neg h5, if_neg h6,
      if_neg h7, if_neg h8]
    show scanStringBody (c :: r) = _
    have h32 : 32 ≤ c.toNat := by
      simp only [Bool.or_eq_true, decide_eq_true_eq, not_or] at h8
      omega
    exact scanStringBody_plain c r h1 h2 h32

theorem scanStringBody_flatMap (s : List Char) (r : List Char) :
    scanStringBody (s.flatMap escapeChar ++ ('"' :: r)) = some (s, r) := by
  induction s with
  | nil => rfl
  | cons c cs ih =>
    rw [List.flatMap_cons, List.append_assoc, scanStringBody_escapeChar, ih]
    rfl

theorem foldInsert_fresh : ∀ pairs acc, noDupKeys (acc ++ pairs) = true →
    foldInsert acc pairs = acc ++ pairs := by
  intro pairs
  induction pairs with
  | nil => intro acc h
           simp [foldInsert]
  | cons p ps ih =>
    intro acc h
    have hfresh : acc.any (fun f => f.1 == p.1) = false := by
      rw [noDupKeys_iff] at h
      rw [List.any_eq_false]
      intro f hf
      intro hkeyb
      have hkey : f.1 = p.1 := eq_of_beq hkeyb
      have h1 : f.1 ∈ (acc ++ p :: ps).map Prod.fst := by
        simp only [List.map_append, List.mem_append]
        exact Or.inl (List.mem_map_of_mem _ hf)
      have h2 : p.1 ∈ ((acc ++ p :: ps).map Prod.fst) := by
        simp only [List.map_append, List.mem_append, List.map_cons]
        exact Or.inr (List.mem_cons_self _ _)
      have hnd := h
      rw [List.map_append, List.nodup_append] at hnd
      exact hnd.2.2 (List.mem_map_of_mem _ hf)
        (by simp only [List.map_cons]
            rw [hkey]
            exact List.mem_cons_self _ _)
    have hstep : foldInsert acc (p :: ps) = foldInsert (dictInsert acc p.1 p.2) ps := rfl
    rw [hstep, dictInsert, if_neg (by rw [hfresh]; exact Bool.false_ne_true)]
    have hps : (acc ++ [(p.1, p.2)]) ++ ps = acc ++ p :: ps := by simp
    rw [ih (acc ++ [(p.1, p.2)]) (by rw [hps]; exact h), hps]

theorem dumps_gvalx_all : ∀ n : Nat,
    (∀ v : Json, sizeOf v ≤ n → wfJson v = true → GValX (jsonDumps v) v) ∧
    (∀ items : List Json, sizeOf items ≤ n → wfList items = true → items ≠ [] →
      GElemsX (dumpsElems items) items) ∧
    (∀ fields : List (List Char × Json), sizeOf fields ≤ n → wfFields fields = true →
      fields ≠ [] → GMembersX (dumpsFields fields) fields) := by
  intro n
  induction n using Nat.strong_induction_on with
  | _ n ih =>
  refine ⟨?_, ?_, ?_⟩
  · intro v hlen hwf
    cases v with
    | null =>
      simp only [jsonDumps]
      exact GValX.gnull
    | bool b =>
      cases b
      · simp only [jsonDumps]
        exact GValX.gfalse
      · simp only [jsonDumps]
        exact GValX.gtrue
    | num t =>
      rcases hscan : scanNumTok t with _ | ⟨t2, r⟩
      · simp only [wfJson, numTokOk, hscan] at hwf
        exact absurd hwf (by simp)
      · simp only [wfJson, numTokOk, hscan, Bool.and_eq_true] at hwf
        obtain ⟨h1, h2⟩ := hwf
        have ht : t2 = t := eq_of_beq h1
        have hr : r = [] := by simpa [List.isEmpty_iff] using h2
        simp only [jsonDumps]
        exact GValX.gnum (by rw [hscan, ht, hr])
    | str s =>
      simp only [jsonDumps]
      exact GValX.gstr (scanStringBody_flatMap s [])
    | arr items =>
      rcases items with _ | ⟨v1, vs⟩
      · simp only [jsonDumps, dumpsElems]
        exact @GValX.garrNil [] rfl
      · simp only [Json.arr.sizeOf_spec] at hlen
        have hlt : sizeOf (v1 :: vs) < n := by omega
        simp only [wfJson] at hwf
        have he := (ih _ hlt).2.1 (v1 :: vs) le_rfl hwf (by simp)
        simp only [jsonDumps]
        have hg := @GValX.garr [] (dumpsElems (v1 :: vs)) (v1 :: vs) rfl he
        simpa using hg
    | obj fields =>
      rcases fields with _ | ⟨f1, fs⟩
      · simp only [jsonDumps, dumpsFields]
        exact @GValX.gobjNil [] rfl
      · simp only [Json.obj.sizeOf_spec] at hlen
        have hlt : sizeOf (f1 :: fs) < n := by omega
        simp only [wfJson, Bool.and_eq_true] at hwf
        obtain ⟨hnd, hwfF⟩ := hwf
        have hm := (ih _ hlt).2.2 (f1 :: fs) le_rfl hwfF (by simp)
        have hfold : foldInsert [] (f1 :: fs) = f1 :: fs := by
          have hres := foldInsert_fresh (f1 :: fs) [] (by simpa using hnd)
          simpa using hres
        simp only [jsonDumps]
        have hg := @GValX.gobj [] (dumpsFields (f1 :: fs)) (f1 :: fs) rfl hm
        rw [hfold] at hg
        simpa using hg
    | nan =>
      simp only [jsonDumps]
      exact GValX.gnan
    | inf b =>
      cases b
      · simp only [jsonDumps]
        exact GValX.ginf
      · simp only [jsonDumps]
        exact GValX.gninf
  · intro items hlen hwf hne
    rcases items with _ | ⟨v1, vs⟩
    · exact absurd rfl hne
    rcases vs with _ | ⟨v2, vs2⟩
    · simp only [List.cons.sizeOf_spec, List.nil.sizeOf_spec] at hlen
      have hlt : sizeOf v1 < n := by omega
      simp only [wfList, Bool.and_eq_true] at hwf
      have hv := (ih _ hlt).1 v1 le_rfl hwf.1
      simp only [dumpsElems]
      have hg := @GElemsX.one (jsonDumps v1) [] v1 hv rfl
      simpa using hg
    · simp only [List.cons.sizeOf_spec] at hlen
      have hlt1 : sizeOf v1 < n := by omega
      have hlt2 : sizeOf (v2 :: vs2) < n := by
        simp only [List.cons.sizeOf_spec]
        omega
      simp only [wfList, Bool.and_eq_true] at hwf
      have hv := (ih _ hlt1).1 v1 le_rfl hwf.1
      have he := (ih _ hlt2).2.1 (v2 :: vs2) le_rfl (by
        simp only [wfList, Bool.and_eq_true]
        exact hwf.2) (by simp)
      simp only [dumpsElems]
      have hg := @GElemsX.more (jsonDumps v1) [] [' '] (dumpsElems (v2 :: vs2)) v1
        (v2 :: vs2) hv rfl rfl he
      simpa using hg
  · intro fields hlen hwf hne
    rcases fields with _ | ⟨⟨k, v⟩, fs⟩
    · exact absurd rfl hne
    rcases fs with _ | ⟨f2, fs2⟩
    · simp only [List.cons.sizeOf_spec, List.nil.sizeOf_spec, Prod.mk.sizeOf_spec] at hlen
      have hlt : sizeOf v < n := by omega
      simp only [wfFields, Bool.and_eq_true] at hwf
      have hv := (ih _ hlt).1 v le_rfl hwf.1
      simp only [dumpsFields]
      have hg := @GMembersX.one (k.flatMap escapeChar ++ ['"']) k [] [' '] (jsonDumps v) v []
        (scanStringBody_flatMap k []) rfl rfl hv rfl
      simpa using hg
    · simp only [List.cons.sizeOf_spec, Prod.mk.sizeOf_spec] at hlen
      have hlt1 : sizeOf v < n := by omega
      have hlt2 : sizeOf (f2 :: fs2) < n := by
        simp only [List.cons.sizeOf_spec]
        omega
      simp only [wfFields, Bool.and_eq_true] at hwf
      have hv := (ih _ hlt1).1 v le_rfl hwf.1
      have hm := (ih _ hlt2).2.2 (f2 :: fs2) le_rfl (by
        simp only [wfFields, Bool.and_eq_true]
        exact hwf.2) (by simp)
      simp only [dumpsFields]
      have hg := @GMembersX.more (k.flatMap escapeChar ++ ['"']) k [] [' '] (jsonDumps v) v []
        [' '] (dumpsFields (f2 :: fs2)) (f2 :: fs2)
        (scanStringBody_flatMap k []) rfl rfl hv rfl rfl hm
      simpa using hg

theorem dumps_gvalx {v : Json} (h : wfJson v = true) : GValX (jsonDumps v) v :=
  (dumps_gvalx_all (sizeOf v)).1 v le_rfl h

theorem all_not_ctrl_of_all {s : List Char} (h : s.all (fun c => !isCtrlChar c) = true) :
    ∀ c ∈ s, isCtrlChar c = false := by
  rw [List.all_eq_true] at h
  intro c hc
  simpa using h c hc

theorem all_not_ctrl_of_ws {s : List Char} (h : s.all isJsonWs = true) :
    ∀ c ∈ s, isCtrlChar c = false := by
  rw [List.all_eq_true] at h
  intro c hc
  exact isJsonWs_not_ctrl (h c hc)

theorem gval_noctrl_all : ∀ n : Nat,
    (∀ p v, p.length ≤ n → GValX p v → ∀ c ∈ p, isCtrlChar c = false) ∧
    (∀ m vs, m.length ≤ n → GElemsX m vs → ∀ c ∈ m, isCtrlChar c = false) ∧
    (∀ m ps, m.length ≤ n → GMembersX m ps → ∀ c ∈ m, isCtrlChar c = false) := by
  intro n
  induction n using Nat.strong_induction_on with
  | _ n ih =>
  have hv : ∀ p v, p.length ≤ n → GValX p v → ∀ c ∈ p, isCtrlChar c = false := by
    intro p v hlen h
    cases h with
    | gnull => exact all_not_ctrl_of_all (by decide)
    | gtrue => exact all_not_ctrl_of_all (by decide)
    | gfalse => exact all_not_ctrl_of_all (by decide)
    | gnan => exact all_not_ctrl_of_all (by decide)
    | ginf => exact all_not_ctrl_of_all (by decide)
    | gninf => exact all_not_ctrl_of_all (by decide)
    | gstr hb =>
      rename_i body cs
      obtain ⟨q, hq, _, hnc⟩ := scanStringBody_decomp body cs [] hb
      intro c hc
      rcases List.mem_cons.mp hc with rfl | hc2
      · decide
      · rw [hq] at hc2
        rcases List.mem_append.mp hc2 with h3 | h3
        · exact hnc c h3
        · rcases List.mem_cons.mp h3 with rfl | h4
          · decide
          · exact absurd h4 (List.not_mem_nil c)
    | gnum hn =>
      obtain ⟨_, _, _, _, hchar⟩ := scanNumTok_master _ _ _ hn
      intro c hc
      exact not_ctrl_of_ge (by have := hchar c hc; omega)
    | garrNil hw =>
      rename_i w
      intro c hc
      rcases List.mem_cons.mp hc with rfl | hc2
      · decide
      · rcases List.mem_append.mp hc2 with h3 | h3
        · exact all_not_ctrl_of_ws hw c h3
        · rcases List.mem_cons.mp h3 with rfl | h4
          · decide
          · exact absurd h4 (List.not_mem_nil c)
    | garr hw hm =>
      rename_i w mid vs
      simp only [List.length_cons, List.length_append] at hlen
      have hlt : mid.length < n := by omega
      intro c hc
      rcases List.mem_cons.mp hc with rfl | hc2
      · decide
      · rcases List.mem_append.mp hc2 with h3 | h3
        · rcases List.mem_append.mp h3 with h4 | h4
          · exact all_not_ctrl_of_ws hw c h4
          · exact (ih mid.length hlt).2.1 mid vs le_rfl hm c h4
        · rcases List.mem_cons.mp h3 with rfl | h4
          · decide
          · exact absurd h4 (List.not_mem_nil c)
    | gobjNil hw =>
      rename_i w
      intro c hc
      rcases List.mem_cons.mp hc with rfl | hc2
      · decide
      · rcases List.mem_append.mp hc2 with h3 | h3
        · exact all_not_ctrl_of_ws hw c h3
        · rcases List.mem_cons.mp h3 with rfl | h4
          · decide
          · exact absurd h4 (List.not_mem_nil c)
    | gobj hw hm =>
      rename_i w mid pairs
      simp only [List.length_cons, List.length_append] at hlen
      have hlt : mid.length < n := by omega
      intro c hc
      rcases List.mem_cons.mp hc with rfl | hc2
      · decide
      · rcases List.mem_append.mp hc2 with h3 | h3
        · rcases List.mem_append.mp h3 with h4 | h4
          · exact all_not_ctrl_of_ws hw c h4
          · exact (ih mid.length hlt).2.2 mid pairs le_rfl hm c h4
        · rcases List.mem_cons.mp h3 with rfl | h4
          · decide
          · exact absurd h4 (List.not_mem_nil c)
  refine ⟨hv, ?_, ?_⟩
  · intro m vs hlen h
    cases h with
    | one hpv hw =>
      rename_i p w v
      simp only [List.length_append] at hlen
      intro c hc
      rcases List.mem_append.mp hc with h3 | h3
      · exact hv p v (by omega) hpv c h3
      · exact all_not_ctrl_of_ws hw c h3
    | more hpv hw1 hw2 hrest =>
      rename_i p w1 w2 rest v vs2
      simp only [List.length_append, List.length_cons] at hlen
      have hlt : rest.length < n := by omega
      intro c hc
      rcases List.mem_append.mp hc with h3 | h3
      · rcases List.mem_append.mp h3 with h4 | h4
        · exact hv p v (by omega) hpv c h4
        · exact all_not_ctrl_of_ws hw1 c h4
      · rcases List.mem_cons.mp h3 with rfl | h4
        · decide
        · rcases List.mem_append.mp h4 with h5 | h5
          · exact all_not_ctrl_of_ws hw2 c h5
          · exact (ih rest.length hlt).2.1 rest vs2 le_rfl hrest c h5
  · intro m ps hlen h
    cases h with
    | one hk hw1 hw2 hpv hw3 =>
      rename_i kbody k2 w1 w2 p v w3
      simp only [List.length_cons, List.length_append] at hlen
      obtain ⟨q, hq, _, hnc⟩ := scanStringBody_decomp kbody k2 [] hk
      intro c hc
      rcases List.mem_cons.mp hc with rfl | hc2
      · decide
      · rcases List.mem_append.mp hc2 with h3 | h3
        · rcases List.mem_append.mp h3 with h4 | h4
          · rw [hq] at h4
            rcases List.mem_append.mp h4 with h5 | h5
            · exact hnc c h5
            · rcases List.mem_cons.mp h5 with rfl | h6
              · decide
              · exact absurd h6 (List.not_mem_nil c)
          · exact all_not_ctrl_of_ws hw1 c h4
        · rcases List.mem_cons.mp h3 with rfl | h4
          · decide
          · rcases List.mem_append.mp h4 with h5 | h5
            · rcases List.mem_append.mp h5 with h6 | h6
              · exact all_not_ctrl_of_ws hw2 c h6
              · exact hv p v (by omega) hpv c h6
            · exact all_not_ctrl_of_ws hw3 c h5
    | more hk hw1 hw2 hpv hw3 hw4 hrest =>
      rename_i kbody k2 w1 w2 p v w3 w4 rest ps2
      simp only [List.length_cons, List.length_append] at hlen
      have hlt : rest.length < n := by omega
      obtain ⟨q, hq, _, hnc⟩ := scanStringBody_decomp kbody k2 [] hk
      intro c hc
      rcases List.mem_cons.mp hc with rfl | hc2
      · decide
      · rcases List.mem_append.mp hc2 with h3 | h3
        · rcases List.mem_append.mp h3 with h4 | h4
          · rw [hq] at h4
            rcases List.mem_append.mp h4 with h5 | h5
            · exact hnc c h5
            · rcases List.mem_cons.mp h5 with rfl | h6
              · decide
              · exact absurd h6 (List.not_mem_nil c)
          · exact all_not_ctrl_of_ws hw1 c h4
        · rcases List.mem_cons.mp h3 with rfl | h4
          · decide
          · rcases List.mem_append.mp h4 with h5 | h5
            · rcases List.mem_append.mp h5 with h6 | h6
              · rcases List.mem_append.mp h6 with h7 | h7
                · exact all_not_ctrl_of_ws hw2 c h7
                · exact hv p v (by omega) hpv c h7
              · exact all_not_ctrl_of_ws hw3 c h6
            · rcases List.mem_cons.mp h5 with rfl | h6
              · decide
              · rcases List.mem_append.mp h6 with h7 | h7
                · exact all_not_ctrl_of_ws hw4 c h7
                · exact (ih rest.length hlt).2.2 rest ps2 le_rfl hrest c h7

theorem gval_noctrl {p : List Char} {v : Json} (h : GValX p v) :
    ∀ c ∈ p, isCtrlChar c = false :=
  (gval_noctrl_all p.length).1 p v le_rfl h

theorem gval_container_head {p : List Char} {v : Json} (h : GValX p v)
    (hc : isContainer v = true) : ∃ rest, p = '{' :: rest ∨ p = '[' :: rest := by
  cases h <;> first
    | exact ⟨_, Or.inl rfl⟩
    | exact ⟨_, Or.inr rfl⟩
    | simp [isContainer] at hc

theorem numStopOk_container {v : Json} (h : isContainer v = true) (r : List Char) :
    numStopOk v r = true := by
  cases v <;> simp [isContainer] at h <;> cases r <;> rfl

theorem jsonLoads_of_gval {p : List Char} {v : Json} (h : GValX p v) :
    jsonLoads p = some v := by
  obtain ⟨c, cs, hp, hcw, _, _, _, _, _⟩ := gval_edge h
  have hskip : skipJsonWs p = p := by
    apply skipJsonWs_eq_self
    intro e he
    rw [hp, List.head?_cons, Option.some.injEq] at he
    subst he
    exact hcw
  have hscan : scanValue (p.length + 1) p = some (v, []) := by
    have hres := gval_sound h (p.length + 1) [] (by omega) (numStopOk_nil v)
    simpa using hres
  simp only [jsonLoads, hskip, hscan]
  rfl

theorem jsonLoads_decomp {s : List Char} {v : Json} (h : jsonLoads s = some v) :
    ∃ w1 p w2, s = w1 ++ (p ++ w2) ∧ w1.all isJsonWs = true ∧ w2.all isJsonWs = true ∧
      GValX p v := by
  rcases hsv : scanValue (s.length + 1) (skipJsonWs s) with _ | ⟨v2, rest⟩
  · simp only [jsonLoads, hsv] at h
    exact absurd h (by simp)
  · simp only [jsonLoads, hsv] at h
    split at h
    · rename_i hemp
      rw [Option.some.injEq] at h
      subst h
      obtain ⟨p, hps, hgv⟩ := (scan_complete_all (s.length + 1)).1 (skipJsonWs s) v2 rest hsv
      obtain ⟨w1, hw1, hw1a⟩ := skipJsonWs_decomp s
      refine ⟨w1, p, rest, ?_, hw1a, skipJsonWs_empty_all hemp, hgv⟩
      rw [hw1, hps]
    · exact absurd h (by simp)

theorem jsonLoads_wf {s : List Char} {v : Json} (h : jsonLoads s = some v) :
    wfJson v = true := by
  obtain ⟨w1, p, w2, _, _, _, hgv⟩ := jsonLoads_decomp h
  exact wf_of_grammar hgv

theorem parseJsonLike_of_loads (litEval : List Char → Option Json) {s : List Char} {v : Json}
    (hl : jsonLoads s = some v) (ht : '`' ∉ s) :
    parseJsonLike litEval s = v := by
  obtain ⟨w1, p, w2, hs, hw1, hw2, hgv⟩ := jsonLoads_decomp hl
  obtain ⟨c, cs, hp, hjw, hpw, _, _, _, d, hdl, hjd, hpd⟩ := gval_edge hgv
  have hstrip : pyStrip s = p := by
    rw [hs]
    refine pyStrip_sandwich w1 p w2 (by rw [hp]; simp) ?_ ?_ ?_ ?_
    · intro x hx
      exact isJsonWs_isPySpace (List.all_eq_true.mp hw1 x hx)
    · intro x hx
      exact isJsonWs_isPySpace (List.all_eq_true.mp hw2 x hx)
    · intro x hx
      rw [hp, List.head?_cons, Option.some.injEq] at hx
      subst hx
      exact hpw
    · intro x hx
      rw [hdl, Option.some.injEq] at hx
      subst hx
      exact hpd
  have hnt : '`' ∉ pyStrip s := fun hm => ht (mem_of_mem_pyStrip hm)
  have hfence : stripFences (pyStrip s) = pyStrip s := stripFences_no_tick hnt
  have hctrl : ctrlSub (pyStrip (pyStrip s)) = p := by
    rw [pyStrip_idem, hstrip]
    exact ctrlSub_eq_self (gval_noctrl hgv)
  have hloadp : jsonLoads p = some v := jsonLoads_of_gval hgv
  simp only [parseJsonLike, hfence, hctrl, hloadp]

theorem chatJson_of_loads (litEval : List Char → Option Json) (repair : List Char)
    {s : List Char} {v : Json} (hl : jsonLoads s = some v) (hnn : v ≠ .null)
    (ht : '`' ∉ s) :
    chatJson litEval s repair = (.ok v, false) := by
  have hpj := parseJsonLike_of_loads litEval hl ht
  cases v with
  | null => exact absurd rfl hnn
  | bool b => simp only [chatJson, hpj]
  | num t => simp only [chatJson, hpj]
  | str s2 => simp only [chatJson, hpj]
  | arr items => simp only [chatJson, hpj]
  | obj fields => simp only [chatJson, hpj]
  | nan => simp only [chatJson, hpj]
  | inf b => simp only [chatJson, hpj]

theorem stripFences_fenced {s : List Char} (h : '`' ∉ s) :
    stripFences ("```json\n".data ++ (s ++ "\n```".data)) = '\n' :: (s ++ ['\n']) := by
  have hu : ∀ c ∈ '\n' :: (s ++ ['\n']), c ≠ '`' := by
    intro c hc
    rcases List.mem_cons.mp hc with rfl | hc2
    · decide
    · rcases List.mem_append.mp hc2 with h3 | h3
      · exact fun he => h (he ▸ h3)
      · rcases List.mem_cons.mp h3 with rfl | h4
        · decide
        · exact absurd h4 (List.not_mem_nil c)
  have hF : "```json\n".data ++ (s ++ "\n```".data) =
      ('`' :: "``json".data) ++ (('\n' :: (s ++ ['\n'])) ++ "```".data) := by
    show '`' :: '`' :: '`' :: 'j' :: 's' :: 'o' :: 'n' :: '\n' ::
        (s ++ ('\n' :: '`' :: '`' :: '`' :: [])) =
      '`' :: '`' :: '`' :: 'j' :: 's' :: 'o' :: 'n' :: '\n' ::
        ((s ++ ['\n']) ++ ('`' :: '`' :: '`' :: []))
    simp
  have h1 : pyReplace '`' "``json".data [] ("```json\n".data ++ (s ++ "\n```".data)) =
      ('\n' :: (s ++ ['\n'])) ++ "```".data := by
    rw [hF, pyReplace_head_match]
    rw [pyReplace_append_no_head '`' "``json".data [] _ hu]
    rw [pyReplace_not_contains '`' "``json".data [] "```".data (by decide)]
    simp
  have h2 : pyReplace '`' "``".data [] (('\n' :: (s ++ ['\n'])) ++ "```".data) =
      '\n' :: (s ++ ['\n']) := by
    rw [pyReplace_append_no_head '`' "``".data [] _ hu]
    have h3 : pyReplace '`' "``".data [] ("```".data) = [] := by
      show pyReplace '`' "``".data [] (('`' :: "``".data) ++ []) = []
      rw [pyReplace_head_match]
      simp [pyReplace]
    rw [h3]
    simp
  show pyReplace '`' "``".data []
    (pyReplace '`' "``json".data [] ("```json\n".data ++ (s ++ "\n```".data))) = _
  rw [h1, h2]

theorem parseJsonLike_fenced (litEval : List Char → Option Json) {s : List Char} {v : Json}
    (hl : jsonLoads s = some v) (ht : '`' ∉ s) :
    parseJsonLike litEval ("```json\n".data ++ (s ++ "\n```".data)) = v := by
  obtain ⟨w1, p, w2, hs, hw1, hw2, hgv⟩ := jsonLoads_decomp hl
  obtain ⟨c, cs, hp, hjw, hpw, _, _, _, d, hdl, hjd, hpd⟩ := gval_edge hgv
  have hstr1 : pyStrip ("```json\n".data ++ (s ++ "\n```".data)) =
      "```json\n".data ++ (s ++ "\n```".data) := by
    have hhead : pyLStrip ("```json\n".data ++ (s ++ "\n```".data)) =
        "```json\n".data ++ (s ++ "\n```".data) := by
      apply pyLStrip_eq_self_of_head
      intro x hx
      rw [show ("```json\n".data ++ (s ++ "\n```".data)) =
        '`' :: ("``json\n".data ++ (s ++ "\n```".data)) from rfl,
        List.head?_cons, Option.some.injEq] at hx
      subst hx
      decide
    have hlast : pyRStrip ("```json\n".data ++ (s ++ "\n```".data)) =
        "```json\n".data ++ (s ++ "\n```".data) := by
      apply pyRStrip_eq_self_of_last
      intro x hx
      rw [List.getLast?_append_of_ne_nil _ (by
        simp only [ne_eq, List.append_eq_nil]
        intro hcon
        exact absurd hcon.2 (by decide))] at hx
      rw [List.getLast?_append_of_ne_nil _ (by decide)] at hx
      rw [show ("\n```".data).getLast? = some '`' from rfl, Option.some.injEq] at hx
      subst hx
      decide
    show pyRStrip (pyLStrip ("```json\n".data ++ (s ++ "\n```".data))) = _
    rw [hhead, hlast]
  have hfence := stripFences_fenced ht
  have hstr2 : pyStrip ('\n' :: (s ++ ['\n'])) = p := by
    have hshape : '\n' :: (s ++ ['\n']) = ('\n' :: w1) ++ (p ++ (w2 ++ ['\n'])) := by
      rw [hs]
      simp
    rw [hshape]
    refine pyStrip_sandwich ('\n' :: w1) p (w2 ++ ['\n']) (by rw [hp]; simp) ?_ ?_ ?_ ?_
    · intro x hx
      rcases List.mem_cons.mp hx with rfl | hx2
      · decide
      · exact isJsonWs_isPySpace (List.all_eq_true.mp hw1 x hx2)
    · intro x hx
      rcases List.mem_append.mp hx with hx2 | hx2
      · exact isJsonWs_isPySpace (List.all_eq_true.mp hw2 x hx2)
      · rcases List.mem_cons.mp hx2 with rfl | hx3
        · decide
        · exact absurd hx3 (List.not_mem_nil x)
    · intro x hx
      rw [hp, List.head?_cons, Option.some.injEq] at hx
      subst hx
      exact hpw
    · intro x hx
      rw [hdl, Option.some.injEq] at hx
      subst hx
      exact hpd
  have hctrl : ctrlSub p = p := ctrlSub_eq_self (gval_noctrl hgv)
  have hloadp : jsonLoads p = some v := jsonLoads_of_gval hgv
  simp only [parseJsonLike, hstr1, hfence, hstr2, hctrl, hloadp]

theorem chatJson_fenced (litEval : List Char → Option Json) (repair : List Char)
    {s : List Char} {v : Json} (hl : jsonLoads s = some v) (hnn : v ≠ .null)
    (ht : '`' ∉ s) :
    chatJson litEval ("```json\n".data ++ (s ++ "\n```".data)) repair = (.ok v, false) := by
  have hpj := parseJsonLike_fenced litEval hl ht
  cases v with
  | null => exact absurd rfl hnn
  | bool b => simp only [chatJson, hpj]
  | num t => simp only [chatJson, hpj]
  | str s2 => simp only [chatJson, hpj]
  | arr items => simp only [chatJson, hpj]
  | obj fields => simp only [chatJson, hpj]
  | nan => simp only [chatJson, hpj]
  | inf b => simp only [chatJson, hpj]

theorem parseJsonLike_prose (litEval : List Char → Option Json) {s t : List Char} {v : Json}
    (hl : jsonLoads s = some v) (hcont : isContainer v = true)
    (hts : '`' ∉ s) (htt : '`' ∉ t)
    (htc : ∀ c ∈ t, isCtrlChar c = false)
    (htlast : ∀ c, t.getLast? = some c → isPySpace c = false)
    (htne : t ≠ []) :
    parseJsonLike litEval (s ++ t) = v := by
  obtain ⟨w1, p, w2, hs, hw1, hw2, hgv⟩ := jsonLoads_decomp hl
  obtain ⟨c, cs, hp, hjw, hpw, _, _, _, d, hdl, hjd, hpd⟩ := gval_edge hgv
  have hshape : s ++ t = w1 ++ (p ++ (w2 ++ t)) := by
    rw [hs]
    simp
  have hstrip : pyStrip (s ++ t) = p ++ (w2 ++ t) := by
    rw [hshape]
    show pyRStrip (pyLStrip (w1 ++ (p ++ (w2 ++ t)))) = _
    rw [pyLStrip_append_ws (fun x hx => isJsonWs_isPySpace (List.all_eq_true.mp hw1 x hx)) _]
    have hh : pyLStrip (p ++ (w2 ++ t)) = p ++ (w2 ++ t) := by
      apply pyLStrip_eq_self_of_head
      intro x hx
      rw [hp, List.cons_append, List.head?_cons, Option.some.injEq] at hx
      subst hx
      exact hpw
    rw [hh]
    apply pyRStrip_eq_self_of_last
    intro x hx
    rw [List.getLast?_append_of_ne_nil _ (by
      simp only [ne_eq, List.append_eq_nil]
      intro hcon
      exact htne hcon.2)] at hx
    rw [List.getLast?_append_of_ne_nil _ htne] at hx
    exact htlast x hx
  have hstrip2 : pyStrip (p ++ (w2 ++ t)) = p ++ (w2 ++ t) := by
    rw [← hstrip]
    exact pyStrip_idem (s ++ t)
  have hnt2 : '`' ∉ p ++ (w2 ++ t) := by
    intro hm
    rcases List.mem_append.mp hm with h3 | h3
    · exact hts (by
        rw [hs]
        exact List.mem_append.mpr (Or.inr (List.mem_append.mpr (Or.inl h3))))
    · rcases List.mem_append.mp h3 with h4 | h4
      · exact hts (by
          rw [hs]
          exact List.mem_append.mpr (Or.inr (List.mem_append.mpr (Or.inr h4))))
      · exact htt h4
  have hfence2 : stripFences (p ++ (w2 ++ t)) = p ++ (w2 ++ t) := stripFences_no_tick hnt2
  have hctrl : ctrlSub (p ++ (w2 ++ t)) = p ++ (w2 ++ t) := by
    apply ctrlSub_eq_self
    intro x hx
    rcases List.mem_append.mp hx with h3 | h3
    · exact gval_noctrl hgv x h3
    · rcases List.mem_append.mp h3 with h4 | h4
      · exact all_not_ctrl_of_ws hw2 x h4
      · exact htc x h4
  have hlen0 : p.length < (p ++ (w2 ++ t)).length + 1 := by
    simp only [List.length_append]
    omega
  have hscan : scanValue ((p ++ (w2 ++ t)).length + 1) (p ++ (w2 ++ t)) =
      some (v, w2 ++ t) :=
    gval_sound hgv _ (w2 ++ t) hlen0 (numStopOk_container hcont _)
  have hskip0 : skipJsonWs (p ++ (w2 ++ t)) = p ++ (w2 ++ t) := by
    apply skipJsonWs_eq_self
    intro x hx
    rw [hp, List.cons_append, List.head?_cons, Option.some.injEq] at hx
    subst hx
    exact hjw
  have hrestne : (skipJsonWs (w2 ++ t)).isEmpty = false := by
    rw [skipJsonWs_append_ws hw2]
    by_contra hbad
    rw [Bool.not_eq_false] at hbad
    have hall := skipJsonWs_empty_all hbad
    obtain ⟨dd, hdd⟩ := Option.isSome_iff_exists.mp (List.getLast?_isSome.mpr htne)
    have hmem := List.mem_of_mem_getLast? hdd
    have hws := isJsonWs_isPySpace (List.all_eq_true.mp hall dd hmem)
    rw [htlast dd hdd] at hws
    exact absurd hws (by simp)
  have hloads0 : jsonLoads (p ++ (w2 ++ t)) = none := by
    simp only [jsonLoads, hskip0, hscan, hrestne]
    rfl
  obtain ⟨rest0, hbr⟩ := gval_container_head hgv hcont
  have hbrace : braceScan (p ++ (w2 ++ t)) = some v := by
    rcases hbr with hbr | hbr
    · have hcons : p ++ (w2 ++ t) = '{' :: (rest0 ++ (w2 ++ t)) := by
        rw [hbr]
        rfl
      have hraw : jsonRawDecode ('{' :: (rest0 ++ (w2 ++ t))) = some (v, w2 ++ t) := by
        rw [← hcons]
        exact hscan
      rw [braceScan, hcons]
      simp only [List.length_cons, List.range_succ_eq_map]
      rw [braceScanAux]
      simp only [List.getD_cons_zero]
      rw [if_pos (by decide)]
      simp only [List.drop_zero, hraw]
    · have hcons : p ++ (w2 ++ t) = '[' :: (rest0 ++ (w2 ++ t)) := by
        rw [hbr]
        rfl
      have hraw : jsonRawDecode ('[' :: (rest0 ++ (w2 ++ t))) = some (v, w2 ++ t) := by
        rw [← hcons]
        exact hscan
      rw [braceScan, hcons]
      simp only [List.length_cons, List.range_succ_eq_map]
      rw [braceScanAux]
      simp only [List.getD_cons_zero]
      rw [if_pos (by decide)]
      simp only [List.drop_zero, hraw]
  simp only [parseJsonLike, hstrip, hfence2, hstrip2, hctrl, hloads0, hbrace]

theorem chatJson_prose (litEval : List Char → Option Json) (repair : List Char)
    {s t : List Char} {v : Json}
    (hl : jsonLoads s = some v) (hcont : isContainer v = true)
    (hts : '`' ∉ s) (htt : '`' ∉ t)
    (htc : ∀ c ∈ t, isCtrlChar c = false)
    (htlast : ∀ c, t.getLast? = some c → isPySpace c = false)
    (htne : t ≠ []) :
    chatJson litEval (s ++ t) repair = (.ok v, false) := by
  have hpj := parseJsonLike_prose litEval hl hcont hts htt htc htlast htne
  have hnn : v ≠ .null := by
    intro heq
    rw [heq] at hcont
    exact absurd hcont (by simp [isContainer])
  cases v with
  | null => exact absurd rfl hnn
  | bool b => simp only [chatJson, hpj]
  | num t2 => simp only [chatJson, hpj]
  | str s2 => simp only [chatJson, hpj]
  | arr items => simp only [chatJson, hpj]
  | obj fields => simp only [chatJson, hpj]
  | nan => simp only [chatJson, hpj]
  | inf b => simp only [chatJson, hpj]

/-- C7: for a reply that is already valid JSON (no backticks, non-null result),
`chat_json` succeeds without the repair request; the parse result is
well-formed; re-serializing and re-parsing returns the same structure; and
the same holds under markdown fences and with trailing prose after a
container value. -/
theorem C7_chat_json_roundtrip :
    (∀ litEval : List Char → Option Json, ∀ repair s : List Char, ∀ v : Json,
      jsonLoads s = some v → v ≠ .null → '`' ∉ s →
      chatJson litEval s repair = (.ok v, false)) ∧
    (∀ s : List Char, ∀ v : Json, jsonLoads s = some v → wfJson v = true) ∧
    (∀ litEval : List Char → Option Json, ∀ repair s : List Char, ∀ v : Json,
      jsonLoads s = some v → v ≠ .null → '`' ∉ jsonDumps v →
      chatJson litEval (jsonDumps v) repair = (.ok v, false)) ∧
    (∀ litEval : List Char → Option Json, ∀ repair s : List Char, ∀ v : Json,
      jsonLoads s = some v → v ≠ .null → '`' ∉ s →
      chatJson litEval ("```json\n".data ++ (s ++ "\n```".data)) repair = (.ok v, false)) ∧
    (∀ litEval : List Char → Option Json, ∀ repair s t : List Char, ∀ v : Json,
      jsonLoads s = some v → isContainer v = true → '`' ∉ s → '`' ∉ t →
      (∀ c ∈ t, isCtrlChar c = false) →
      (∀ c, t.getLast? = some c → isPySpace c = false) → t ≠ [] →
      chatJson litEval (s ++ t) repair = (.ok v, false)) := by
  refine ⟨?_, ?_, ?_, ?_, ?_⟩
  · intro litEval repair s v hl hnn ht
    exact chatJson_of_loads litEval repair hl hnn ht
  · intro s v hl
    exact jsonLoads_wf hl
  · intro litEval repair s v hl hnn ht
    have hwf := jsonLoads_wf hl
    have hgd := dumps_gvalx hwf
    have hld : jsonLoads (jsonDumps v) = some v := jsonLoads_of_gval hgd
    exact chatJson_of_loads litEval repair hld hnn ht
  · intro litEval repair s v hl hnn ht
    exact chatJson_fenced litEval repair hl hnn ht
  · intro litEval repair s t v hl hcont hts htt htc htlast htne
    exact chatJson_prose litEval repair hl hcont hts htt htc htlast htne

/-- C7 counterexample: the reply `null` is valid JSON, yet `chat_json`
conflates the parsed `None` with the failure sentinel of
`_parse_json_like`, issues the repair request, and raises after the
repair reply `null` parses the same way. -/
theorem C7_counterexample :
    jsonLoads ("null".data) = some .null ∧
    chatJson litEvalNone ("null".data) ("null".data) =
      (.error ⟨jsonDecodeErrMsg⟩, true) := by
  have h1 : pyStrip ("null".data) = ("null").data := rfl
  have h2 : stripFences (("null").data) = ("null").data := stripFences_no_tick (by decide)
  have h3 : ctrlSub (("null").data) = ("null").data := rfl
  have h4 : jsonLoads (("null").data) = some .null := rfl
  have hparse : parseJsonLike litEvalNone (("null").data) = .null := by
    simp only [parseJsonLike, h1, h2, h3, h4]
  constructor
  · rfl
  · simp only [chatJson, hparse]

theorem C7_chat_json_roundtrip_witness :
    chatJson litEvalNone ("[1, 2]".data) []
      = (.ok (Json.arr [Json.num ("1").data, Json.num ("2").data]), false) ∧
    chatJson litEvalNone (jsonDumps (Json.arr [Json.num ("1").data, Json.num ("2").data])) []
      = (.ok (Json.arr [Json.num ("1").data, Json.num ("2").data]), false) ∧
    chatJson litEvalNone ("```json\n".data ++ ("[1, 2]".data ++ "\n```".data)) []
      = (.ok (Json.arr [Json.num ("1").data, Json.num ("2").data]), false) ∧
    chatJson litEvalNone ("[1, 2]".data ++ (" ok").data) []
      = (.ok (Json.arr [Json.num ("1").data, Json.num ("2").data]), false) := by
  refine ⟨?_, ?_, ?_, ?_⟩
  · exact C7_chat_json_roundtrip.1 litEvalNone [] ("[1, 2]").data
      (Json.arr [Json.num ("1").data, Json.num ("2").data]) rfl
      (fun h => Json.noConfusion h) (by decide)
  · exact C7_chat_json_roundtrip.2.2.1 litEvalNone [] ("[1, 2]").data
      (Json.arr [Json.num ("1").data, Json.num ("2").data]) rfl
      (fun h => Json.noConfusion h) (by decide)
  · exact C7_chat_json_roundtrip.2.2.2.1 litEvalNone [] ("[1, 2]").data
      (Json.arr [Json.num ("1").data, Json.num ("2").data]) rfl
      (fun h => Json.noConfusion h) (by decide)
  · exact C7_chat_json_roundtrip.2.2.2.2 litEvalNone [] ("[1, 2]").data ((" ok").data)
      (Json.arr [Json.num ("1").data, Json.num ("2").data]) rfl rfl (by decide) (by decide)
      (by decide)
      (by
        intro c hc
        have hc2 : some 'k' = some c := hc
        injection hc2 with h2
        rw [← h2]
        decide)
      (by decide)
